import Mathlib

/-!
# graph_traversal: a shallow embedding of `my_graphs.h`

The vertex type `T` of the templates is modelled by `Nat`; `std::vector`,
`std::stack` and `std::queue` are modelled by `List`.  A stack is kept with
its top at the head of the list, a queue with its front at the head.  The
function objects handed to the traversals (`prev`, `post`, `build`, `proc`)
are modelled by the sequence of calls they receive.

A `while` loop is modelled by a function with a fuel argument that counts the
evaluations of the loop condition; it answers `none` when the fuel runs out.
Element access `vec[i]` is modelled by `read_at` (reads, `0` outside the
vector) and `List.set` (writes, dropped outside the vector).  The decrement
of a `size_t` is modelled by `size_pred`, which wraps around at `0`.  A call
of `back()` on an empty vector has no defined behaviour: it ends the run of
`graph_strongly_connected` with the outcome `empty_back`.
-/

namespace GraphTraversal

/-! ## The graph container -/

/-- Orientation tag, `enum class graph_type`. -/
inductive graph_type where
  | directed
  | undirected
deriving DecidableEq

/-- Adjacency lists, `class graph_adj_list`; slot `0` of `list_` is not a vertex. -/
structure graph_adj_list where
  type_ : graph_type
  list_ : List (List Nat)
deriving DecidableEq

/-- The decrement `n - 1` of a `size_t` (64 bit): `0` wraps around to `2 ^ 64 - 1`. -/
def size_pred : Nat → Nat
  | 0 => 2 ^ 64 - 1
  | k + 1 => k

/-- The member `no_vertices()`: `list_.size() - 1` computed in `size_t`. -/
def graph_adj_list.no_vertices (g : graph_adj_list) : Nat :=
  size_pred g.list_.length

/-- The member `operator[]`. -/
def graph_adj_list.get (g : graph_adj_list) (i : Nat) : List Nat :=
  g.list_.getD i []

/-- A graph is well formed when `list_` has one slot per vertex besides slot `0`,
there is at least one vertex, and every entry of the adjacency list of a vertex
`1..N` is itself a vertex `1..N`. -/
def WellFormed (g : graph_adj_list) : Prop :=
  g.list_.length = g.no_vertices + 1 ∧ 1 ≤ g.no_vertices ∧
    ∀ u, u < g.no_vertices + 1 → 1 ≤ u → ∀ v ∈ g.get u, 1 ≤ v ∧ v ≤ g.no_vertices

instance (g : graph_adj_list) : Decidable (WellFormed g) := by
  unfold WellFormed; infer_instance

/-- The read `vec[i]` of a vector of integers. -/
def read_at (vec : List Nat) (i : Nat) : Nat :=
  vec.getD i 0

/-- The scan `for (; i <= no_vertices && visited[i] != 0; ++i) ;` started at `i`;
the result is the final value of `i`.  The first numeric argument bounds the number
of increments that remain. -/
def first_unvisited (no_vertices : Nat) (visited : List Nat) : Nat → Nat → Nat
  | 0, i => i
  | k + 1, i =>
    if i ≤ no_vertices ∧ read_at visited i ≠ 0 then
      first_unvisited no_vertices visited k (i + 1)
    else i

/-! ## Depth-first traversal -/

/-- Local state of `graph_dfs` together with the calls received by the hooks.  The
field `restarts` is not a variable of the source: it records, in order, the values
pushed by `v_stack.push(i)` after the scan for an unvisited vertex. -/
structure dfs_state where
  visited : List Nat
  v_stack : List Nat
  no_processed : Nat
  prev : List Nat
  post : List Nat
  build : List (Nat × Nat)
  restarts : List Nat
deriving DecidableEq

/-- Body of `for (auto e : graph[curr])` in `graph_dfs`, acting on the stack and on
the calls of `build`. -/
def dfs_push (visited : List Nat) (curr : Nat) (acc : List Nat × List (Nat × Nat))
    (e : Nat) : List Nat × List (Nat × Nat) :=
  if read_at visited e = 0 then (e :: acc.1, acc.2 ++ [(e, curr)]) else acc

/-- The part of the loop body of `graph_dfs` after `T curr = v_stack.top()`, with
`rest` the stack below `curr`. -/
def dfs_visit (g : graph_adj_list) (s : dfs_state) (curr : Nat) (rest : List Nat) :
    dfs_state :=
  if read_at s.visited curr = 0 then
    let visited := s.visited.set curr 1
    let r := (g.get curr).foldl (dfs_push visited curr) (curr :: rest, s.build)
    { s with visited := visited, v_stack := r.1, prev := s.prev ++ [curr], build := r.2 }
  else if read_at s.visited curr = 1 then
    { s with v_stack := rest, post := s.post ++ [curr],
             no_processed := s.no_processed + 1, visited := s.visited.set curr 2 }
  else
    { s with v_stack := rest }

/-- One pass through the body of the `while` loop of `graph_dfs`. -/
def dfs_iter (g : graph_adj_list) (s : dfs_state) : dfs_state :=
  match s.v_stack with
  | [] =>
    dfs_visit g
      { s with restarts :=
          s.restarts ++ [first_unvisited g.no_vertices s.visited g.no_vertices 1] }
      (first_unvisited g.no_vertices s.visited g.no_vertices 1) []
  | curr :: rest => dfs_visit g s curr rest

/-- The loop `while (no_processed < no_vertices)` of `graph_dfs`. -/
def dfs_loop (g : graph_adj_list) : Nat → dfs_state → Option dfs_state
  | 0, _ => none
  | fuel + 1, s =>
    if s.no_processed < g.no_vertices then dfs_loop g fuel (dfs_iter g s) else some s

/-- What a call of `graph_dfs` yields: the returned code and the calls made to the
three hooks, each in order. -/
structure dfs_result where
  ret : Nat
  prev : List Nat
  post : List Nat
  build : List (Nat × Nat)
deriving DecidableEq

/-- State of `graph_dfs` on entry to its loop. -/
def dfs_init (g : graph_adj_list) (v : Nat) : dfs_state :=
  { visited := List.replicate (g.no_vertices + 1) 0, v_stack := [v], no_processed := 0,
    prev := [], post := [], build := [], restarts := [] }

/-- The function `graph_dfs`. -/
def graph_dfs (g : graph_adj_list) (v : Nat) (fuel : Nat) : Option dfs_result :=
  if v < 1 ∨ v > g.no_vertices then some { ret := 1, prev := [], post := [], build := [] }
  else (dfs_loop g fuel (dfs_init g v)).map
    (fun s => { ret := 0, prev := s.prev, post := s.post, build := s.build })

/-! ## Breadth-first traversal -/

/-- Local state of `graph_bfs` together with the calls received by the hooks. -/
structure bfs_state where
  visited : List Nat
  v_queue : List Nat
  no_processed : Nat
  proc : List (Nat × Nat)
  post : List Nat
deriving DecidableEq

/-- Body of `for (auto e : graph[curr])` in `graph_bfs`, acting on `visited`, on the
queue and on the calls of `proc`. -/
def bfs_push (curr : Nat) (acc : List Nat × List Nat × List (Nat × Nat)) (e : Nat) :
    List Nat × List Nat × List (Nat × Nat) :=
  if read_at acc.1 e = 0 then (acc.1.set e 1, acc.2.1 ++ [e], acc.2.2 ++ [(e, curr)]) else acc

/-- The part of the loop body of `graph_bfs` from `T curr = v_queue.front()` on, with
`visited` the array at that point and `rest` the queue behind `curr`. -/
def bfs_visit (g : graph_adj_list) (s : bfs_state) (visited : List Nat) (curr : Nat)
    (rest : List Nat) : bfs_state :=
  let r := (g.get curr).foldl (bfs_push curr) (visited, curr :: rest, s.proc)
  { visited := r.1.set curr 2, v_queue := r.2.1.tail, no_processed := s.no_processed + 1,
    proc := r.2.2, post := s.post ++ [curr] }

/-- One pass through the body of the `while` loop of `graph_bfs`. -/
def bfs_iter (g : graph_adj_list) (s : bfs_state) : bfs_state :=
  match s.v_queue with
  | [] =>
    bfs_visit g s
      (s.visited.set (first_unvisited g.no_vertices s.visited g.no_vertices 1) 1)
      (first_unvisited g.no_vertices s.visited g.no_vertices 1) []
  | curr :: rest => bfs_visit g s s.visited curr rest

/-- The loop `while (no_processed < no_vertices)` of `graph_bfs`. -/
def bfs_loop (g : graph_adj_list) : Nat → bfs_state → Option bfs_state
  | 0, _ => none
  | fuel + 1, s =>
    if s.no_processed < g.no_vertices then bfs_loop g fuel (bfs_iter g s) else some s

/-- What a call of `graph_bfs` yields: the returned code and the calls made to the two
hooks, each in order. -/
structure bfs_result where
  ret : Nat
  proc : List (Nat × Nat)
  post : List Nat
deriving DecidableEq

/-- State of `graph_bfs` on entry to its loop. -/
def bfs_init (g : graph_adj_list) (start_v : Nat) : bfs_state :=
  { visited := (List.replicate (g.no_vertices + 1) 0).set start_v 1, v_queue := [start_v],
    no_processed := 0, proc := [], post := [] }

/-- The function `graph_bfs`. -/
def graph_bfs (g : graph_adj_list) (start_v : Nat) (fuel : Nat) : Option bfs_result :=
  if start_v < 1 ∨ start_v > g.no_vertices then some { ret := 1, proc := [], post := [] }
  else (bfs_loop g fuel (bfs_init g start_v)).map
    (fun s => { ret := 0, proc := s.proc, post := s.post })

/-! ## Topological sort -/

/-- Local state of `graph_topological_sort`. -/
structure topo_state where
  visited : List Nat
  v_stack : List Nat
  no_processed : Nat
  list : List Nat
  head : Nat
deriving DecidableEq

/-- The loop `for (auto e : graph[curr])` of `graph_topological_sort` acting on the
stack; `none` stands for the `return std::nullopt` inside it. -/
def topo_scan (visited : List Nat) : List Nat → List Nat → Option (List Nat)
  | [], stk => some stk
  | e :: es, stk =>
    if read_at visited e = 0 then topo_scan visited es (e :: stk)
    else if read_at visited e = 1 then none
    else topo_scan visited es stk

/-- The part of the loop body of `graph_topological_sort` after
`T curr = v_stack.top()`; `none` stands for `return std::nullopt`. -/
def topo_visit (g : graph_adj_list) (s : topo_state) (curr : Nat) (rest : List Nat) :
    Option topo_state :=
  if read_at s.visited curr = 0 then
    match topo_scan (s.visited.set curr 1) (g.get curr) (curr :: rest) with
    | none => none
    | some stk => some { s with visited := s.visited.set curr 1, v_stack := stk }
  else if read_at s.visited curr = 1 then
    some { s with v_stack := rest, list := s.list.set s.head curr,
                  head := size_pred s.head,
                  no_processed := s.no_processed + 1, visited := s.visited.set curr 2 }
  else
    some { s with v_stack := rest }

/-- One pass through the body of the `while` loop of `graph_topological_sort`. -/
def topo_iter (g : graph_adj_list) (s : topo_state) : Option topo_state :=
  match s.v_stack with
  | [] => topo_visit g s (first_unvisited g.no_vertices s.visited g.no_vertices 1) []
  | curr :: rest => topo_visit g s curr rest

/-- The loop `while (no_processed < no_vertices)` of `graph_topological_sort`; the
inner `none` stands for `std::nullopt`. -/
def topo_loop (g : graph_adj_list) : Nat → topo_state → Option (Option (List Nat))
  | 0, _ => none
  | fuel + 1, s =>
    if s.no_processed < g.no_vertices then
      match topo_iter g s with
      | none => some none
      | some t => topo_loop g fuel t
    else some (some s.list)

/-- State of `graph_topological_sort` on entry to its loop. -/
def topo_init (g : graph_adj_list) (start_v : Nat) : topo_state :=
  { visited := List.replicate (g.no_vertices + 1) 0, v_stack := [start_v], no_processed := 0,
    list := List.replicate g.no_vertices 0, head := size_pred g.no_vertices }

/-- The function `graph_topological_sort`; the inner `none` stands for `std::nullopt`. -/
def graph_topological_sort (g : graph_adj_list) (start_v : Nat) (fuel : Nat) :
    Option (Option (List Nat)) :=
  topo_loop g fuel (topo_init g start_v)

/-! ## Strongly connected components -/

/-- The statement `list[v].push_back(i)` of `graph_strongly_connected`. -/
def transpose_push (i : Nat) (list : List (List Nat)) (v : Nat) : List (List Nat) :=
  list.set v (list.getD v [] ++ [i])

/-- The two nested `for` loops of `graph_strongly_connected` that fill `list`. -/
def transpose_list (g : graph_adj_list) : List (List Nat) :=
  (List.range' 1 g.no_vertices).foldl
    (fun list i => (g.get i).foldl (transpose_push i) list)
    (List.replicate (g.no_vertices + 1) [])

/-- The graph `r_graph` of `graph_strongly_connected`. -/
def r_graph (g : graph_adj_list) : graph_adj_list :=
  { type_ := g.type_, list_ := transpose_list g }

/-- The call `vec.back()` on a vector kept with its last element at the head of the
list.  On an empty vector the C++ call has no defined behaviour: the answer is
`none`. -/
def back_of : List Nat → Option Nat
  | [] => none
  | x :: _ => some x

/-- Local state of `graph_strongly_connected` in its `while` loop.  `priority_stack`
and `v_stack` are kept with their last element at the head; `components_list` and its
members are kept in vector order. -/
structure scc_state where
  priority_stack : List Nat
  v_stack : List Nat
  components_list : List (List Nat)
  visited : List Nat
deriving DecidableEq

/-- What a call of `graph_strongly_connected` ends in.  `returned cl`: the call returns
the list `cl`.  `empty_back cl`: the call evaluates `priority_stack.back()` on an empty
vector, which has no defined behaviour, at a point where the components collected so
far are `cl`; nothing is said of the call from there on. -/
inductive scc_outcome where
  | returned (components_list : List (List Nat))
  | empty_back (components_list : List (List Nat))
deriving DecidableEq

/-- What one pass through the body of the outer `while` loop of
`graph_strongly_connected` ends in: the state at the next evaluation of the loop
condition, or the evaluation of `priority_stack.back()` on an empty vector, with the
value of `components_list` at that point. -/
inductive scc_pass where
  | next (s : scc_state)
  | empty_back (components_list : List (List Nat))
deriving DecidableEq

/-- The inner loop `while (!priority_stack.empty() && visited[priority_stack.back()] != 0)`
acting on `priority_stack` and on `components_list.back()`. -/
def scc_collect (visited : List Nat) : List Nat → List Nat → List Nat × List Nat
  | [], comp => ([], comp)
  | p :: ps, comp =>
    if read_at visited p ≠ 0 then scc_collect visited ps (comp ++ [p]) else (p :: ps, comp)

/-- Body of `for (auto e : graph[curr])` in `graph_strongly_connected`. -/
def scc_push (visited : List Nat) (stk : List Nat) (e : Nat) : List Nat :=
  if read_at visited e = 0 then e :: stk else stk

/-- The part of the loop body of `graph_strongly_connected` after
`T curr = v_stack.back()`, with `rest` the stack below `curr`. -/
def scc_visit (g : graph_adj_list) (s : scc_state) (curr : Nat) (rest : List Nat) :
    scc_state :=
  if read_at s.visited curr = 0 then
    { s with visited := s.visited.set curr 1,
             v_stack := (g.get curr).foldl (scc_push (s.visited.set curr 1)) (curr :: rest) }
  else
    { s with v_stack := rest, visited := s.visited.set curr 2 }

/-- One pass through the body of the outer `while` loop of `graph_strongly_connected`.
When the work stack is empty a new component is opened and filled by the inner loop, and
`v_stack.push_back(priority_stack.back())` follows whether or not the inner loop has
emptied `priority_stack`. -/
def scc_iter (g : graph_adj_list) (s : scc_state) : scc_pass :=
  match s.v_stack with
  | [] =>
    match back_of (scc_collect s.visited s.priority_stack []).1 with
    | none =>
      scc_pass.empty_back
        (s.components_list ++ [(scc_collect s.visited s.priority_stack []).2])
    | some b =>
      scc_pass.next
        (scc_visit g
          { s with
            components_list :=
              s.components_list ++ [(scc_collect s.visited s.priority_stack []).2]
            priority_stack := (scc_collect s.visited s.priority_stack []).1 }
          b [])
  | curr :: rest => scc_pass.next (scc_visit g s curr rest)

/-- The loop `while (!priority_stack.empty())` of `graph_strongly_connected` followed by
`return components_list`. -/
def scc_loop (g : graph_adj_list) : Nat → scc_state → Option scc_outcome
  | 0, _ => none
  | fuel + 1, s =>
    if s.priority_stack ≠ [] then
      match scc_iter g s with
      | scc_pass.empty_back cl => some (scc_outcome.empty_back cl)
      | scc_pass.next t => scc_loop g fuel t
    else some (scc_outcome.returned s.components_list)

/-- State of `graph_strongly_connected` on entry to its `while` loop, with `post_list`
the result of `list_builder.get_list()` and `b` the value of `priority_stack.back()`. -/
def scc_init (g : graph_adj_list) (post_list : List Nat) (b : Nat) : scc_state :=
  { priority_stack := post_list.reverse, v_stack := [b],
    components_list := [], visited := List.replicate (g.no_vertices + 1) 0 }

/-- The function `graph_strongly_connected`.  The fuel is handed to the call of
`graph_dfs` and to the `while` loop alike.  The work stack is seeded with
`priority_stack.back()` before the loop, whether or not the list is empty. -/
def graph_strongly_connected (g : graph_adj_list) (start_v : Nat) (fuel : Nat) :
    Option scc_outcome :=
  match graph_dfs (r_graph g) start_v fuel with
  | none => none
  | some d =>
    match back_of d.post.reverse with
    | none => some (scc_outcome.empty_back [])
    | some b => scc_loop g fuel (scc_init g d.post b)

/-! ## Bipartite check -/

/-- The table `color_complement` of `graph_bipart`. -/
def color_complement (c : Nat) : Nat :=
  read_at [0, 2, 1] c

/-- Local state of `graph_bipart`. -/
structure bipart_state where
  visited : List Nat
  v_queue : List Nat
  no_processed : Nat
deriving DecidableEq

/-- The loop `for (auto e : graph[curr])` of `graph_bipart` acting on `visited` and on
the queue; `none` stands for the `return std::nullopt` inside it. -/
def bipart_scan (curr_color : Nat) : List Nat → List Nat → List Nat →
    Option (List Nat × List Nat)
  | [], visited, queue => some (visited, queue)
  | e :: es, visited, queue =>
    if read_at visited e = curr_color then none
    else if read_at visited e = 0 then
      bipart_scan curr_color es (visited.set e (color_complement curr_color)) (queue ++ [e])
    else bipart_scan curr_color es visited queue

/-- The part of the loop body of `graph_bipart` from `T curr = v_queue.front()` on, with
`visited` the array at that point and `rest` the queue behind `curr`. -/
def bipart_visit (g : graph_adj_list) (s : bipart_state) (visited : List Nat) (curr : Nat)
    (rest : List Nat) : Option bipart_state :=
  match bipart_scan (read_at visited curr) (g.get curr) visited (curr :: rest) with
  | none => none
  | some r => some { visited := r.1, v_queue := r.2.tail, no_processed := s.no_processed + 1 }

/-- One pass through the body of the `while` loop of `graph_bipart`. -/
def bipart_iter (g : graph_adj_list) (s : bipart_state) : Option bipart_state :=
  match s.v_queue with
  | [] =>
    bipart_visit g s
      (s.visited.set (first_unvisited g.no_vertices s.visited g.no_vertices 1) 1)
      (first_unvisited g.no_vertices s.visited g.no_vertices 1) []
  | curr :: rest => bipart_visit g s s.visited curr rest

/-- The loop `while (no_processed < no_vertices)` of `graph_bipart`; the inner `none`
stands for `std::nullopt`. -/
def bipart_loop (g : graph_adj_list) : Nat → bipart_state → Option (Option (List Nat))
  | 0, _ => none
  | fuel + 1, s =>
    if s.no_processed < g.no_vertices then
      match bipart_iter g s with
      | none => some none
      | some t => bipart_loop g fuel t
    else some (some s.visited)

/-- State of `graph_bipart` on entry to its loop (`curr_color` is `1` there). -/
def bipart_init (g : graph_adj_list) (start_v : Nat) : bipart_state :=
  { visited := (List.replicate (g.no_vertices + 1) 0).set start_v 1, v_queue := [start_v],
    no_processed := 0 }

/-- The function `graph_bipart`; the inner `none` stands for `std::nullopt`. -/
def graph_bipart (g : graph_adj_list) (start_v : Nat) (fuel : Nat) :
    Option (Option (List Nat)) :=
  bipart_loop g fuel (bipart_init g start_v)

/-! ## Invariants and graph-theoretic notions used in the statements -/

/-- Invariant of the loop of `graph_dfs`, at each evaluation of the loop condition. -/
structure dfs_inv (g : graph_adj_list) (s : dfs_state) : Prop where
  len : s.visited.length = g.no_vertices + 1
  stack_range : ∀ x ∈ s.v_stack, 1 ≤ x ∧ x ≤ g.no_vertices
  open_on_stack : ∀ v, read_at s.visited v = 1 → v ∈ s.v_stack
  vals : ∀ v, read_at s.visited v = 0 ∨ read_at s.visited v = 1 ∨ read_at s.visited v = 2
  prev_nodup : s.prev.Nodup
  prev_range : ∀ v ∈ s.prev, 1 ≤ v ∧ v ≤ g.no_vertices
  prev_mem : ∀ v, v ∈ s.prev ↔ read_at s.visited v ≠ 0
  post_nodup : s.post.Nodup
  post_mem : ∀ v, v ∈ s.post ↔ read_at s.visited v = 2
  processed : s.no_processed = s.post.length

/-- Invariant of the loop of `graph_bfs`, at each evaluation of the loop condition. -/
structure bfs_inv (g : graph_adj_list) (s : bfs_state) : Prop where
  len : s.visited.length = g.no_vertices + 1
  queue_range : ∀ x ∈ s.v_queue, 1 ≤ x ∧ x ≤ g.no_vertices
  queue_nodup : s.v_queue.Nodup
  queue_mem : ∀ v, v ∈ s.v_queue ↔ read_at s.visited v = 1
  vals : ∀ v, read_at s.visited v = 0 ∨ read_at s.visited v = 1 ∨ read_at s.visited v = 2
  post_nodup : s.post.Nodup
  post_range : ∀ v ∈ s.post, 1 ≤ v ∧ v ≤ g.no_vertices
  post_mem : ∀ v, v ∈ s.post ↔ read_at s.visited v = 2
  processed : s.no_processed = s.post.length

/-- What the inner `for` loop of `graph_bfs` maintains on `visited` and the queue. -/
structure bfs_scan_inv (N : Nat) (visited queue : List Nat) : Prop where
  len : visited.length = N + 1
  queue_range : ∀ x ∈ queue, 1 ≤ x ∧ x ≤ N
  queue_nodup : queue.Nodup
  queue_mem : ∀ v, v ∈ queue ↔ read_at visited v = 1
  vals : ∀ v, read_at visited v = 0 ∨ read_at visited v = 1 ∨ read_at visited v = 2

/-- Invariant of the loop of `graph_dfs` on the calls of `build`, for a run started at
`s0`. -/
structure dfs_tree_inv (g : graph_adj_list) (s0 : Nat) (s : dfs_state) : Prop where
  edge : ∀ c p, (c, p) ∈ s.build → c ∈ g.get p ∧ c ≠ s0 ∧ c ∉ s.restarts
  pending : ∀ c p, (c, p) ∈ s.build → c ∈ s.v_stack ∨ read_at s.visited c ≠ 0
  roots : ∀ r ∈ s.restarts, read_at s.visited r ≠ 0 ∨ s.v_stack = [r]
  start : read_at s.visited s0 ≠ 0 ∨ (s.build = [] ∧ s.v_stack = [s0])
  origin : ∀ x, (x ∈ s.v_stack ∨ read_at s.visited x ≠ 0) →
    x = s0 ∨ x ∈ s.restarts ∨ ∃ p, (x, p) ∈ s.build

/-- The edge relation of a graph: `v` is an entry of the adjacency list of the vertex
`u`, with `u` in `1..N`. -/
def Edge (g : graph_adj_list) (u v : Nat) : Prop :=
  1 ≤ u ∧ u ≤ g.no_vertices ∧ v ∈ g.get u

instance (g : graph_adj_list) (u v : Nat) : Decidable (Edge g u v) := by
  unfold Edge; infer_instance

/-- A graph has a directed cycle when some vertex reaches itself along one edge or
more (a self-loop counts). -/
def HasCycle (g : graph_adj_list) : Prop :=
  ∃ v, Relation.TransGen (Edge g) v v

/-- A graph is acyclic when no vertex reaches itself along one edge or more. -/
def Acyclic (g : graph_adj_list) : Prop :=
  ∀ v, ¬ Relation.TransGen (Edge g) v v

/-- Invariant of the loop of `graph_topological_sort`, at each evaluation of the loop
condition.  The finished vertices are the entries of `list` from index
`N - no_processed` on. -/
structure topo_inv (g : graph_adj_list) (s : topo_state) : Prop where
  len : s.visited.length = g.no_vertices + 1
  stack_range : ∀ x ∈ s.v_stack, 1 ≤ x ∧ x ≤ g.no_vertices
  open_on_stack : ∀ v, read_at s.visited v = 1 → v ∈ s.v_stack
  vals : ∀ v, read_at s.visited v = 0 ∨ read_at s.visited v = 1 ∨ read_at s.visited v = 2
  vis_range : ∀ v, read_at s.visited v ≠ 0 → 1 ≤ v ∧ v ≤ g.no_vertices
  list_len : s.list.length = g.no_vertices
  np_le : s.no_processed ≤ g.no_vertices
  head_eq : s.no_processed < g.no_vertices → s.head = g.no_vertices - 1 - s.no_processed
  done_nodup : (s.list.drop (g.no_vertices - s.no_processed)).Nodup
  done_mem : ∀ v, v ∈ s.list.drop (g.no_vertices - s.no_processed) ↔ read_at s.visited v = 2
  done_order : ∀ l1 u l2, s.list.drop (g.no_vertices - s.no_processed) = l1 ++ u :: l2 →
    ∀ v ∈ g.get u, v ∈ l2
  open_nbrs : ∀ u, read_at s.visited u = 1 → ∀ pre post, s.v_stack = pre ++ u :: post →
    u ∉ pre → ∀ v ∈ g.get u, read_at s.visited v = 2 ∨ v ∈ pre
  chain : ∀ w, read_at s.visited w = 1 → ∀ pre post, s.v_stack = pre ++ w :: post →
    w ∉ pre → ∀ x ∈ pre, Relation.TransGen (Edge g) w x

/-- What the inner `for` loop of `graph_bipart` maintains on `visited` and the queue;
`done` lists the vertices already taken from the queue. -/
structure bipart_scan_inv (N : Nat) (done visited queue : List Nat) : Prop where
  len : visited.length = N + 1
  vals : ∀ v, read_at visited v = 0 ∨ read_at visited v = 1 ∨ read_at visited v = 2
  vis_range : ∀ v, read_at visited v ≠ 0 → 1 ≤ v ∧ v ≤ N
  queue_nodup : queue.Nodup
  queue_disj : ∀ v ∈ queue, v ∉ done
  cover : ∀ v, read_at visited v ≠ 0 ↔ v ∈ queue ∨ v ∈ done

/-- Invariant of the loop of `graph_bipart`, at each evaluation of the loop condition;
`done` lists the vertices already taken from the queue. -/
structure bipart_inv (g : graph_adj_list) (done : List Nat) (s : bipart_state) : Prop where
  scan : bipart_scan_inv g.no_vertices done s.visited s.v_queue
  done_nodup : done.Nodup
  processed : s.no_processed = done.length
  proper : ∀ u ∈ done, ∀ v ∈ g.get u,
    read_at s.visited v ≠ 0 ∧ read_at s.visited v ≠ read_at s.visited u

/-- Two vertices are adjacent when an edge joins them in one direction or the other. -/
def Adjacent (g : graph_adj_list) (u v : Nat) : Prop :=
  Edge g u v ∨ Edge g v u

instance (g : graph_adj_list) (u v : Nat) : Decidable (Adjacent g u v) := by
  unfold Adjacent; infer_instance

/-- A graph contains a closed walk of odd length, edge directions ignored: a walk
`a, w₁, …, wₙ` with `n` odd and `wₙ = a`.  Every cycle of odd length is such a walk,
a self-loop being the case `n = 1`. -/
def HasOddCycle (g : graph_adj_list) : Prop :=
  ∃ a w, List.Chain (Adjacent g) a w ∧ (a :: w).getLast (List.cons_ne_nil a w) = a ∧
    w.length % 2 = 1

/-- The adjacency lists are symmetric: `v` in the list of `u` puts `u` in the list
of `v`. -/
def Undirected (g : graph_adj_list) : Prop :=
  ∀ u, u < g.no_vertices + 1 → 1 ≤ u → ∀ v ∈ g.get u, u ∈ g.get v

instance (g : graph_adj_list) : Decidable (Undirected g) := by
  unfold Undirected; infer_instance

/-- The map `c` splits the vertices into two classes with no edge inside a class. -/
def ProperColouring (g : graph_adj_list) (c : Nat → Bool) : Prop :=
  ∀ u, u < g.no_vertices + 1 → 1 ≤ u → ∀ v ∈ g.get u, c u ≠ c v

instance (g : graph_adj_list) (c : Nat → Bool) : Decidable (ProperColouring g c) := by
  unfold ProperColouring; infer_instance

/-- A graph is bipartite when its vertices split into two classes with no edge inside
a class. -/
def Bipartite (g : graph_adj_list) : Prop :=
  ∃ c : Nat → Bool, ProperColouring g c

/-- The colours written by `graph_bipart` agree with the two classes `c` up to a swap
inside each connected piece. -/
def bipart_comp_inv (g : graph_adj_list) (c : Nat → Bool) (visited : List Nat) : Prop :=
  ∀ u v, read_at visited u ≠ 0 → read_at visited v ≠ 0 →
    Relation.ReflTransGen (Adjacent g) u v → (read_at visited u = read_at visited v ↔ c u = c v)

/-- What the outer loop of `graph_strongly_connected` maintains while `priority_stack`
is not empty; `start` is `priority_stack` on entry to the loop. -/
structure scc_inv (g : graph_adj_list) (start : List Nat) (s : scc_state) : Prop where
  len : s.visited.length = g.no_vertices + 1
  stack_range : ∀ x ∈ s.v_stack, 1 ≤ x ∧ x ≤ g.no_vertices
  priority_range : ∀ x ∈ s.priority_stack, 1 ≤ x ∧ x ≤ g.no_vertices
  parts : s.components_list.flatten ++ s.priority_stack = start

/-- A directed graph on four vertices in two pieces: `1 → 2`, `1 → 3`, `3 → 2`, and the
isolated vertex `4`. -/
def sample_two_pieces : graph_adj_list :=
  { type_ := graph_type.directed, list_ := [[], [2, 3], [], [2], []] }

/-- The directed graph with `N = 4` and edges `(1,2)`, `(1,3)`, `(2,4)`, `(3,4)`. -/
def sample_diamond : graph_adj_list :=
  { type_ := graph_type.directed, list_ := [[], [2, 3], [4], [4], []] }

/-- The directed graph with `N = 3` and edges `(1,2)`, `(2,3)`, `(3,1)`. -/
def sample_directed_triangle : graph_adj_list :=
  { type_ := graph_type.directed, list_ := [[], [2], [3], [1]] }

/-- The undirected path `1 - 2 - 3 - 4`, built from the edges `(1,2)`, `(2,3)`, `(3,4)`
in that order. -/
def sample_path : graph_adj_list :=
  { type_ := graph_type.undirected, list_ := [[], [2], [1, 3], [2, 4], [3]] }

/-- The undirected triangle, built from the edges `(1,2)`, `(2,3)`, `(3,1)` in that
order. -/
def sample_triangle : graph_adj_list :=
  { type_ := graph_type.undirected, list_ := [[], [2, 3], [1, 3], [2, 1]] }

/-- The directed graph with `N = 3` and edges `(1,3)`, `(2,1)`, `(3,1)`: the vertices `1`
and `3` lie on a cycle, and `2` has no incoming edge. -/
def sample_scc_split : graph_adj_list :=
  { type_ := graph_type.directed, list_ := [[], [3], [1], [1]] }

/-! ## Reading a graph -/

/-- What a call of `graph_read` ends in: a returned graph, the exception
`file_format_exception`, or an access outside a vector (no defined behaviour). -/
inductive read_outcome where
  | graph (g : graph_adj_list)
  | file_format_exception
  | undefined
deriving DecidableEq

/-- The size `n + 1` of a vector, computed in `size_t` (64 bit). -/
def size_succ (n : Nat) : Nat :=
  if n = 2 ^ 64 - 1 then 0 else n + 1

/-- Body of the `for` loop of `graph_read`: `list[u].push_back(v)` and, for an
undirected graph, `list[v].push_back(u)`.  The answer is `none` when `u` or `v` is no
index of `list`. -/
def add_edge (type : graph_type) (list : List (List Nat)) (u v : Nat) :
    Option (List (List Nat)) :=
  if u < list.length then
    match type with
    | graph_type.directed => some (list.set u (list.getD u [] ++ [v]))
    | graph_type.undirected =>
      if v < list.length then
        some ((list.set u (list.getD u [] ++ [v])).set v
          ((list.set u (list.getD u [] ++ [v])).getD v [] ++ [u]))
      else none
  else none

/-- The loop `for (size_t i = 0; i < no_edges && stream >> u && stream >> v; ++i)` of
`graph_read` followed by the test of `stream.fail()` and the `return`.  The first
argument is the number of passes that remain; the input is the sequence of results of
the extractions `stream >> x` still to come (`none` for an extraction that fails, the
empty sequence for the end of the stream). -/
def read_edges (type : graph_type) : Nat → List (Option Nat) → List (List Nat) → read_outcome
  | 0, _, list => read_outcome.graph { type_ := type, list_ := list }
  | i + 1, some u :: some v :: rest, list =>
    match add_edge type list u v with
    | none => read_outcome.undefined
    | some list2 => read_edges type i rest list2
  | _ + 1, _, _ => read_outcome.file_format_exception

/-- The function `graph_read`, on the result of `stream >> mode` (`none` when it fails)
and the results of the extractions of numbers that follow. -/
def graph_read (mode : Option Char) (input : List (Option Nat)) : read_outcome :=
  match mode with
  | none => read_outcome.file_format_exception
  | some c =>
    if c = 'U' then
      match input with
      | some no_vertices :: some no_edges :: rest =>
        read_edges graph_type.undirected no_edges rest (List.replicate (size_succ no_vertices) [])
      | _ => read_outcome.file_format_exception
    else if c = 'D' then
      match input with
      | some no_vertices :: some no_edges :: rest =>
        read_edges graph_type.directed no_edges rest (List.replicate (size_succ no_vertices) [])
      | _ => read_outcome.file_format_exception
    else read_outcome.file_format_exception

/-- The directed graph with `N = 4` and edges `(1,2)`, `(2,3)`, `(4,3)`. -/
def sample_directed_two_classes : graph_adj_list :=
  { type_ := graph_type.directed, list_ := [[], [2], [3], [], [3]] }

/-- The directed graph with `N = 4` and edges `(1,2)`, `(2,1)`, `(3,4)`. -/
def sample_two_cycle : graph_adj_list :=
  { type_ := graph_type.directed, list_ := [[], [2], [1], [4], []] }

/-- The graph with one vertex and no edge. -/
def sample_single : graph_adj_list :=
  { type_ := graph_type.directed, list_ := [[], []] }

/-- The topological order as the specification words it: `graph_dfs` is run from
vertex `1` with a post-visit hook that appends each finished vertex to a list
(`post_build_vertex_list`), and that list is reversed. -/
def spec_topological_order (g : graph_adj_list) (fuel : Nat) : Option (List Nat) :=
  (graph_dfs g 1 fuel).map (fun r => r.post.reverse)

/-- The loop of `graph_topological_sort` and the loop of `graph_dfs` in step: same
`visited`, same stack, same counter, and the filled part of `list` is the reversed
sequence of post-visit calls. -/
structure topo_sim (g : graph_adj_list) (d : dfs_state) (t : topo_state) : Prop where
  visited : d.visited = t.visited
  stack : d.v_stack = t.v_stack
  processed : d.no_processed = t.no_processed
  post : t.list.drop (g.no_vertices - t.no_processed) = d.post.reverse

/-! ## Indices used by the depth-first traversal -/

/-- The indices at which the scan `for (; i <= no_vertices && (visited[i] != 0); ++i) ;`
reads `visited`, in order, when it is entered with the value `i`.  The first numeric
argument bounds the number of evaluations of the condition that remain. -/
def scan_reads (no_vertices : Nat) (visited : List Nat) : Nat → Nat → List Nat
  | 0, _ => []
  | k + 1, i =>
    if i ≤ no_vertices then
      i :: (if read_at visited i ≠ 0 then scan_reads no_vertices visited k (i + 1) else [])
    else []

/-- The indices used by one pass through the body of the `while` loop of `graph_dfs`,
in order: the reads of the scan when the stack is empty, then `curr` (index of
`visited[curr]` and, when the vertex is opened, of `graph[curr]`), then the entries
`e` of `graph[curr]` (indices of `visited[e]`) when the vertex is opened. -/
def dfs_iter_indices (g : graph_adj_list) (s : dfs_state) : List Nat :=
  match s.v_stack with
  | [] =>
    scan_reads g.no_vertices s.visited (g.no_vertices + 1) 1 ++
      first_unvisited g.no_vertices s.visited g.no_vertices 1 ::
        (if read_at s.visited (first_unvisited g.no_vertices s.visited g.no_vertices 1) = 0
          then g.get (first_unvisited g.no_vertices s.visited g.no_vertices 1) else [])
  | curr :: _ => curr :: (if read_at s.visited curr = 0 then g.get curr else [])

/-- The states in which a call `graph_dfs(graph, v, …)` evaluates the condition of its
`while` loop. -/
inductive dfs_reach (g : graph_adj_list) (v : Nat) : dfs_state → Prop where
  | init : dfs_reach g v (dfs_init g v)
  | step (s : dfs_state) : dfs_reach g v s → s.no_processed < g.no_vertices →
      dfs_reach g v (dfs_iter g s)

/-! ## The parent array -/

/-- The member `tree` of a `tree_build` object constructed with `no_vertices`, after it
has received the calls `events` (pairs `(child, parent)`) in order: the constructor
fills `no_vertices + 1` slots with `0`, each call performs `tree[child] = parent`. -/
def tree_build (no_vertices : Nat) (events : List (Nat × Nat)) : List Nat :=
  events.foldl (fun tree e => tree.set e.1 e.2) (List.replicate (no_vertices + 1) 0)

/-- Invariant of the loop of `graph_dfs`: the parent named in a call of `build` has had
its pre-visit call, and it precedes the child among the pre-visit calls once the child
has had its own. -/
structure dfs_order_inv (s : dfs_state) : Prop where
  parent_seen : ∀ c p, (c, p) ∈ s.build → p ∈ s.prev
  parent_first : ∀ c p, (c, p) ∈ s.build → c ∈ s.prev →
    s.prev.indexOf p < s.prev.indexOf c

/-- Invariant of the loop of `graph_bfs`: in the order of discovery (finished vertices,
then the queue) the parent named in a call of `proc` precedes the child. -/
structure bfs_order_inv (s : bfs_state) : Prop where
  seen : ∀ c p, (c, p) ∈ s.proc → p ∈ s.post ++ s.v_queue ∧ c ∈ s.post ++ s.v_queue
  parent_first : ∀ c p, (c, p) ∈ s.proc →
    (s.post ++ s.v_queue).indexOf p < (s.post ++ s.v_queue).indexOf c

/-- Invariant of the loop of `graph_dfs`, for a run started at `s0`: the neighbours of
an open vertex are visited or lie above it on the stack, the neighbours of a finished
vertex are visited, and no two of the vertices the walk was started from (the start
vertex and the vertices pushed by the restart scan) are joined by a path. -/
structure dfs_closure_inv (g : graph_adj_list) (s0 : Nat) (s : dfs_state) : Prop where
  open_nbrs : ∀ u, read_at s.visited u = 1 → ∀ pre post, s.v_stack = pre ++ u :: post →
    u ∉ pre → ∀ v ∈ g.get u, read_at s.visited v ≠ 0 ∨ v ∈ pre
  closed : ∀ u, read_at s.visited u = 2 → ∀ v ∈ g.get u, read_at s.visited v ≠ 0
  roots_apart : ∀ r1 r2, r1 ∈ s0 :: s.restarts → r2 ∈ s0 :: s.restarts → r1 ≠ r2 →
    ¬ Relation.ReflTransGen (Adjacent g) r1 r2

/-- Invariant of the loop of `graph_bfs`: the neighbours of a finished vertex are
visited, a vertex named as child in a call of `proc` is visited and its parent is not
`0`, and no two visited vertices that were never named as child are joined by a
path. -/
structure bfs_closure_inv (g : graph_adj_list) (s : bfs_state) : Prop where
  closed : ∀ u, read_at s.visited u = 2 → ∀ v ∈ g.get u, read_at s.visited v ≠ 0
  child : ∀ c p, (c, p) ∈ s.proc → read_at s.visited c ≠ 0 ∧ p ≠ 0
  roots_apart : ∀ r1 r2, read_at s.visited r1 ≠ 0 → read_at s.visited r2 ≠ 0 →
    (∀ p, (r1, p) ∉ s.proc) → (∀ p, (r2, p) ∉ s.proc) → r1 ≠ r2 →
    ¬ Relation.ReflTransGen (Adjacent g) r1 r2

/-- The undirected graph read from `U 4 2  1 2  3 4`: two pieces of two vertices. -/
def sample_two_pairs : graph_adj_list :=
  { type_ := graph_type.undirected, list_ := [[], [2], [1], [4], [3]] }

/-! ## The path graph -/

/-- The adjacency list of vertex `i` once the edges `(1,2)`, `(2,3)`, …, `(n-1,n)` have
been inserted in that order with both directions stored: the edge `(i-1,i)` appends
`i-1`, then the edge `(i,i+1)` appends `i+1`. -/
def path_adj (n i : Nat) : List Nat :=
  (if 2 ≤ i ∧ i ≤ n then [i - 1] else []) ++ (if 1 ≤ i ∧ i < n then [i + 1] else [])

/-- The undirected path graph on the vertices `1..n`. -/
def path_graph (n : Nat) : graph_adj_list :=
  { type_ := graph_type.undirected, list_ := (List.range (n + 1)).map (path_adj n) }

/-- The numbers of the stream `U n n-1  1 2  2 3  …  n-1 n`, each one extracted with
success. -/
def path_input (n : Nat) : List (Option Nat) :=
  some n :: some (n - 1) ::
    ((List.range' 1 (n - 1)).map (fun i => [some i, some (i + 1)])).flatten

/-! ## Distances from the start vertex -/

/-- `WalkLen g s v d`: some walk of `d` edges leads from `s` to `v`. -/
inductive WalkLen (g : graph_adj_list) (s : Nat) : Nat → Nat → Prop where
  | zero : WalkLen g s s 0
  | step {u v d : Nat} : WalkLen g s u d → Edge g u v → WalkLen g s v (d + 1)

/-- The vertex `v` can be reached from `s` along edges. -/
def Reachable (g : graph_adj_list) (s v : Nat) : Prop :=
  ∃ d, WalkLen g s v d

/-- The shortest walk from `s` to `v` has `d` edges. -/
def IsDist (g : graph_adj_list) (s v d : Nat) : Prop :=
  WalkLen g s v d ∧ ∀ d2, WalkLen g s v d2 → d ≤ d2

/-- Invariant of the loop of `graph_bfs` until the queue runs empty for the first time,
for a run started at `s0`, with `lvl` the level given to each discovered vertex: levels
do not decrease along the order of discovery (finished vertices, then the queue), each
level is the length of some walk from `s0`, an edge out of a finished vertex leads to a
discovered vertex at most one level up, and no discovered vertex is more than one level
above a vertex of the queue. -/
structure bfs_level_inv (g : graph_adj_list) (s0 : Nat) (s : bfs_state)
    (lvl : Nat → Nat) : Prop where
  start : s0 ∈ s.post ++ s.v_queue ∧ lvl s0 = 0
  sorted : (s.post ++ s.v_queue).Pairwise (fun a b => lvl a ≤ lvl b)
  walk : ∀ v ∈ s.post ++ s.v_queue, WalkLen g s0 v (lvl v)
  closed : ∀ u ∈ s.post, ∀ e ∈ g.get u, e ∈ s.post ++ s.v_queue ∧ lvl e ≤ lvl u + 1
  near : ∀ x ∈ s.post ++ s.v_queue, ∀ q ∈ s.v_queue, lvl x ≤ lvl q + 1

/-- The sequence `post` begins with exactly the vertices reachable from `s0`, in
non-decreasing order of their distance `d` from `s0`. -/
def bfs_dist_prefix (g : graph_adj_list) (s0 : Nat) (post : List Nat) : Prop :=
  ∃ (l1 l2 : List Nat) (d : Nat → Nat), post = l1 ++ l2 ∧
    (∀ v, v ∈ l1 ↔ Reachable g s0 v) ∧ (∀ v ∈ l1, IsDist g s0 v (d v)) ∧
    l1.Pairwise (fun a b => d a ≤ d b)

/-! ## Lemmas on vectors and on the scan for an unvisited vertex -/

theorem read_at_set_self (l : List Nat) (i v : Nat) (h : i < l.length) :
    read_at (l.set i v) i = v := by
  simp [read_at, List.getD_eq_getElem?_getD, List.getElem?_set, h]

theorem read_at_set_other (l : List Nat) (i j v : Nat) (h : i ≠ j) :
    read_at (l.set i v) j = read_at l j := by
  simp [read_at, List.getD_eq_getElem?_getD, List.getElem?_set, h]

theorem read_at_replicate_zero (n i : Nat) : read_at (List.replicate n 0) i = 0 := by
  by_cases h : i < n
  · simp [read_at, List.getD_eq_getElem?_getD, List.getElem?_replicate, h]
  · simp [read_at, List.getD_eq_getElem?_getD, List.getElem?_replicate, h]

theorem read_at_cons_succ (a : Nat) (t : List Nat) (j : Nat) :
    read_at (a :: t) (j + 1) = read_at t j := by
  simp [read_at]

theorem read_at_cons_zero (a : Nat) (t : List Nat) : read_at (a :: t) 0 = a := by
  simp [read_at]

theorem lt_length_of_read_at_ne_zero (l : List Nat) (i : Nat) (h : read_at l i ≠ 0) :
    i < l.length := by
  by_contra hc
  exact h (List.getD_eq_default _ _ (by omega))

theorem count_zero_set_of_zero (l : List Nat) (i v : Nat) (h : i < l.length)
    (h0 : read_at l i = 0) (hv : v ≠ 0) : (l.set i v).count 0 + 1 = l.count 0 := by
  induction l generalizing i with
  | nil => simp at h
  | cons a t ih =>
    cases i with
    | zero =>
      rw [read_at_cons_zero] at h0
      subst h0
      simp [List.count_cons, hv]
    | succ j =>
      rw [read_at_cons_succ] at h0
      have := ih j (by simpa using h) h0
      simp only [List.set_cons_succ, List.count_cons]
      omega

theorem count_zero_set_of_ne_zero (l : List Nat) (i v : Nat)
    (h0 : read_at l i ≠ 0) (hv : v ≠ 0) : (l.set i v).count 0 = l.count 0 := by
  induction l generalizing i with
  | nil => simp
  | cons a t ih =>
    cases i with
    | zero =>
      rw [read_at_cons_zero] at h0
      simp [List.count_cons, hv, h0]
    | succ j =>
      rw [read_at_cons_succ] at h0
      have := ih j h0
      simp only [List.set_cons_succ, List.count_cons]
      omega

theorem first_unvisited_spec (N : Nat) (visited : List Nat) (k i : Nat) (hk : N + 1 ≤ k + i) :
    i ≤ first_unvisited N visited k i ∧
    (∀ j, i ≤ j → j < first_unvisited N visited k i → j ≤ N ∧ read_at visited j ≠ 0) ∧
    (first_unvisited N visited k i ≤ N → read_at visited (first_unvisited N visited k i) = 0) := by
  induction k generalizing i with
  | zero =>
    simp only [first_unvisited]
    refine ⟨le_refl _, fun j h1 h2 => absurd h1 (by omega), fun h => absurd h (by omega)⟩
  | succ k ih =>
    simp only [first_unvisited]
    split
    · rename_i hc
      obtain ⟨h1, h2, h3⟩ := ih (i + 1) (by omega)
      refine ⟨by omega, fun j hj1 hj2 => ?_, h3⟩
      by_cases hji : j = i
      · subst hji; exact hc
      · exact h2 j (by omega) hj2
    · rename_i hc
      refine ⟨le_refl _, fun j h1 h2 => absurd h1 (by omega), fun h => ?_⟩
      by_contra hne
      exact hc ⟨h, hne⟩

theorem dfs_push_foldl (visited : List Nat) (curr : Nat) (adj : List Nat)
    (stk : List Nat) (bl : List (Nat × Nat)) :
    adj.foldl (dfs_push visited curr) (stk, bl) =
      ((adj.filter (fun e => decide (read_at visited e = 0))).reverse ++ stk,
        bl ++ (adj.filter (fun e => decide (read_at visited e = 0))).map (fun e => (e, curr))) := by
  induction adj generalizing stk bl with
  | nil => simp
  | cons a t ih =>
    simp only [List.foldl_cons]
    by_cases h : read_at visited a = 0
    · simp [dfs_push, h, ih, List.filter_cons]
    · simp [dfs_push, h, ih, List.filter_cons]

theorem perm_range_of_nodup (l : List Nat) (N : Nat) (hnd : l.Nodup)
    (hr : ∀ v ∈ l, 1 ≤ v ∧ v ≤ N) (hlen : N ≤ l.length) : l.Perm (List.range' 1 N) := by
  have hsub : l ⊆ List.range' 1 N := by
    intro v hv
    have := hr v hv
    rw [List.mem_range'_1]
    omega
  exact (List.subperm_of_subset hnd hsub).perm_of_length_le (by simpa using hlen)

theorem scan_found (N : Nat) (visited : List Nat) (done : List Nat) (hlen : done.length < N)
    (hcov : ∀ j, 1 ≤ j → j ≤ N → read_at visited j ≠ 0 → j ∈ done) :
    (1 ≤ first_unvisited N visited N 1 ∧ first_unvisited N visited N 1 ≤ N) ∧
      read_at visited (first_unvisited N visited N 1) = 0 := by
  obtain ⟨h1, h2, h3⟩ := first_unvisited_spec N visited N 1 (by omega)
  have hle : first_unvisited N visited N 1 ≤ N := by
    by_contra hgt
    have hsub : List.range' 1 N ⊆ done := by
      intro j hj
      rw [List.mem_range'_1] at hj
      exact hcov j hj.1 (by omega) (h2 j hj.1 (by omega)).2
    have := (List.subperm_of_subset (List.nodup_range' 1 N) hsub).length_le
    rw [List.length_range'] at this
    omega
  exact ⟨⟨h1, hle⟩, h3 hle⟩

/-! ## Depth-first traversal: invariant, termination -/

theorem wf_adj_range {g : graph_adj_list} (h : WellFormed g) {u v : Nat} (hu1 : 1 ≤ u)
    (hu2 : u ≤ g.no_vertices) (hv : v ∈ g.get u) : 1 ≤ v ∧ v ≤ g.no_vertices :=
  h.2.2 u (by omega) hu1 v hv

theorem dfs_init_inv (g : graph_adj_list) (v : Nat) (h1 : 1 ≤ v) (h2 : v ≤ g.no_vertices) :
    dfs_inv g (dfs_init g v) where
  len := by simp [dfs_init]
  stack_range := by simp [dfs_init, h1, h2]
  open_on_stack := by
    intro w hw
    simp [dfs_init, read_at_replicate_zero] at hw
  vals := by
    intro w
    simp [dfs_init, read_at_replicate_zero]
  prev_nodup := by simp [dfs_init]
  prev_range := by simp [dfs_init]
  prev_mem := by simp [dfs_init, read_at_replicate_zero]
  post_nodup := by simp [dfs_init]
  post_mem := by simp [dfs_init, read_at_replicate_zero]
  processed := by simp [dfs_init]

theorem dfs_visit_open (g : graph_adj_list) (s : dfs_state) (curr : Nat) (rest : List Nat)
    (h0 : read_at s.visited curr = 0) :
    dfs_visit g s curr rest =
      { s with
        visited := s.visited.set curr 1
        v_stack := ((g.get curr).filter
          (fun e => decide (read_at (s.visited.set curr 1) e = 0))).reverse ++ curr :: rest
        prev := s.prev ++ [curr]
        build := s.build ++ ((g.get curr).filter
          (fun e => decide (read_at (s.visited.set curr 1) e = 0))).map (fun e => (e, curr)) } := by
  simp only [dfs_visit, h0, if_true, dfs_push_foldl]

theorem dfs_visit_close (g : graph_adj_list) (s : dfs_state) (curr : Nat) (rest : List Nat)
    (h1 : read_at s.visited curr = 1) :
    dfs_visit g s curr rest =
      { s with v_stack := rest, post := s.post ++ [curr],
               no_processed := s.no_processed + 1, visited := s.visited.set curr 2 } := by
  simp [dfs_visit, h1]

theorem dfs_visit_drop (g : graph_adj_list) (s : dfs_state) (curr : Nat) (rest : List Nat)
    (h0 : read_at s.visited curr ≠ 0) (h1 : read_at s.visited curr ≠ 1) :
    dfs_visit g s curr rest = { s with v_stack := rest } := by
  simp [dfs_visit, h0, h1]

theorem dfs_visit_inv {g : graph_adj_list} (hwf : WellFormed g) (s : dfs_state)
    (curr : Nat) (rest : List Nat) (hinv : dfs_inv g s) (hstk : s.v_stack = curr :: rest) :
    dfs_inv g (dfs_visit g s curr rest) := by
  have hc : 1 ≤ curr ∧ curr ≤ g.no_vertices := hinv.stack_range curr (by simp [hstk])
  have hclt : curr < s.visited.length := by rw [hinv.len]; omega
  have hrest : ∀ x ∈ rest, 1 ≤ x ∧ x ≤ g.no_vertices := fun x hx =>
    hinv.stack_range x (by simp [hstk, hx])
  by_cases h0 : read_at s.visited curr = 0
  · rw [dfs_visit_open g s curr rest h0]
    have hnp : curr ∉ s.prev := fun hm => (hinv.prev_mem curr).1 hm h0
    refine
      { len := by simp [hinv.len]
        stack_range := ?_
        open_on_stack := ?_
        vals := ?_
        prev_nodup := ?_
        prev_range := ?_
        prev_mem := ?_
        post_nodup := hinv.post_nodup
        post_mem := ?_
        processed := hinv.processed }
    · intro x hx
      simp only [List.mem_append, List.mem_reverse, List.mem_filter, List.mem_cons] at hx
      rcases hx with ⟨hx, _⟩ | hx | hx
      · exact wf_adj_range hwf hc.1 hc.2 hx
      · exact hx ▸ hc
      · exact hrest x hx
    · intro v hv
      simp only [List.mem_append, List.mem_cons]
      by_cases hvc : v = curr
      · exact Or.inr (Or.inl hvc)
      · have hv1 : read_at s.visited v = 1 := by
          simpa [read_at_set_other _ _ _ _ (Ne.symm hvc)] using hv
        have := hinv.open_on_stack v hv1
        rw [hstk] at this
        rcases List.mem_cons.1 this with h | h
        · exact absurd h hvc
        · exact Or.inr (Or.inr h)
    · intro v
      by_cases hvc : v = curr
      · subst hvc
        simp [read_at_set_self _ _ _ hclt]
      · simpa [read_at_set_other _ _ _ _ (Ne.symm hvc)] using hinv.vals v
    · exact List.Nodup.append hinv.prev_nodup (List.nodup_singleton _) (by simpa using hnp)
    · intro v hv
      rcases List.mem_append.1 hv with h | h
      · exact hinv.prev_range v h
      · simp at h; exact h ▸ hc
    · intro v
      by_cases hvc : v = curr
      · subst hvc
        simp [read_at_set_self _ _ _ hclt]
      · simp [read_at_set_other _ _ _ _ (Ne.symm hvc), hvc, hinv.prev_mem v]
    · intro v
      by_cases hvc : v = curr
      · subst hvc
        simp [read_at_set_self _ _ _ hclt, hinv.post_mem, h0]
      · simp [read_at_set_other _ _ _ _ (Ne.symm hvc), hinv.post_mem v]
  · by_cases h1 : read_at s.visited curr = 1
    · rw [dfs_visit_close g s curr rest h1]
      have hnp : curr ∉ s.post := fun hm => by
        have := (hinv.post_mem curr).1 hm
        omega
      refine
        { len := by simp [hinv.len]
          stack_range := hrest
          open_on_stack := ?_
          vals := ?_
          prev_nodup := hinv.prev_nodup
          prev_range := hinv.prev_range
          prev_mem := ?_
          post_nodup := ?_
          post_mem := ?_
          processed := by simp [hinv.processed] }
      · intro v hv
        by_cases hvc : v = curr
        · subst hvc
          simp [read_at_set_self _ _ _ hclt] at hv
        · have hv1 : read_at s.visited v = 1 := by
            simpa [read_at_set_other _ _ _ _ (Ne.symm hvc)] using hv
          have := hinv.open_on_stack v hv1
          rw [hstk] at this
          rcases List.mem_cons.1 this with h | h
          · exact absurd h hvc
          · exact h
      · intro v
        by_cases hvc : v = curr
        · subst hvc
          simp [read_at_set_self _ _ _ hclt]
        · simpa [read_at_set_other _ _ _ _ (Ne.symm hvc)] using hinv.vals v
      · intro v
        by_cases hvc : v = curr
        · subst hvc
          simp [read_at_set_self _ _ _ hclt, hinv.prev_mem, h0]
        · simp [read_at_set_other _ _ _ _ (Ne.symm hvc), hinv.prev_mem v]
      · exact List.Nodup.append hinv.post_nodup (List.nodup_singleton _) (by simpa using hnp)
      · intro v
        by_cases hvc : v = curr
        · subst hvc
          simp [read_at_set_self _ _ _ hclt]
        · simp [read_at_set_other _ _ _ _ (Ne.symm hvc), hvc, hinv.post_mem v]
    · rw [dfs_visit_drop g s curr rest h0 h1]
      refine
        { len := hinv.len
          stack_range := hrest
          open_on_stack := ?_
          vals := hinv.vals
          prev_nodup := hinv.prev_nodup
          prev_range := hinv.prev_range
          prev_mem := hinv.prev_mem
          post_nodup := hinv.post_nodup
          post_mem := hinv.post_mem
          processed := hinv.processed }
      intro v hv
      have := hinv.open_on_stack v hv
      rw [hstk] at this
      rcases List.mem_cons.1 this with h | h
      · subst h; exact absurd hv h1
      · exact h

theorem dfs_restart_spec {g : graph_adj_list} (s : dfs_state) (hinv : dfs_inv g s)
    (hstk : s.v_stack = []) (hlt : s.no_processed < g.no_vertices) :
    (1 ≤ first_unvisited g.no_vertices s.visited g.no_vertices 1 ∧
      first_unvisited g.no_vertices s.visited g.no_vertices 1 ≤ g.no_vertices) ∧
    read_at s.visited (first_unvisited g.no_vertices s.visited g.no_vertices 1) = 0 := by
  obtain ⟨h1, h2, h3⟩ :=
    first_unvisited_spec g.no_vertices s.visited g.no_vertices 1 (by omega)
  have hle : first_unvisited g.no_vertices s.visited g.no_vertices 1 ≤ g.no_vertices := by
    by_contra hgt
    have hsub : List.range' 1 g.no_vertices ⊆ s.post := by
      intro j hj
      rw [List.mem_range'_1] at hj
      have hj2 := (h2 j hj.1 (by omega)).2
      rw [hinv.post_mem]
      rcases hinv.vals j with h | h | h
      · exact absurd h hj2
      · have := hinv.open_on_stack j h
        rw [hstk] at this
        simp at this
      · exact h
    have := (List.subperm_of_subset (List.nodup_range' 1 g.no_vertices) hsub).length_le
    rw [List.length_range', ← hinv.processed] at this
    omega
  exact ⟨⟨h1, hle⟩, h3 hle⟩

theorem dfs_iter_inv {g : graph_adj_list} (hwf : WellFormed g) (s : dfs_state)
    (hinv : dfs_inv g s) (hlt : s.no_processed < g.no_vertices) :
    dfs_inv g (dfs_iter g s) := by
  unfold dfs_iter
  split
  · rename_i hstk
    obtain ⟨hr, -⟩ := dfs_restart_spec s hinv hstk hlt
    have hinv1 : dfs_inv g { s with
        restarts := s.restarts ++ [first_unvisited g.no_vertices s.visited g.no_vertices 1]
        v_stack := [first_unvisited g.no_vertices s.visited g.no_vertices 1] } :=
      { len := hinv.len
        stack_range := by
          intro x hx
          simp at hx
          exact hx ▸ hr
        open_on_stack := by
          intro v hv
          have := hinv.open_on_stack v hv
          rw [hstk] at this
          simp at this
        vals := hinv.vals
        prev_nodup := hinv.prev_nodup
        prev_range := hinv.prev_range
        prev_mem := hinv.prev_mem
        post_nodup := hinv.post_nodup
        post_mem := hinv.post_mem
        processed := hinv.processed }
    have h := dfs_visit_inv hwf _ _ [] hinv1 rfl
    exact h
  · rename_i curr rest hstk
    exact dfs_visit_inv hwf s curr rest hinv hstk

theorem dfs_iter_decreases {g : graph_adj_list} (s : dfs_state)
    (hinv : dfs_inv g s) (hlt : s.no_processed < g.no_vertices) :
    (dfs_iter g s).visited.count 0 < s.visited.count 0 ∨
      ((dfs_iter g s).visited.count 0 = s.visited.count 0 ∧
        (dfs_iter g s).v_stack.length < s.v_stack.length) := by
  unfold dfs_iter
  split
  · rename_i hstk
    obtain ⟨hr, h0⟩ := dfs_restart_spec s hinv hstk hlt
    left
    rw [dfs_visit_open g { s with restarts :=
      s.restarts ++ [first_unvisited g.no_vertices s.visited g.no_vertices 1] } _ [] h0]
    have := count_zero_set_of_zero s.visited _ 1 (by rw [hinv.len]; omega) h0 (by omega)
    simp only
    omega
  · rename_i curr rest hstk
    have hc : 1 ≤ curr ∧ curr ≤ g.no_vertices := hinv.stack_range curr (by simp [hstk])
    by_cases h0 : read_at s.visited curr = 0
    · left
      rw [dfs_visit_open g s curr rest h0]
      have := count_zero_set_of_zero s.visited curr 1 (by rw [hinv.len]; omega) h0 (by omega)
      simp only
      omega
    · right
      by_cases h1 : read_at s.visited curr = 1
      · rw [dfs_visit_close g s curr rest h1]
        simp only [hstk, List.length_cons]
        exact ⟨count_zero_set_of_ne_zero s.visited curr 2 h0 (by omega), by omega⟩
      · rw [dfs_visit_drop g s curr rest h0 h1]
        simp [hstk]

theorem dfs_loop_more_fuel (g : graph_adj_list) (fuel k : Nat) (s r : dfs_state)
    (h : dfs_loop g fuel s = some r) : dfs_loop g (fuel + k) s = some r := by
  induction fuel generalizing s with
  | zero => simp [dfs_loop] at h
  | succ n ih =>
    rw [Nat.add_right_comm]
    simp only [dfs_loop] at h ⊢
    split
    · rename_i hc
      rw [if_pos hc] at h
      exact ih _ h
    · rename_i hc
      rw [if_neg hc] at h
      exact h

theorem dfs_loop_preserves (g : graph_adj_list) (P : dfs_state → Prop)
    (hstep : ∀ t, P t → t.no_processed < g.no_vertices → P (dfs_iter g t))
    (fuel : Nat) (s r : dfs_state) (h : dfs_loop g fuel s = some r) (hs : P s) :
    P r ∧ ¬ r.no_processed < g.no_vertices := by
  induction fuel generalizing s with
  | zero => simp [dfs_loop] at h
  | succ n ih =>
    simp only [dfs_loop] at h
    split at h
    · rename_i hc
      exact ih _ h (hstep s hs hc)
    · rename_i hc
      simp only [Option.some.injEq] at h
      subst h
      exact ⟨hs, hc⟩

theorem dfs_loop_terminates_aux {g : graph_adj_list} (hwf : WellFormed g) :
    ∀ n m (s : dfs_state), s.visited.count 0 = n → s.v_stack.length = m → dfs_inv g s →
      ∃ fuel r, dfs_loop g fuel s = some r := by
  intro n
  induction n using Nat.strong_induction_on with
  | _ n ihn =>
    intro m
    induction m using Nat.strong_induction_on with
    | _ m ihm =>
      intro s hn hm hinv
      by_cases hlt : s.no_processed < g.no_vertices
      · have hinv2 := dfs_iter_inv hwf s hinv hlt
        have hex : ∃ fuel r, dfs_loop g fuel (dfs_iter g s) = some r := by
          rcases dfs_iter_decreases s hinv hlt with h | ⟨h1, h2⟩
          · exact ihn _ (by omega) _ (dfs_iter g s) rfl rfl hinv2
          · exact ihm _ (by omega) (dfs_iter g s) (by omega) rfl hinv2
        obtain ⟨fuel, r, hr⟩ := hex
        exact ⟨fuel + 1, r, by simp only [dfs_loop, if_pos hlt, hr]⟩
      · exact ⟨1, s, by simp only [dfs_loop, if_neg hlt]⟩

theorem dfs_loop_terminates {g : graph_adj_list} (hwf : WellFormed g) (s : dfs_state)
    (hinv : dfs_inv g s) : ∃ fuel r, dfs_loop g fuel s = some r :=
  dfs_loop_terminates_aux hwf _ _ s rfl rfl hinv

theorem dfs_final_perm {g : graph_adj_list} (r : dfs_state) (hinv : dfs_inv g r)
    (hdone : ¬ r.no_processed < g.no_vertices) :
    r.prev.Perm (List.range' 1 g.no_vertices) ∧ r.post.Perm (List.range' 1 g.no_vertices) := by
  have hsub : r.post ⊆ r.prev := by
    intro v hv
    rw [hinv.prev_mem]
    rw [hinv.post_mem] at hv
    omega
  have hlen : g.no_vertices ≤ r.post.length := by
    rw [← hinv.processed]; omega
  have hle := (List.subperm_of_subset hinv.post_nodup hsub).length_le
  exact ⟨perm_range_of_nodup _ _ hinv.prev_nodup hinv.prev_range (by omega),
    perm_range_of_nodup _ _ hinv.post_nodup (fun v hv => hinv.prev_range v (hsub hv)) hlen⟩

theorem dfs_run {g : graph_adj_list} (hwf : WellFormed g) (v : Nat) (h1 : 1 ≤ v)
    (h2 : v ≤ g.no_vertices) :
    ∃ fuel r, (∀ k, dfs_loop g (fuel + k) (dfs_init g v) = some r) ∧ dfs_inv g r ∧
      ¬ r.no_processed < g.no_vertices := by
  obtain ⟨fuel, r, hr⟩ := dfs_loop_terminates hwf (dfs_init g v) (dfs_init_inv g v h1 h2)
  obtain ⟨hi, hd⟩ := dfs_loop_preserves g (dfs_inv g)
    (fun t ht hlt => dfs_iter_inv hwf t ht hlt) fuel _ r hr (dfs_init_inv g v h1 h2)
  exact ⟨fuel, r, fun k => dfs_loop_more_fuel g fuel k _ r hr, hi, hd⟩

/-! ## Breadth-first traversal: invariant, termination -/

theorem bfs_push_spec (N curr : Nat) (adj : List Nat) (hadj : ∀ e ∈ adj, 1 ≤ e ∧ e ≤ N)
    (visited queue : List Nat) (pl : List (Nat × Nat)) (h : bfs_scan_inv N visited queue) :
    bfs_scan_inv N (adj.foldl (bfs_push curr) (visited, queue, pl)).1
        (adj.foldl (bfs_push curr) (visited, queue, pl)).2.1 ∧
      (∃ extra, (adj.foldl (bfs_push curr) (visited, queue, pl)).2.1 = queue ++ extra) ∧
      (∀ v, read_at (adj.foldl (bfs_push curr) (visited, queue, pl)).1 v = 2 ↔
        read_at visited v = 2) := by
  induction adj generalizing visited queue pl with
  | nil => exact ⟨h, ⟨[], by simp⟩, fun v => Iff.rfl⟩
  | cons a t ih =>
    have ha := hadj a (by simp)
    have ht : ∀ e ∈ t, 1 ≤ e ∧ e ≤ N := fun e he => hadj e (by simp [he])
    simp only [List.foldl_cons]
    by_cases h0 : read_at visited a = 0
    · have halt : a < visited.length := by rw [h.len]; omega
      have hstep : bfs_push curr (visited, queue, pl) a =
          (visited.set a 1, queue ++ [a], pl ++ [(a, curr)]) := by
        simp [bfs_push, h0]
      rw [hstep]
      have hna : a ∉ queue := fun hm => by
        have := (h.queue_mem a).1 hm
        omega
      have h2 : bfs_scan_inv N (visited.set a 1) (queue ++ [a]) :=
        { len := by simp [h.len]
          queue_range := by
            intro x hx
            rcases List.mem_append.1 hx with hx | hx
            · exact h.queue_range x hx
            · simp at hx; exact hx ▸ ha
          queue_nodup := List.Nodup.append h.queue_nodup (List.nodup_singleton _)
            (by simpa using hna)
          queue_mem := by
            intro v
            by_cases hva : v = a
            · subst hva
              simp [read_at_set_self _ _ _ halt]
            · simp [read_at_set_other _ _ _ _ (Ne.symm hva), hva, h.queue_mem v]
          vals := by
            intro v
            by_cases hva : v = a
            · subst hva
              simp [read_at_set_self _ _ _ halt]
            · simpa [read_at_set_other _ _ _ _ (Ne.symm hva)] using h.vals v }
      obtain ⟨i1, ⟨extra, i2⟩, i3⟩ := ih ht (visited.set a 1) (queue ++ [a]) (pl ++ [(a, curr)]) h2
      refine ⟨i1, ⟨a :: extra, by rw [i2]; simp⟩, fun v => ?_⟩
      rw [i3 v]
      by_cases hva : v = a
      · subst hva
        simp [read_at_set_self _ _ _ halt, h0]
      · rw [read_at_set_other _ _ _ _ (Ne.symm hva)]
    · have hstep : bfs_push curr (visited, queue, pl) a = (visited, queue, pl) := by
        simp [bfs_push, h0]
      rw [hstep]
      exact ih ht visited queue pl h

theorem bfs_visit_inv {g : graph_adj_list} (hwf : WellFormed g) (s : bfs_state)
    (visited : List Nat) (curr : Nat) (rest : List Nat)
    (hscan : bfs_scan_inv g.no_vertices visited (curr :: rest))
    (h2 : ∀ v, read_at visited v = 2 ↔ read_at s.visited v = 2)
    (hinv : bfs_inv g s) : bfs_inv g (bfs_visit g s visited curr rest) := by
  have hc : 1 ≤ curr ∧ curr ≤ g.no_vertices := hscan.queue_range curr (by simp)
  obtain ⟨i1, ⟨extra, i2⟩, i3⟩ := bfs_push_spec g.no_vertices curr (g.get curr)
    (fun e he => wf_adj_range hwf hc.1 hc.2 he) visited (curr :: rest) s.proc hscan
  have hclt : curr < ((g.get curr).foldl (bfs_push curr) (visited, curr :: rest, s.proc)).1.length := by
    rw [i1.len]; omega
  have hnd := i1.queue_nodup
  rw [i2] at hnd
  simp only [List.cons_append, List.nodup_cons] at hnd
  have hc1 : read_at ((g.get curr).foldl (bfs_push curr) (visited, curr :: rest, s.proc)).1 curr = 1 := by
    rw [← i1.queue_mem, i2]; simp
  have hnp : curr ∉ s.post := fun hm => by
    have := (hinv.post_mem curr).1 hm
    rw [← h2, ← i3] at this
    omega
  unfold bfs_visit
  simp only
  refine
    { len := by simp [i1.len]
      queue_range := ?_
      queue_nodup := ?_
      queue_mem := ?_
      vals := ?_
      post_nodup := List.Nodup.append hinv.post_nodup (List.nodup_singleton _) (by simpa using hnp)
      post_range := ?_
      post_mem := ?_
      processed := by simp [hinv.processed] }
  · intro x hx
    exact i1.queue_range x (List.mem_of_mem_tail hx)
  · rw [i2]; exact hnd.2
  · intro v
    by_cases hvc : v = curr
    · subst hvc
      rw [read_at_set_self _ _ _ hclt, i2]
      simp only [List.cons_append, List.tail_cons]
      constructor
      · intro hm; exact absurd hm hnd.1
      · intro hm; omega
    · rw [read_at_set_other _ _ _ _ (Ne.symm hvc), ← i1.queue_mem, i2]
      simp [hvc]
  · intro v
    by_cases hvc : v = curr
    · subst hvc
      simp [read_at_set_self _ _ _ hclt]
    · rw [read_at_set_other _ _ _ _ (Ne.symm hvc)]
      exact i1.vals v
  · intro v hv
    rcases List.mem_append.1 hv with h | h
    · exact hinv.post_range v h
    · simp at h; exact h ▸ hc
  · intro v
    by_cases hvc : v = curr
    · subst hvc
      simp [read_at_set_self _ _ _ hclt]
    · rw [read_at_set_other _ _ _ _ (Ne.symm hvc), i3, h2, ← hinv.post_mem]
      simp [hvc]

theorem bfs_restart_spec {g : graph_adj_list} (s : bfs_state) (hinv : bfs_inv g s)
    (hq : s.v_queue = []) (hlt : s.no_processed < g.no_vertices) :
    (1 ≤ first_unvisited g.no_vertices s.visited g.no_vertices 1 ∧
      first_unvisited g.no_vertices s.visited g.no_vertices 1 ≤ g.no_vertices) ∧
    read_at s.visited (first_unvisited g.no_vertices s.visited g.no_vertices 1) = 0 := by
  apply scan_found g.no_vertices s.visited s.post (by rw [← hinv.processed]; exact hlt)
  intro j _ _ hj
  rw [hinv.post_mem]
  rcases hinv.vals j with h | h | h
  · exact absurd h hj
  · have := (hinv.queue_mem j).2 h
    rw [hq] at this
    simp at this
  · exact h

theorem bfs_iter_inv {g : graph_adj_list} (hwf : WellFormed g) (s : bfs_state)
    (hinv : bfs_inv g s) (hlt : s.no_processed < g.no_vertices) :
    bfs_inv g (bfs_iter g s) := by
  unfold bfs_iter
  split
  · rename_i hq
    obtain ⟨hr, h0⟩ := bfs_restart_spec s hinv hq hlt
    generalize first_unvisited g.no_vertices s.visited g.no_vertices 1 = i at hr h0 ⊢
    have hilt : i < s.visited.length := by
      rw [hinv.len]; omega
    refine bfs_visit_inv hwf s _ _ [] ?_ ?_ hinv
    · exact
        { len := by simp [hinv.len]
          queue_range := by
            intro x hx
            simp at hx
            exact hx ▸ hr
          queue_nodup := List.nodup_singleton _
          queue_mem := by
            intro v
            by_cases hv : v = i
            · subst hv
              simp [read_at_set_self _ _ _ hilt]
            · rw [read_at_set_other _ _ _ _ (Ne.symm hv), ← hinv.queue_mem, hq]
              simp [hv]
          vals := by
            intro v
            by_cases hv : v = i
            · subst hv
              simp [read_at_set_self _ _ _ hilt]
            · rw [read_at_set_other _ _ _ _ (Ne.symm hv)]
              exact hinv.vals v }
    · intro v
      by_cases hv : v = i
      · subst hv
        simp [read_at_set_self _ _ _ hilt, h0]
      · rw [read_at_set_other _ _ _ _ (Ne.symm hv)]
  · rename_i curr rest hq
    refine bfs_visit_inv hwf s _ _ rest ?_ (fun v => Iff.rfl) hinv
    exact
      { len := hinv.len
        queue_range := by rw [← hq]; exact hinv.queue_range
        queue_nodup := by rw [← hq]; exact hinv.queue_nodup
        queue_mem := by rw [← hq]; exact hinv.queue_mem
        vals := hinv.vals }

theorem bfs_iter_processed (g : graph_adj_list) (s : bfs_state) :
    (bfs_iter g s).no_processed = s.no_processed + 1 := by
  unfold bfs_iter
  split <;> rfl

theorem bfs_init_inv (g : graph_adj_list) (v : Nat) (h1 : 1 ≤ v) (h2 : v ≤ g.no_vertices) :
    bfs_inv g (bfs_init g v) := by
  have hlt : v < (List.replicate (g.no_vertices + 1) 0).length := by simp; omega
  exact
    { len := by simp [bfs_init]
      queue_range := by simp [bfs_init, h1, h2]
      queue_nodup := by simp [bfs_init]
      queue_mem := by
        intro w
        by_cases hw : w = v
        · subst hw
          simp [bfs_init, read_at_set_self _ _ _ hlt]
        · simp [bfs_init, read_at_set_other _ _ _ _ (Ne.symm hw), read_at_replicate_zero, hw]
      vals := by
        intro w
        by_cases hw : w = v
        · subst hw
          simp [bfs_init, read_at_set_self _ _ _ hlt]
        · simp [bfs_init, read_at_set_other _ _ _ _ (Ne.symm hw), read_at_replicate_zero]
      post_nodup := by simp [bfs_init]
      post_range := by simp [bfs_init]
      post_mem := by
        intro w
        by_cases hw : w = v
        · subst hw
          simp [bfs_init, read_at_set_self _ _ _ hlt]
        · simp [bfs_init, read_at_set_other _ _ _ _ (Ne.symm hw), read_at_replicate_zero]
      processed := by simp [bfs_init] }

theorem bfs_loop_more_fuel (g : graph_adj_list) (fuel k : Nat) (s r : bfs_state)
    (h : bfs_loop g fuel s = some r) : bfs_loop g (fuel + k) s = some r := by
  induction fuel generalizing s with
  | zero => simp [bfs_loop] at h
  | succ n ih =>
    rw [Nat.add_right_comm]
    simp only [bfs_loop] at h ⊢
    split
    · rename_i hc
      rw [if_pos hc] at h
      exact ih _ h
    · rename_i hc
      rw [if_neg hc] at h
      exact h

theorem bfs_loop_preserves (g : graph_adj_list) (P : bfs_state → Prop)
    (hstep : ∀ t, P t → t.no_processed < g.no_vertices → P (bfs_iter g t))
    (fuel : Nat) (s r : bfs_state) (h : bfs_loop g fuel s = some r) (hs : P s) :
    P r ∧ ¬ r.no_processed < g.no_vertices := by
  induction fuel generalizing s with
  | zero => simp [bfs_loop] at h
  | succ n ih =>
    simp only [bfs_loop] at h
    split at h
    · rename_i hc
      exact ih _ h (hstep s hs hc)
    · rename_i hc
      simp only [Option.some.injEq] at h
      subst h
      exact ⟨hs, hc⟩

theorem bfs_loop_terminates (g : graph_adj_list) :
    ∀ k (s : bfs_state), g.no_vertices - s.no_processed = k →
      ∃ fuel r, bfs_loop g fuel s = some r := by
  intro k
  induction k with
  | zero =>
    intro s hk
    exact ⟨1, s, by simp only [bfs_loop, if_neg (show ¬ s.no_processed < g.no_vertices by omega)]⟩
  | succ k ih =>
    intro s hk
    have hlt : s.no_processed < g.no_vertices := by omega
    obtain ⟨fuel, r, hr⟩ := ih (bfs_iter g s) (by rw [bfs_iter_processed]; omega)
    exact ⟨fuel + 1, r, by simp only [bfs_loop, if_pos hlt, hr]⟩

theorem bfs_run {g : graph_adj_list} (hwf : WellFormed g) (v : Nat) (h1 : 1 ≤ v)
    (h2 : v ≤ g.no_vertices) :
    ∃ fuel r, (∀ k, bfs_loop g (fuel + k) (bfs_init g v) = some r) ∧ bfs_inv g r ∧
      ¬ r.no_processed < g.no_vertices := by
  obtain ⟨fuel, r, hr⟩ := bfs_loop_terminates g _ (bfs_init g v) rfl
  obtain ⟨hi, hd⟩ := bfs_loop_preserves g (bfs_inv g)
    (fun t ht hlt => bfs_iter_inv hwf t ht hlt) fuel _ r hr (bfs_init_inv g v h1 h2)
  exact ⟨fuel, r, fun k => bfs_loop_more_fuel g fuel k _ r hr, hi, hd⟩

/-! ## Depth-first traversal: the calls of the tree-edge hook -/

theorem dfs_tree_init (g : graph_adj_list) (s0 : Nat) : dfs_tree_inv g s0 (dfs_init g s0) where
  edge := by simp [dfs_init]
  pending := by simp [dfs_init]
  roots := by simp [dfs_init]
  start := Or.inr ⟨rfl, rfl⟩
  origin := by
    intro x hx
    simp only [dfs_init, List.mem_singleton, read_at_replicate_zero, ne_eq,
      not_true_eq_false, or_false] at hx
    exact Or.inl hx

theorem dfs_visit_tree {g : graph_adj_list} (s0 : Nat) (s : dfs_state)
    (curr : Nat) (rest : List Nat) (hinv : dfs_inv g s) (ht : dfs_tree_inv g s0 s)
    (hstk : s.v_stack = curr :: rest) : dfs_tree_inv g s0 (dfs_visit g s curr rest) := by
  have hc : 1 ≤ curr ∧ curr ≤ g.no_vertices := hinv.stack_range curr (by simp [hstk])
  have hclt : curr < s.visited.length := by rw [hinv.len]; omega
  by_cases h0 : read_at s.visited curr = 0
  · rw [dfs_visit_open g s curr rest h0]
    have hmono : ∀ x, read_at s.visited x ≠ 0 → read_at (s.visited.set curr 1) x ≠ 0 := by
      intro x hx
      by_cases hxc : x = curr
      · subst hxc; exact absurd h0 hx
      · rwa [read_at_set_other _ _ _ _ (Ne.symm hxc)]
    have hcur : read_at (s.visited.set curr 1) curr ≠ 0 := by
      rw [read_at_set_self _ _ _ hclt]; omega
    refine
      { edge := ?_
        pending := ?_
        roots := ?_
        start := ?_
        origin := ?_ }
    · intro c p hcp
      simp only [List.mem_append, List.mem_map, List.mem_filter, decide_eq_true_eq,
        Prod.mk.injEq] at hcp
      rcases hcp with hcp | ⟨e, ⟨he, hev⟩, rfl, rfl⟩
      · exact ht.edge c p hcp
      · refine ⟨he, ?_, ?_⟩
        · intro hes
          subst hes
          rcases ht.start with h | ⟨-, h⟩
          · exact hmono _ h hev
          · rw [hstk] at h
            simp only [List.cons.injEq] at h
            rw [← h.1] at hev
            exact hcur hev
        · intro her
          rcases ht.roots _ her with h | h
          · exact hmono _ h hev
          · rw [hstk] at h
            simp only [List.cons.injEq] at h
            rw [← h.1] at hev
            exact hcur hev
    · intro c p hcp
      simp only [List.mem_append, List.mem_map, List.mem_filter, decide_eq_true_eq,
        Prod.mk.injEq] at hcp
      rcases hcp with hcp | ⟨e, ⟨he, hev⟩, rfl, rfl⟩
      · rcases ht.pending c p hcp with h | h
        · left
          rw [hstk] at h
          simp only [List.mem_append, List.mem_reverse]
          exact Or.inr h
        · exact Or.inr (hmono _ h)
      · left
        simp only [List.mem_append, List.mem_reverse, List.mem_filter, decide_eq_true_eq]
        exact Or.inl ⟨he, hev⟩
    · intro r hr
      left
      rcases ht.roots r hr with h | h
      · exact hmono _ h
      · rw [hstk] at h
        simp only [List.cons.injEq] at h
        rw [← h.1]; exact hcur
    · left
      rcases ht.start with h | ⟨-, h⟩
      · exact hmono _ h
      · rw [hstk] at h
        simp only [List.cons.injEq] at h
        rw [← h.1]; exact hcur
    · intro x hx
      have hold : x ∈ s.v_stack ∨ read_at s.visited x ≠ 0 ∨
          x ∈ (g.get curr).filter (fun e => decide (read_at (s.visited.set curr 1) e = 0)) := by
        rcases hx with hx | hx
        · simp only [List.mem_append, List.mem_reverse] at hx
          rcases hx with hx | hx
          · exact Or.inr (Or.inr hx)
          · left; rw [hstk]; exact hx
        · by_cases hxc : x = curr
          · left; rw [hstk, hxc]; simp
          · right; left
            rwa [read_at_set_other _ _ _ _ (Ne.symm hxc)] at hx
      rcases hold with h | h | h
      · rcases ht.origin x (Or.inl h) with h | h | ⟨p, h⟩
        · exact Or.inl h
        · exact Or.inr (Or.inl h)
        · exact Or.inr (Or.inr ⟨p, List.mem_append_left _ h⟩)
      · rcases ht.origin x (Or.inr h) with h | h | ⟨p, h⟩
        · exact Or.inl h
        · exact Or.inr (Or.inl h)
        · exact Or.inr (Or.inr ⟨p, List.mem_append_left _ h⟩)
      · exact Or.inr (Or.inr ⟨curr, List.mem_append_right _ (List.mem_map.2 ⟨x, h, rfl⟩)⟩)
  · have hpop : ∀ s' : dfs_state, s'.build = s.build → s'.restarts = s.restarts →
        s'.v_stack = rest → (∀ x, read_at s.visited x ≠ 0 → read_at s'.visited x ≠ 0) →
        (∀ x, read_at s'.visited x ≠ 0 → read_at s.visited x ≠ 0) →
        dfs_tree_inv g s0 s' := by
      intro s' hb hr hs hm1 hm2
      refine
        { edge := by rw [hb, hr]; exact ht.edge
          pending := ?_
          roots := ?_
          start := ?_
          origin := ?_ }
      · intro c p hcp
        rw [hb] at hcp
        rcases ht.pending c p hcp with h | h
        · rw [hstk] at h
          rcases List.mem_cons.1 h with h | h
          · right; rw [h]; exact hm1 _ h0
          · left; rw [hs]; exact h
        · exact Or.inr (hm1 _ h)
      · intro r hr'
        rw [hr] at hr'
        left
        rcases ht.roots r hr' with h | h
        · exact hm1 _ h
        · rw [hstk] at h
          simp only [List.cons.injEq] at h
          rw [← h.1]; exact hm1 _ h0
      · left
        rcases ht.start with h | ⟨-, h⟩
        · exact hm1 _ h
        · rw [hstk] at h
          simp only [List.cons.injEq] at h
          rw [← h.1]; exact hm1 _ h0
      · intro x hx
        rw [hb, hr]
        apply ht.origin
        rcases hx with hx | hx
        · left; rw [hstk]; rw [hs] at hx; exact List.mem_cons_of_mem _ hx
        · exact Or.inr (hm2 _ hx)
    by_cases h1 : read_at s.visited curr = 1
    · rw [dfs_visit_close g s curr rest h1]
      apply hpop
      · rfl
      · rfl
      · rfl
      · intro x hx
        by_cases hxc : x = curr
        · subst hxc
          simp only [read_at_set_self _ _ _ hclt]; omega
        · simpa only [read_at_set_other _ _ _ _ (Ne.symm hxc)] using hx
      · intro x hx
        by_cases hxc : x = curr
        · subst hxc; exact h0
        · simpa only [read_at_set_other _ _ _ _ (Ne.symm hxc)] using hx
    · rw [dfs_visit_drop g s curr rest h0 h1]
      apply hpop
      · rfl
      · rfl
      · rfl
      · exact fun x hx => hx
      · exact fun x hx => hx

theorem dfs_iter_tree {g : graph_adj_list} (s0 : Nat) (s : dfs_state)
    (hinv : dfs_inv g s) (ht : dfs_tree_inv g s0 s) (hlt : s.no_processed < g.no_vertices) :
    dfs_tree_inv g s0 (dfs_iter g s) := by
  unfold dfs_iter
  split
  · rename_i hstk
    obtain ⟨hr, h0⟩ := dfs_restart_spec s hinv hstk hlt
    generalize first_unvisited g.no_vertices s.visited g.no_vertices 1 = i at hr h0 ⊢
    have hinv1 : dfs_inv g { s with restarts := s.restarts ++ [i], v_stack := [i] } :=
      { len := hinv.len
        stack_range := by
          intro x hx
          simp at hx
          exact hx ▸ hr
        open_on_stack := by
          intro v hv
          have := hinv.open_on_stack v hv
          rw [hstk] at this
          simp at this
        vals := hinv.vals
        prev_nodup := hinv.prev_nodup
        prev_range := hinv.prev_range
        prev_mem := hinv.prev_mem
        post_nodup := hinv.post_nodup
        post_mem := hinv.post_mem
        processed := hinv.processed }
    have hvis : ∀ c p, (c, p) ∈ s.build → read_at s.visited c ≠ 0 := by
      intro c p hcp
      rcases ht.pending c p hcp with h | h
      · rw [hstk] at h; simp at h
      · exact h
    have ht1 : dfs_tree_inv g s0 { s with restarts := s.restarts ++ [i], v_stack := [i] } :=
      { edge := by
          intro c p hcp
          obtain ⟨e1, e2, e3⟩ := ht.edge c p hcp
          refine ⟨e1, e2, ?_⟩
          simp only [List.mem_append, List.mem_singleton, not_or]
          refine ⟨e3, fun hci => ?_⟩
          exact hvis c p hcp (hci ▸ h0)
        pending := fun c p hcp => Or.inr (hvis c p hcp)
        roots := by
          intro r hr'
          simp only [List.mem_append, List.mem_singleton] at hr'
          rcases hr' with h | h
          · rcases ht.roots r h with h' | h'
            · exact Or.inl h'
            · rw [hstk] at h'; simp at h'
          · right; rw [h]
        start := by
          rcases ht.start with h | ⟨-, h⟩
          · exact Or.inl h
          · rw [hstk] at h; simp at h
        origin := by
          intro x hx
          simp only [List.mem_singleton] at hx
          rcases hx with hx | hx
          · right; left; simp [hx]
          · rcases ht.origin x (Or.inr hx) with h | h | h
            · exact Or.inl h
            · right; left; simp [h]
            · exact Or.inr (Or.inr h) }
    have h := dfs_visit_tree s0 _ i [] hinv1 ht1 rfl
    exact h
  · rename_i curr rest hstk
    exact dfs_visit_tree s0 s curr rest hinv ht hstk

theorem dfs_run_tree {g : graph_adj_list} (hwf : WellFormed g) (v : Nat) (h1 : 1 ≤ v)
    (h2 : v ≤ g.no_vertices) :
    ∃ fuel r, (∀ k, dfs_loop g (fuel + k) (dfs_init g v) = some r) ∧ dfs_inv g r ∧
      dfs_tree_inv g v r ∧ ¬ r.no_processed < g.no_vertices := by
  obtain ⟨fuel, r, hr⟩ := dfs_loop_terminates hwf (dfs_init g v) (dfs_init_inv g v h1 h2)
  obtain ⟨⟨hi, ht⟩, hd⟩ := dfs_loop_preserves g (fun t => dfs_inv g t ∧ dfs_tree_inv g v t)
    (fun t ht hlt => ⟨dfs_iter_inv hwf t ht.1 hlt, dfs_iter_tree v t ht.1 ht.2 hlt⟩)
    fuel _ r hr ⟨dfs_init_inv g v h1 h2, dfs_tree_init g v⟩
  exact ⟨fuel, r, fun k => dfs_loop_more_fuel g fuel k _ r hr, hi, ht, hd⟩

theorem dfs_final_visited {g : graph_adj_list} (r : dfs_state) (hinv : dfs_inv g r)
    (hdone : ¬ r.no_processed < g.no_vertices) (v : Nat) (h1 : 1 ≤ v)
    (h2 : v ≤ g.no_vertices) : read_at r.visited v = 2 := by
  have hp := (dfs_final_perm r hinv hdone).2
  rw [← hinv.post_mem, hp.mem_iff, List.mem_range'_1]
  omega

/-! ## Lemmas on lists -/

theorem exists_first_occurrence (a : Nat) (l : List Nat) (h : a ∈ l) :
    ∃ p q, l = p ++ a :: q ∧ a ∉ p := by
  induction l with
  | nil => simp at h
  | cons b t ih =>
    by_cases hab : a = b
    · exact ⟨[], t, by simp [hab], by simp⟩
    · rcases List.mem_cons.1 h with h | h
      · exact absurd h hab
      · obtain ⟨p, q, hpq, hp⟩ := ih h
        exact ⟨b :: p, q, by simp [hpq], by simp [hab, hp]⟩

theorem first_occurrence_unique (a : Nat) (p1 q1 p2 q2 : List Nat) (h1 : a ∉ p1)
    (h2 : a ∉ p2) (h : p1 ++ a :: q1 = p2 ++ a :: q2) : p1 = p2 ∧ q1 = q2 := by
  induction p1 generalizing p2 with
  | nil =>
    cases p2 with
    | nil => simpa using h
    | cons b t =>
      simp only [List.nil_append, List.cons_append, List.cons.injEq] at h
      exact absurd h.1 (fun hab => h2 (by simp [hab]))
  | cons c t ih =>
    cases p2 with
    | nil =>
      simp only [List.nil_append, List.cons_append, List.cons.injEq] at h
      exact absurd h.1.symm (fun hab => h1 (by simp [hab]))
    | cons b t2 =>
      simp only [List.cons_append, List.cons.injEq] at h
      obtain ⟨e1, e2⟩ := ih t2 (fun hm => h1 (List.mem_cons_of_mem _ hm))
        (fun hm => h2 (List.mem_cons_of_mem _ hm)) h.2
      exact ⟨by rw [h.1, e1], e2⟩

theorem split_after_push (pushed : List Nat) (c : Nat) (rest : List Nat) (u : Nat)
    (pre post : List Nat) (hu : u ∉ pushed) (h : pushed ++ c :: rest = pre ++ u :: post)
    (hpre : u ∉ pre) :
    (u = c ∧ pre = pushed) ∨
      (u ≠ c ∧ ∃ pre0, c :: rest = pre0 ++ u :: post ∧ u ∉ pre0 ∧ pre = pushed ++ pre0) := by
  by_cases huc : u = c
  · subst huc
    exact Or.inl ⟨rfl, (first_occurrence_unique u _ _ _ _ hu hpre h).1.symm⟩
  · right
    refine ⟨huc, ?_⟩
    have hmem : u ∈ pushed ++ c :: rest := by rw [h]; simp
    have hmem2 : u ∈ c :: rest := by
      rcases List.mem_append.1 hmem with hm | hm
      · exact absurd hm hu
      · exact hm
    obtain ⟨pre0, post0, e, hp0⟩ := exists_first_occurrence u _ hmem2
    have h' : (pushed ++ pre0) ++ u :: post0 = pre ++ u :: post := by
      rw [← h, e, List.append_assoc]
    obtain ⟨e1, e2⟩ := first_occurrence_unique u _ _ _ _
      (by simp [hu, hp0]) hpre h'
    exact ⟨pre0, by rw [e, e2], hp0, e1.symm⟩

theorem drop_set_self (l : List Nat) (h x : Nat) (hl : h < l.length) :
    (l.set h x).drop h = x :: l.drop (h + 1) := by
  induction l generalizing h with
  | nil => simp at hl
  | cons a t ih =>
    cases h with
    | zero => simp
    | succ j =>
      simp only [List.set_cons_succ, List.drop_succ_cons]
      exact ih j (by simpa using hl)

/-! ## Topological sort: the inner loop -/

theorem topo_scan_some (vis : List Nat) (adj stk stk2 : List Nat)
    (h : topo_scan vis adj stk = some stk2) :
    (∀ e ∈ adj, read_at vis e ≠ 1) ∧
      stk2 = (adj.filter (fun e => decide (read_at vis e = 0))).reverse ++ stk := by
  induction adj generalizing stk with
  | nil =>
    simp only [topo_scan, Option.some.injEq] at h
    simp [h]
  | cons a t ih =>
    simp only [topo_scan] at h
    by_cases h0 : read_at vis a = 0
    · rw [if_pos h0] at h
      obtain ⟨i1, i2⟩ := ih _ h
      refine ⟨?_, ?_⟩
      · intro e he
        rcases List.mem_cons.1 he with he | he
        · rw [he, h0]; omega
        · exact i1 e he
      · rw [i2]
        simp [List.filter_cons, h0]
    · rw [if_neg h0] at h
      by_cases h1 : read_at vis a = 1
      · rw [if_pos h1] at h
        exact absurd h (by simp)
      · rw [if_neg h1] at h
        obtain ⟨i1, i2⟩ := ih _ h
        refine ⟨?_, ?_⟩
        · intro e he
          rcases List.mem_cons.1 he with he | he
          · rw [he]; exact h1
          · exact i1 e he
        · rw [i2]
          simp [List.filter_cons, h0]

theorem topo_scan_none (vis : List Nat) (adj stk : List Nat)
    (h : topo_scan vis adj stk = none) : ∃ e ∈ adj, read_at vis e = 1 := by
  induction adj generalizing stk with
  | nil => simp [topo_scan] at h
  | cons a t ih =>
    simp only [topo_scan] at h
    by_cases h0 : read_at vis a = 0
    · rw [if_pos h0] at h
      obtain ⟨e, he, h1⟩ := ih _ h
      exact ⟨e, List.mem_cons_of_mem _ he, h1⟩
    · rw [if_neg h0] at h
      by_cases h1 : read_at vis a = 1
      · exact ⟨a, by simp, h1⟩
      · rw [if_neg h1] at h
        obtain ⟨e, he, h1⟩ := ih _ h
        exact ⟨e, List.mem_cons_of_mem _ he, h1⟩

theorem topo_visit_open (g : graph_adj_list) (s t : topo_state) (curr : Nat)
    (rest : List Nat) (h0 : read_at s.visited curr = 0)
    (h : topo_visit g s curr rest = some t) :
    (∀ e ∈ g.get curr, read_at (s.visited.set curr 1) e ≠ 1) ∧
    t = { s with
          visited := s.visited.set curr 1
          v_stack := ((g.get curr).filter
            (fun e => decide (read_at (s.visited.set curr 1) e = 0))).reverse ++ curr :: rest } := by
  simp only [topo_visit, if_pos h0] at h
  split at h
  · exact absurd h (by simp)
  · rename_i stk hs
    obtain ⟨i1, i2⟩ := topo_scan_some _ _ _ _ hs
    simp only [Option.some.injEq] at h
    exact ⟨i1, by rw [← h, i2]⟩

theorem topo_visit_close (g : graph_adj_list) (s : topo_state) (curr : Nat) (rest : List Nat)
    (h1 : read_at s.visited curr = 1) :
    topo_visit g s curr rest =
      some { s with v_stack := rest, list := s.list.set s.head curr,
                    head := size_pred s.head,
                    no_processed := s.no_processed + 1, visited := s.visited.set curr 2 } := by
  have h0 : read_at s.visited curr ≠ 0 := by omega
  simp only [topo_visit, if_neg h0, if_pos h1]

theorem topo_visit_drop (g : graph_adj_list) (s : topo_state) (curr : Nat) (rest : List Nat)
    (h0 : read_at s.visited curr ≠ 0) (h1 : read_at s.visited curr ≠ 1) :
    topo_visit g s curr rest = some { s with v_stack := rest } := by
  simp only [topo_visit, if_neg h0, if_neg h1]

/-! ## Topological sort: invariant -/

theorem size_pred_pos (h : Nat) (h1 : 1 ≤ h) : size_pred h = h - 1 := by
  cases h with
  | zero => omega
  | succ k => rfl

theorem topo_pop_stack {g : graph_adj_list} (s : topo_state) (x : Nat) (rest : List Nat)
    (vis2 : List Nat) (hinv : topo_inv g s) (hstk : s.v_stack = x :: rest)
    (hx : read_at vis2 x = 2)
    (h1 : ∀ v, read_at vis2 v = 1 → read_at s.visited v = 1)
    (h2 : ∀ v, read_at s.visited v = 2 → read_at vis2 v = 2) :
    (∀ v, read_at vis2 v = 1 → v ∈ rest) ∧
    (∀ u, read_at vis2 u = 1 → ∀ pre post, rest = pre ++ u :: post →
      u ∉ pre → ∀ v ∈ g.get u, read_at vis2 v = 2 ∨ v ∈ pre) ∧
    (∀ w, read_at vis2 w = 1 → ∀ pre post, rest = pre ++ w :: post →
      w ∉ pre → ∀ y ∈ pre, Relation.TransGen (Edge g) w y) := by
  have hne : ∀ v, read_at vis2 v = 1 → v ≠ x := by
    intro v hv hvx
    rw [hvx, hx] at hv
    omega
  refine ⟨?_, ?_, ?_⟩
  · intro v hv
    have := hinv.open_on_stack v (h1 v hv)
    rw [hstk] at this
    rcases List.mem_cons.1 this with h | h
    · exact absurd h (hne v hv)
    · exact h
  · intro u hu pre post hsplit hpre v hv
    have hold := hinv.open_nbrs u (h1 u hu) (x :: pre) post
      (by rw [hstk, hsplit]; rfl)
      (by simp only [List.mem_cons, not_or]; exact ⟨hne u hu, hpre⟩) v hv
    rcases hold with h | h
    · exact Or.inl (h2 v h)
    · rcases List.mem_cons.1 h with h | h
      · left; rw [h]; exact hx
      · exact Or.inr h
  · intro w hw pre post hsplit hpre y hy
    exact hinv.chain w (h1 w hw) (x :: pre) post
      (by rw [hstk, hsplit]; rfl)
      (by simp only [List.mem_cons, not_or]; exact ⟨hne w hw, hpre⟩) y
      (List.mem_cons_of_mem _ hy)

theorem topo_visit_inv {g : graph_adj_list} (hwf : WellFormed g) (s t : topo_state)
    (curr : Nat) (rest : List Nat) (hinv : topo_inv g s) (hstk : s.v_stack = curr :: rest)
    (hlt : s.no_processed < g.no_vertices) (ht : topo_visit g s curr rest = some t) :
    topo_inv g t := by
  have hc : 1 ≤ curr ∧ curr ≤ g.no_vertices := hinv.stack_range curr (by simp [hstk])
  have hclt : curr < s.visited.length := by rw [hinv.len]; omega
  have hrest : ∀ x ∈ rest, 1 ≤ x ∧ x ≤ g.no_vertices := fun x hx =>
    hinv.stack_range x (by simp [hstk, hx])
  by_cases h0 : read_at s.visited curr = 0
  · obtain ⟨hno1, hteq⟩ := topo_visit_open g s t curr rest h0 ht
    subst hteq
    have hset : ∀ v, v ≠ curr → read_at (s.visited.set curr 1) v = read_at s.visited v :=
      fun v hv => read_at_set_other _ _ _ _ (Ne.symm hv)
    have hcur : read_at (s.visited.set curr 1) curr = 1 := read_at_set_self _ _ _ hclt
    have hpushed : ∀ e, e ∈ ((g.get curr).filter
        (fun e => decide (read_at (s.visited.set curr 1) e = 0))).reverse ↔
        e ∈ g.get curr ∧ read_at (s.visited.set curr 1) e = 0 := by
      intro e
      simp only [List.mem_reverse, List.mem_filter, decide_eq_true_eq]
    have h2iff : ∀ v, read_at (s.visited.set curr 1) v = 2 ↔ read_at s.visited v = 2 := by
      intro v
      by_cases hvc : v = curr
      · subst hvc
        rw [hcur, h0]; omega
      · rw [hset v hvc]
    refine
      { len := by simp [hinv.len]
        stack_range := ?_
        open_on_stack := ?_
        vals := ?_
        vis_range := ?_
        list_len := hinv.list_len
        np_le := hinv.np_le
        head_eq := hinv.head_eq
        done_nodup := hinv.done_nodup
        done_mem := ?_
        done_order := hinv.done_order
        open_nbrs := ?_
        chain := ?_ }
    · intro x hx
      rcases List.mem_append.1 hx with hx | hx
      · exact wf_adj_range hwf hc.1 hc.2 ((hpushed x).1 hx).1
      · rcases List.mem_cons.1 hx with hx | hx
        · exact hx ▸ hc
        · exact hrest x hx
    · intro v hv
      simp only [List.mem_append, List.mem_cons]
      by_cases hvc : v = curr
      · exact Or.inr (Or.inl hvc)
      · rw [hset v hvc] at hv
        have := hinv.open_on_stack v hv
        rw [hstk] at this
        exact Or.inr (List.mem_cons.1 this)
    · intro v
      by_cases hvc : v = curr
      · subst hvc
        rw [hcur]; omega
      · rw [hset v hvc]; exact hinv.vals v
    · intro v hv
      by_cases hvc : v = curr
      · exact hvc ▸ hc
      · rw [hset v hvc] at hv
        exact hinv.vis_range v hv
    · intro v
      rw [h2iff]
      exact hinv.done_mem v
    · intro u hu pre post hsplit hpre v hv
      have hunp : u ∉ ((g.get curr).filter
          (fun e => decide (read_at (s.visited.set curr 1) e = 0))).reverse := by
        intro hm
        have := ((hpushed u).1 hm).2
        have hu2 : read_at (s.visited.set curr 1) u = 1 := hu
        omega
      rcases split_after_push _ curr rest u pre post hunp hsplit hpre with
        ⟨huc, hp⟩ | ⟨huc, pre0, e0, hp0, hp⟩
      · subst huc
        rw [hp, hpushed]
        have hv1 := hno1 v hv
        have hvv : read_at (s.visited.set u 1) v = 0 ∨ read_at (s.visited.set u 1) v = 1 ∨
            read_at (s.visited.set u 1) v = 2 := by
          by_cases hvc : v = u
          · subst hvc
            rw [hcur]; omega
          · rw [hset v hvc]; exact hinv.vals v
        rcases hvv with h | h | h
        · exact Or.inr ⟨hv, h⟩
        · exact absurd h hv1
        · exact Or.inl h
      · rw [hset u huc] at hu
        have hold := hinv.open_nbrs u hu pre0 post (by rw [hstk, e0]) hp0 v hv
        rcases hold with h | h
        · exact Or.inl ((h2iff v).2 h)
        · right; rw [hp]; exact List.mem_append_right _ h
    · intro w hw pre post hsplit hpre y hy
      have hwnp : w ∉ ((g.get curr).filter
          (fun e => decide (read_at (s.visited.set curr 1) e = 0))).reverse := by
        intro hm
        have := ((hpushed w).1 hm).2
        have hw2 : read_at (s.visited.set curr 1) w = 1 := hw
        omega
      rcases split_after_push _ curr rest w pre post hwnp hsplit hpre with
        ⟨hwc, hp⟩ | ⟨hwc, pre0, e0, hp0, hp⟩
      · subst hwc
        rw [hp, hpushed] at hy
        exact Relation.TransGen.single ⟨hc.1, hc.2, hy.1⟩
      · rw [hset w hwc] at hw
        have hcpre : curr ∈ pre0 := by
          cases pre0 with
          | nil =>
            simp only [List.nil_append, List.cons.injEq] at e0
            exact absurd e0.1.symm hwc
          | cons b tl =>
            simp only [List.cons_append, List.cons.injEq] at e0
            rw [e0.1]; simp
        have hwc2 := hinv.chain w hw pre0 post (by rw [hstk, e0]) hp0 curr hcpre
        rw [hp] at hy
        rcases List.mem_append.1 hy with hy | hy
        · exact Relation.TransGen.tail hwc2 ⟨hc.1, hc.2, ((hpushed y).1 hy).1⟩
        · exact hinv.chain w hw pre0 post (by rw [hstk, e0]) hp0 y hy
  · by_cases h1 : read_at s.visited curr = 1
    · rw [topo_visit_close g s curr rest h1] at ht
      simp only [Option.some.injEq] at ht
      subst ht
      have hset : ∀ v, v ≠ curr → read_at (s.visited.set curr 2) v = read_at s.visited v :=
        fun v hv => read_at_set_other _ _ _ _ (Ne.symm hv)
      have hcur : read_at (s.visited.set curr 2) curr = 2 := read_at_set_self _ _ _ hclt
      obtain ⟨p1, p2, p3⟩ := topo_pop_stack s curr rest (s.visited.set curr 2) hinv hstk hcur
        (by
          intro v hv
          by_cases hvc : v = curr
          · rw [hvc]; exact h1
          · rwa [hset v hvc] at hv)
        (by
          intro v hv
          by_cases hvc : v = curr
          · rw [hvc]; exact hcur
          · rwa [hset v hvc])
      have hhead := hinv.head_eq hlt
      have hdrop : (s.list.set s.head curr).drop (g.no_vertices - (s.no_processed + 1)) =
          curr :: s.list.drop (g.no_vertices - s.no_processed) := by
        have e1 : g.no_vertices - (s.no_processed + 1) = s.head := by omega
        have e2 : g.no_vertices - s.no_processed = s.head + 1 := by omega
        rw [e1, e2]
        exact drop_set_self _ _ _ (by rw [hinv.list_len]; omega)
      have hnd : curr ∉ s.list.drop (g.no_vertices - s.no_processed) := by
        rw [hinv.done_mem]; omega
      refine
        { len := by simp [hinv.len]
          stack_range := hrest
          open_on_stack := p1
          vals := ?_
          vis_range := ?_
          list_len := by simp [hinv.list_len]
          np_le := hlt
          head_eq := ?_
          done_nodup := ?_
          done_mem := ?_
          done_order := ?_
          open_nbrs := p2
          chain := p3 }
      · intro v
        by_cases hvc : v = curr
        · subst hvc
          rw [hcur]; omega
        · rw [hset v hvc]; exact hinv.vals v
      · intro v hv
        by_cases hvc : v = curr
        · exact hvc ▸ hc
        · rw [hset v hvc] at hv
          exact hinv.vis_range v hv
      · intro hlt2
        have hlt2' : s.no_processed + 1 < g.no_vertices := hlt2
        show size_pred s.head = g.no_vertices - 1 - (s.no_processed + 1)
        rw [size_pred_pos s.head (by omega)]
        omega
      · show ((s.list.set s.head curr).drop (g.no_vertices - (s.no_processed + 1))).Nodup
        rw [hdrop]
        exact List.nodup_cons.2 ⟨hnd, hinv.done_nodup⟩
      · intro v
        show v ∈ (s.list.set s.head curr).drop (g.no_vertices - (s.no_processed + 1)) ↔
          read_at (s.visited.set curr 2) v = 2
        rw [hdrop, List.mem_cons]
        by_cases hvc : v = curr
        · subst hvc
          simp [hcur]
        · rw [hset v hvc, hinv.done_mem]
          simp [hvc]
      · intro l1 u l2 hsplit v hv
        have hsplit' : curr :: s.list.drop (g.no_vertices - s.no_processed) = l1 ++ u :: l2 := by
          rw [← hdrop]; exact hsplit
        cases l1 with
        | nil =>
          simp only [List.nil_append, List.cons.injEq] at hsplit'
          obtain ⟨e1, e2⟩ := hsplit'
          subst e1
          rw [← e2, hinv.done_mem]
          rcases hinv.open_nbrs curr h1 [] rest (by rw [hstk]; rfl) (by simp) v hv with h | h
          · exact h
          · simp at h
        | cons b tl =>
          simp only [List.cons_append, List.cons.injEq] at hsplit'
          exact hinv.done_order tl u l2 hsplit'.2 v hv
    · rw [topo_visit_drop g s curr rest h0 h1] at ht
      simp only [Option.some.injEq] at ht
      subst ht
      have hcur : read_at s.visited curr = 2 := by
        rcases hinv.vals curr with h | h | h
        · exact absurd h h0
        · exact absurd h h1
        · exact h
      obtain ⟨p1, p2, p3⟩ := topo_pop_stack s curr rest s.visited hinv hstk hcur
        (fun v hv => hv) (fun v hv => hv)
      exact
        { len := hinv.len
          stack_range := hrest
          open_on_stack := p1
          vals := hinv.vals
          vis_range := hinv.vis_range
          list_len := hinv.list_len
          np_le := hinv.np_le
          head_eq := hinv.head_eq
          done_nodup := hinv.done_nodup
          done_mem := hinv.done_mem
          done_order := hinv.done_order
          open_nbrs := p2
          chain := p3 }

theorem topo_visit_cycle {g : graph_adj_list} (s : topo_state)
    (curr : Nat) (rest : List Nat) (hinv : topo_inv g s) (hstk : s.v_stack = curr :: rest)
    (ht : topo_visit g s curr rest = none) : HasCycle g := by
  have hc : 1 ≤ curr ∧ curr ≤ g.no_vertices := hinv.stack_range curr (by simp [hstk])
  have hclt : curr < s.visited.length := by rw [hinv.len]; omega
  by_cases h0 : read_at s.visited curr = 0
  · simp only [topo_visit, if_pos h0] at ht
    split at ht
    · rename_i hs
      obtain ⟨e, he, he1⟩ := topo_scan_none _ _ _ hs
      by_cases hec : e = curr
      · subst hec
        exact ⟨e, Relation.TransGen.single ⟨hc.1, hc.2, he⟩⟩
      · rw [read_at_set_other _ _ _ _ (Ne.symm hec)] at he1
        have hmem := hinv.open_on_stack e he1
        obtain ⟨pre0, post0, e0, hp0⟩ := exists_first_occurrence e _ hmem
        have hcpre : curr ∈ pre0 := by
          rw [hstk] at e0
          cases pre0 with
          | nil =>
            simp only [List.nil_append, List.cons.injEq] at e0
            exact absurd e0.1.symm hec
          | cons b tl =>
            simp only [List.cons_append, List.cons.injEq] at e0
            rw [e0.1]; simp
        have hpath := hinv.chain e he1 pre0 post0 e0 hp0 curr hcpre
        exact ⟨e, Relation.TransGen.tail hpath ⟨hc.1, hc.2, he⟩⟩
    · exact absurd ht (by simp)
  · by_cases h1 : read_at s.visited curr = 1
    · rw [topo_visit_close g s curr rest h1] at ht
      exact absurd ht (by simp)
    · rw [topo_visit_drop g s curr rest h0 h1] at ht
      exact absurd ht (by simp)

/-! ## Topological sort: the loop -/

theorem topo_restart_spec {g : graph_adj_list} (s : topo_state) (hinv : topo_inv g s)
    (hstk : s.v_stack = []) (hlt : s.no_processed < g.no_vertices) :
    (1 ≤ first_unvisited g.no_vertices s.visited g.no_vertices 1 ∧
      first_unvisited g.no_vertices s.visited g.no_vertices 1 ≤ g.no_vertices) ∧
    read_at s.visited (first_unvisited g.no_vertices s.visited g.no_vertices 1) = 0 := by
  apply scan_found g.no_vertices s.visited (s.list.drop (g.no_vertices - s.no_processed))
  · rw [List.length_drop, hinv.list_len]; omega
  · intro j _ _ hj
    rw [hinv.done_mem]
    rcases hinv.vals j with h | h | h
    · exact absurd h hj
    · have := hinv.open_on_stack j h
      rw [hstk] at this
      simp at this
    · exact h

theorem topo_restart_inv {g : graph_adj_list} (s : topo_state) (hinv : topo_inv g s)
    (hstk : s.v_stack = []) (i : Nat) (hi : 1 ≤ i ∧ i ≤ g.no_vertices) :
    topo_inv g { s with v_stack := [i] } := by
  have hno : ∀ v, read_at s.visited v ≠ 1 := by
    intro v hv
    have := hinv.open_on_stack v hv
    rw [hstk] at this
    simp at this
  exact
    { len := hinv.len
      stack_range := by
        intro x hx
        simp at hx
        exact hx ▸ hi
      open_on_stack := fun v hv => absurd hv (hno v)
      vals := hinv.vals
      vis_range := hinv.vis_range
      list_len := hinv.list_len
      np_le := hinv.np_le
      head_eq := hinv.head_eq
      done_nodup := hinv.done_nodup
      done_mem := hinv.done_mem
      done_order := hinv.done_order
      open_nbrs := fun u hu => absurd hu (hno u)
      chain := fun w hw => absurd hw (hno w) }

theorem topo_iter_inv {g : graph_adj_list} (hwf : WellFormed g) (s t : topo_state)
    (hinv : topo_inv g s) (hlt : s.no_processed < g.no_vertices)
    (ht : topo_iter g s = some t) : topo_inv g t := by
  unfold topo_iter at ht
  split at ht
  · rename_i hstk
    obtain ⟨hr, -⟩ := topo_restart_spec s hinv hstk hlt
    exact topo_visit_inv hwf { s with v_stack := [_] } t _ []
      (topo_restart_inv s hinv hstk _ hr) rfl hlt ht
  · rename_i curr rest hstk
    exact topo_visit_inv hwf s t curr rest hinv hstk hlt ht

theorem topo_iter_cycle {g : graph_adj_list} (s : topo_state)
    (hinv : topo_inv g s) (hlt : s.no_processed < g.no_vertices)
    (ht : topo_iter g s = none) : HasCycle g := by
  unfold topo_iter at ht
  split at ht
  · rename_i hstk
    obtain ⟨hr, -⟩ := topo_restart_spec s hinv hstk hlt
    exact topo_visit_cycle { s with v_stack := [_] } _ []
      (topo_restart_inv s hinv hstk _ hr) rfl ht
  · rename_i curr rest hstk
    exact topo_visit_cycle s curr rest hinv hstk ht

theorem topo_visit_decreases {g : graph_adj_list} (s t : topo_state) (curr : Nat)
    (rest : List Nat) (hclt : curr < s.visited.length)
    (ht : topo_visit g s curr rest = some t) :
    (read_at s.visited curr = 0 ∧ t.visited.count 0 < s.visited.count 0) ∨
      (t.visited.count 0 = s.visited.count 0 ∧ t.v_stack = rest) := by
  by_cases h0 : read_at s.visited curr = 0
  · left
    obtain ⟨-, hteq⟩ := topo_visit_open g s t curr rest h0 ht
    subst hteq
    have := count_zero_set_of_zero s.visited curr 1 hclt h0 (by omega)
    refine ⟨h0, ?_⟩
    show (s.visited.set curr 1).count 0 < s.visited.count 0
    omega
  · right
    by_cases h1 : read_at s.visited curr = 1
    · rw [topo_visit_close g s curr rest h1] at ht
      simp only [Option.some.injEq] at ht
      subst ht
      exact ⟨count_zero_set_of_ne_zero s.visited curr 2 h0 (by omega), rfl⟩
    · rw [topo_visit_drop g s curr rest h0 h1] at ht
      simp only [Option.some.injEq] at ht
      subst ht
      exact ⟨rfl, rfl⟩

theorem topo_iter_decreases {g : graph_adj_list} (s t : topo_state)
    (hinv : topo_inv g s) (hlt : s.no_processed < g.no_vertices)
    (ht : topo_iter g s = some t) :
    t.visited.count 0 < s.visited.count 0 ∨
      (t.visited.count 0 = s.visited.count 0 ∧ t.v_stack.length < s.v_stack.length) := by
  unfold topo_iter at ht
  split at ht
  · rename_i hstk
    obtain ⟨hr, h0⟩ := topo_restart_spec s hinv hstk hlt
    rcases topo_visit_decreases s t _ [] (by rw [hinv.len]; omega) ht with h | h
    · exact Or.inl h.2
    · by_cases hz : read_at s.visited
          (first_unvisited g.no_vertices s.visited g.no_vertices 1) = 0
      · obtain ⟨-, hteq⟩ := topo_visit_open g s t _ [] hz ht
        subst hteq
        have := count_zero_set_of_zero s.visited _ 1 (by rw [hinv.len]; omega) hz
          (show (1 : Nat) ≠ 0 by omega)
        left
        show (s.visited.set _ 1).count 0 < s.visited.count 0
        omega
      · exact absurd h0 hz
  · rename_i curr rest hstk
    have hc := hinv.stack_range curr (by simp [hstk])
    rcases topo_visit_decreases s t curr rest (by rw [hinv.len]; omega) ht with h | h
    · exact Or.inl h.2
    · right
      refine ⟨h.1, ?_⟩
      rw [h.2, hstk]
      simp

theorem topo_loop_more_fuel (g : graph_adj_list) (fuel k : Nat) (s : topo_state)
    (r : Option (List Nat)) (h : topo_loop g fuel s = some r) :
    topo_loop g (fuel + k) s = some r := by
  induction fuel generalizing s with
  | zero => simp [topo_loop] at h
  | succ n ih =>
    rw [Nat.add_right_comm]
    simp only [topo_loop] at h ⊢
    split
    · rename_i hc
      rw [if_pos hc] at h
      split
      · rename_i hi
        rw [hi] at h
        exact h
      · rename_i t hi
        rw [hi] at h
        exact ih _ h
    · rename_i hc
      rw [if_neg hc] at h
      exact h

theorem topo_loop_terminates_aux {g : graph_adj_list} (hwf : WellFormed g) :
    ∀ n m (s : topo_state), s.visited.count 0 = n → s.v_stack.length = m → topo_inv g s →
      ∃ fuel r, topo_loop g fuel s = some r := by
  intro n
  induction n using Nat.strong_induction_on with
  | _ n ihn =>
    intro m
    induction m using Nat.strong_induction_on with
    | _ m ihm =>
      intro s hn hm hinv
      by_cases hlt : s.no_processed < g.no_vertices
      · cases hit : topo_iter g s with
        | none => exact ⟨1, none, by simp only [topo_loop, if_pos hlt, hit]⟩
        | some t =>
          have hinv2 := topo_iter_inv hwf s t hinv hlt hit
          have hex : ∃ fuel r, topo_loop g fuel t = some r := by
            rcases topo_iter_decreases s t hinv hlt hit with h | ⟨h1, h2⟩
            · exact ihn _ (by omega) _ t rfl rfl hinv2
            · exact ihm _ (by omega) t (by omega) rfl hinv2
          obtain ⟨fuel, r, hr⟩ := hex
          exact ⟨fuel + 1, r, by simp only [topo_loop, if_pos hlt, hit, hr]⟩
      · exact ⟨1, some s.list, by simp only [topo_loop, if_neg hlt]⟩

theorem topo_final_order {g : graph_adj_list} (s : topo_state) (hinv : topo_inv g s)
    (hdone : ¬ s.no_processed < g.no_vertices) :
    s.list.Perm (List.range' 1 g.no_vertices) ∧
      ∀ u v, Edge g u v → ∃ l1 l2, s.list = l1 ++ u :: l2 ∧ v ∈ l2 := by
  have hnp : g.no_vertices - s.no_processed = 0 := by
    have := hinv.np_le
    omega
  have hnd := hinv.done_nodup
  have hmem := hinv.done_mem
  have hord := hinv.done_order
  rw [hnp, List.drop_zero] at hnd hord
  simp only [hnp, List.drop_zero] at hmem
  have hperm : s.list.Perm (List.range' 1 g.no_vertices) :=
    perm_range_of_nodup _ _ hnd
      (fun v hv => hinv.vis_range v (by rw [(hmem v).1 hv]; omega))
      (by rw [hinv.list_len])
  refine ⟨hperm, fun u v huv => ?_⟩
  have hu : u ∈ s.list := by
    rw [hperm.mem_iff, List.mem_range'_1]
    have := huv.1
    have := huv.2.1
    omega
  obtain ⟨l1, l2, e⟩ := List.append_of_mem hu
  exact ⟨l1, l2, e, hord l1 u l2 e v huv.2.2⟩

theorem topo_loop_spec {g : graph_adj_list} (hwf : WellFormed g) (fuel : Nat)
    (s : topo_state) (r : Option (List Nat)) (h : topo_loop g fuel s = some r)
    (hinv : topo_inv g s) :
    (r = none → HasCycle g) ∧
      (∀ l, r = some l → l.Perm (List.range' 1 g.no_vertices) ∧
        ∀ u v, Edge g u v → ∃ l1 l2, l = l1 ++ u :: l2 ∧ v ∈ l2) := by
  induction fuel generalizing s with
  | zero => simp [topo_loop] at h
  | succ n ih =>
    simp only [topo_loop] at h
    by_cases hlt : s.no_processed < g.no_vertices
    · rw [if_pos hlt] at h
      cases hit : topo_iter g s with
      | none =>
        rw [hit] at h
        simp only [Option.some.injEq] at h
        subst h
        exact ⟨fun _ => topo_iter_cycle s hinv hlt hit, fun l hl => absurd hl (by simp)⟩
      | some t =>
        rw [hit] at h
        exact ih t h (topo_iter_inv hwf s t hinv hlt hit)
    · rw [if_neg hlt] at h
      simp only [Option.some.injEq] at h
      subst h
      refine ⟨fun hn => absurd hn (by simp), fun l hl => ?_⟩
      simp only [Option.some.injEq] at hl
      subst hl
      exact topo_final_order s hinv hlt

theorem topo_init_inv (g : graph_adj_list) (v : Nat) (h1 : 1 ≤ v) (h2 : v ≤ g.no_vertices) :
    topo_inv g (topo_init g v) where
  len := by simp [topo_init]
  stack_range := by simp [topo_init, h1, h2]
  open_on_stack := by
    intro w hw
    simp [topo_init, read_at_replicate_zero] at hw
  vals := by
    intro w
    simp [topo_init, read_at_replicate_zero]
  vis_range := by
    intro w hw
    simp [topo_init, read_at_replicate_zero] at hw
  list_len := by simp [topo_init]
  np_le := by simp [topo_init]
  head_eq := by
    intro _
    show size_pred g.no_vertices = g.no_vertices - 1 - 0
    rw [size_pred_pos g.no_vertices (by omega)]
    omega
  done_nodup := by simp [topo_init]
  done_mem := by
    intro w
    simp [topo_init, read_at_replicate_zero]
  done_order := by
    intro l1 u l2 h
    have hnil : (topo_init g v).list.drop (g.no_vertices - (topo_init g v).no_processed) = [] := by
      simp only [topo_init]
      rw [Nat.sub_zero]
      apply List.drop_eq_nil_of_le
      rw [List.length_replicate]
    rw [hnil] at h
    exact absurd h (by simp)
  open_nbrs := by
    intro u hu
    simp [topo_init, read_at_replicate_zero] at hu
  chain := by
    intro u hu
    simp [topo_init, read_at_replicate_zero] at hu

theorem topo_run {g : graph_adj_list} (hwf : WellFormed g) :
    ∃ fuel r, (∀ k, graph_topological_sort g 1 (fuel + k) = some r) ∧
      (r = none → HasCycle g) ∧
      (∀ l, r = some l → l.Perm (List.range' 1 g.no_vertices) ∧
        ∀ u v, Edge g u v → ∃ l1 l2, l = l1 ++ u :: l2 ∧ v ∈ l2) := by
  have hinv := topo_init_inv g 1 (le_refl 1) hwf.2.1
  obtain ⟨fuel, r, hr⟩ := topo_loop_terminates_aux hwf _ _ (topo_init g 1) rfl rfl hinv
  obtain ⟨s1, s2⟩ := topo_loop_spec hwf fuel _ r hr hinv
  exact ⟨fuel, r, fun k => topo_loop_more_fuel g fuel k _ r hr, s1, s2⟩

/-! ## Orders and cycles -/

theorem order_along_path (g : graph_adj_list) (l : List Nat) (hnd : l.Nodup)
    (hord : ∀ u v, Edge g u v → ∃ l1 l2, l = l1 ++ u :: l2 ∧ v ∈ l2) (u v : Nat)
    (h : Relation.TransGen (Edge g) u v) : ∃ l1 l2, l = l1 ++ u :: l2 ∧ v ∈ l2 := by
  induction h with
  | single h => exact hord _ _ h
  | @tail b c _ hbc ih =>
    obtain ⟨l1, l2, e, hb⟩ := ih
    obtain ⟨m1, m2, e2, hc⟩ := hord b c hbc
    obtain ⟨a, d, e3⟩ := List.append_of_mem hb
    have e4 : (l1 ++ u :: a) ++ b :: d = m1 ++ b :: m2 := by
      rw [← e2, e, e3]; simp
    have hn1 : b ∉ l1 ++ u :: a := by
      intro hm
      have hnd2 := hnd
      rw [e, e3] at hnd2
      have : l1 ++ u :: (a ++ b :: d) = (l1 ++ u :: a) ++ b :: d := by simp
      rw [this] at hnd2
      exact (List.nodup_append.1 hnd2).2.2 hm (by simp)
    have hn2 : b ∉ m1 := by
      intro hm
      have hnd2 := hnd
      rw [e2] at hnd2
      exact (List.nodup_append.1 hnd2).2.2 hm (by simp)
    obtain ⟨-, e5⟩ := first_occurrence_unique b _ _ _ _ hn1 hn2 e4
    refine ⟨l1, l2, e, ?_⟩
    rw [e3, e5]
    exact List.mem_append_right _ (List.mem_cons_of_mem _ hc)

theorem no_cycle_of_order (g : graph_adj_list) (l : List Nat) (hnd : l.Nodup)
    (hord : ∀ u v, Edge g u v → ∃ l1 l2, l = l1 ++ u :: l2 ∧ v ∈ l2) : Acyclic g := by
  intro v hv
  obtain ⟨l1, l2, e, hm⟩ := order_along_path g l hnd hord v v hv
  rw [e] at hnd
  exact (List.nodup_cons.1 (List.nodup_append.1 hnd).2.1).1 hm

theorem acyclic_of_increasing (g : graph_adj_list)
    (h : ∀ u, u < g.no_vertices + 1 → 1 ≤ u → ∀ v ∈ g.get u, u < v) : Acyclic g := by
  have hlt : ∀ u v, Relation.TransGen (Edge g) u v → u < v := by
    intro u v huv
    induction huv with
    | single e => exact h _ (by have := e.2.1; omega) e.1 _ e.2.2
    | tail _ e ih => exact lt_trans ih (h _ (by have := e.2.1; omega) e.1 _ e.2.2)
  intro v hv
  exact absurd (hlt v v hv) (lt_irrefl v)

/-! ## Bipartite check: invariant -/

theorem color_complement_one : color_complement 1 = 2 := rfl

theorem color_complement_two : color_complement 2 = 1 := rfl

theorem color_complement_spec (cc : Nat) (hcc : cc = 1 ∨ cc = 2) :
    (color_complement cc = 1 ∨ color_complement cc = 2) ∧ color_complement cc ≠ cc := by
  rcases hcc with h | h
  · subst h; rw [color_complement_one]; omega
  · subst h; rw [color_complement_two]; omega

theorem bipart_scan_spec (N : Nat) (done : List Nat) (cc : Nat) (hcc : cc = 1 ∨ cc = 2)
    (adj : List Nat) (hadj : ∀ e ∈ adj, 1 ≤ e ∧ e ≤ N) (vis q vis2 q2 : List Nat)
    (h : bipart_scan_inv N done vis q) (hr : bipart_scan cc adj vis q = some (vis2, q2)) :
    bipart_scan_inv N done vis2 q2 ∧ (∃ extra, q2 = q ++ extra) ∧
      (∀ v, read_at vis v ≠ 0 → read_at vis2 v = read_at vis v) ∧
      (∀ e ∈ adj, read_at vis2 e ≠ 0 ∧ read_at vis2 e ≠ cc) := by
  induction adj generalizing vis q with
  | nil =>
    simp only [bipart_scan, Option.some.injEq, Prod.mk.injEq] at hr
    obtain ⟨e1, e2⟩ := hr
    subst e1 e2
    exact ⟨h, ⟨[], by simp⟩, fun v _ => rfl, by simp⟩
  | cons a t ih =>
    have ha := hadj a (by simp)
    have ht : ∀ e ∈ t, 1 ≤ e ∧ e ≤ N := fun e he => hadj e (by simp [he])
    simp only [bipart_scan] at hr
    by_cases hac : read_at vis a = cc
    · rw [if_pos hac] at hr
      exact absurd hr (by simp)
    · rw [if_neg hac] at hr
      by_cases h0 : read_at vis a = 0
      · rw [if_pos h0] at hr
        obtain ⟨k1, k2⟩ := color_complement_spec cc hcc
        have halt : a < vis.length := by rw [h.len]; omega
        have hself : read_at (vis.set a (color_complement cc)) a = color_complement cc :=
          read_at_set_self _ _ _ halt
        have hoth : ∀ v, v ≠ a → read_at (vis.set a (color_complement cc)) v = read_at vis v :=
          fun v hv => read_at_set_other _ _ _ _ (Ne.symm hv)
        have hnq : a ∉ q ∧ a ∉ done := by
          have := (h.cover a).not.1 (by simp [h0])
          simpa [not_or] using this
        have h2 : bipart_scan_inv N done (vis.set a (color_complement cc)) (q ++ [a]) :=
          { len := by simp [h.len]
            vals := by
              intro v
              by_cases hva : v = a
              · subst hva; rw [hself]; omega
              · rw [hoth v hva]; exact h.vals v
            vis_range := by
              intro v hv
              by_cases hva : v = a
              · exact hva ▸ ha
              · rw [hoth v hva] at hv; exact h.vis_range v hv
            queue_nodup := List.Nodup.append h.queue_nodup (List.nodup_singleton _)
              (by simpa using hnq.1)
            queue_disj := by
              intro v hv
              rcases List.mem_append.1 hv with hv | hv
              · exact h.queue_disj v hv
              · simp at hv; rw [hv]; exact hnq.2
            cover := by
              intro v
              by_cases hva : v = a
              · subst hva
                rw [hself]
                constructor
                · intro _; left; simp
                · intro _; omega
              · rw [hoth v hva, h.cover v]
                simp [hva] }
        obtain ⟨i1, ⟨extra, i2⟩, i3, i4⟩ := ih ht _ _ h2 hr
        refine ⟨i1, ⟨a :: extra, by rw [i2]; simp⟩, ?_, ?_⟩
        · intro v hv
          have hva : v ≠ a := fun e => hv (e ▸ h0)
          rw [i3 v (by rw [hoth v hva]; exact hv), hoth v hva]
        · intro e he
          rcases List.mem_cons.1 he with he | he
          · subst he
            rw [i3 e (by rw [hself]; omega), hself]
            exact ⟨by omega, k2⟩
          · exact i4 e he
      · rw [if_neg h0] at hr
        obtain ⟨i1, i2, i3, i4⟩ := ih ht _ _ h hr
        refine ⟨i1, i2, i3, ?_⟩
        intro e he
        rcases List.mem_cons.1 he with he | he
        · subst he
          rw [i3 e h0]
          exact ⟨h0, hac⟩
        · exact i4 e he

theorem bipart_visit_inv {g : graph_adj_list} (hwf : WellFormed g) (done : List Nat)
    (s t : bipart_state) (vis : List Nat) (curr : Nat) (rest : List Nat)
    (hscan : bipart_scan_inv g.no_vertices done vis (curr :: rest))
    (hdn : done.Nodup) (hnp : s.no_processed = done.length)
    (hproper : ∀ u ∈ done, ∀ v ∈ g.get u, read_at vis v ≠ 0 ∧ read_at vis v ≠ read_at vis u)
    (ht : bipart_visit g s vis curr rest = some t) :
    bipart_inv g (done ++ [curr]) t ∧ ∀ v, read_at vis v ≠ 0 → read_at t.visited v = read_at vis v := by
  have hcne : read_at vis curr ≠ 0 := (hscan.cover curr).2 (Or.inl (by simp))
  have hc : 1 ≤ curr ∧ curr ≤ g.no_vertices := hscan.vis_range curr hcne
  have hcc : read_at vis curr = 1 ∨ read_at vis curr = 2 := by
    rcases hscan.vals curr with h | h | h
    · exact absurd h hcne
    · exact Or.inl h
    · exact Or.inr h
  have hcd : curr ∉ done := hscan.queue_disj curr (by simp)
  simp only [bipart_visit] at ht
  split at ht
  · exact absurd ht (by simp)
  · rename_i r hr
    obtain ⟨vis2, q2⟩ := r
    simp only [Option.some.injEq] at ht
    subst ht
    obtain ⟨i1, ⟨extra, i2⟩, i3, i4⟩ := bipart_scan_spec g.no_vertices done _ hcc (g.get curr)
      (fun e he => wf_adj_range hwf hc.1 hc.2 he) vis (curr :: rest) vis2 q2 hscan hr
    subst i2
    have hnd := i1.queue_nodup
    simp only [List.cons_append, List.nodup_cons] at hnd
    refine ⟨?_, i3⟩
    refine
      { scan :=
          { len := i1.len
            vals := i1.vals
            vis_range := i1.vis_range
            queue_nodup := hnd.2
            queue_disj := ?_
            cover := ?_ }
        done_nodup := List.Nodup.append hdn (List.nodup_singleton _) (by simpa using hcd)
        processed := by simp [hnp]
        proper := ?_ }
    · intro v hv
      simp only [List.cons_append, List.tail_cons] at hv
      simp only [List.mem_append, List.mem_singleton, not_or]
      refine ⟨i1.queue_disj v (by simp [hv]), ?_⟩
      intro hvc
      exact hnd.1 (hvc ▸ hv)
    · intro v
      show read_at vis2 v ≠ 0 ↔ v ∈ (curr :: rest ++ extra).tail ∨ v ∈ done ++ [curr]
      rw [i1.cover v]
      simp only [List.cons_append, List.tail_cons, List.mem_cons, List.mem_append,
        List.mem_singleton, List.not_mem_nil, or_false]
      constructor
      · rintro ((h | h | h) | h)
        · exact Or.inr (Or.inr h)
        · exact Or.inl (Or.inl h)
        · exact Or.inl (Or.inr h)
        · exact Or.inr (Or.inl h)
      · rintro ((h | h) | h | h)
        · exact Or.inl (Or.inr (Or.inl h))
        · exact Or.inl (Or.inr (Or.inr h))
        · exact Or.inr h
        · exact Or.inl (Or.inl h)
    · intro u hu v hv
      simp only [List.mem_append, List.mem_singleton] at hu
      rcases hu with hu | hu
      · obtain ⟨p1, p2⟩ := hproper u hu v hv
        have hune : read_at vis u ≠ 0 := (hscan.cover u).2 (Or.inr hu)
        show read_at vis2 v ≠ 0 ∧ read_at vis2 v ≠ read_at vis2 u
        rw [i3 v p1, i3 u hune]
        exact ⟨p1, p2⟩
      · subst hu
        show read_at vis2 v ≠ 0 ∧ read_at vis2 v ≠ read_at vis2 u
        rw [i3 u hcne]
        exact i4 v hv

theorem bipart_restart_spec {g : graph_adj_list} (done : List Nat) (s : bipart_state)
    (hinv : bipart_inv g done s) (hq : s.v_queue = [])
    (hlt : s.no_processed < g.no_vertices) :
    (1 ≤ first_unvisited g.no_vertices s.visited g.no_vertices 1 ∧
      first_unvisited g.no_vertices s.visited g.no_vertices 1 ≤ g.no_vertices) ∧
    read_at s.visited (first_unvisited g.no_vertices s.visited g.no_vertices 1) = 0 := by
  apply scan_found g.no_vertices s.visited done (by rw [← hinv.processed]; exact hlt)
  intro j _ _ hj
  rcases (hinv.scan.cover j).1 hj with h | h
  · rw [hq] at h; simp at h
  · exact h

theorem bipart_restart_inv {g : graph_adj_list} (done : List Nat) (s : bipart_state)
    (hinv : bipart_inv g done s) (hq : s.v_queue = []) (i : Nat)
    (hi : 1 ≤ i ∧ i ≤ g.no_vertices) (h0 : read_at s.visited i = 0) :
    bipart_scan_inv g.no_vertices done (s.visited.set i 1) [i] ∧
      (∀ u ∈ done, ∀ v ∈ g.get u, read_at (s.visited.set i 1) v ≠ 0 ∧
        read_at (s.visited.set i 1) v ≠ read_at (s.visited.set i 1) u) ∧
      (∀ v, read_at s.visited v ≠ 0 → read_at (s.visited.set i 1) v = read_at s.visited v) := by
  have hilt : i < s.visited.length := by rw [hinv.scan.len]; omega
  have hself : read_at (s.visited.set i 1) i = 1 := read_at_set_self _ _ _ hilt
  have hoth : ∀ v, v ≠ i → read_at (s.visited.set i 1) v = read_at s.visited v :=
    fun v hv => read_at_set_other _ _ _ _ (Ne.symm hv)
  have hkeep : ∀ v, read_at s.visited v ≠ 0 →
      read_at (s.visited.set i 1) v = read_at s.visited v :=
    fun v hv => hoth v (fun e => hv (e ▸ h0))
  have hid : i ∉ done := fun hm => (hinv.scan.cover i).2 (Or.inr hm) h0
  refine ⟨?_, ?_, hkeep⟩
  · exact
      { len := by simp [hinv.scan.len]
        vals := by
          intro v
          by_cases hv : v = i
          · subst hv; rw [hself]; omega
          · rw [hoth v hv]; exact hinv.scan.vals v
        vis_range := by
          intro v hv
          by_cases hvi : v = i
          · exact hvi ▸ hi
          · rw [hoth v hvi] at hv; exact hinv.scan.vis_range v hv
        queue_nodup := List.nodup_singleton _
        queue_disj := by
          intro v hv
          simp at hv
          rw [hv]; exact hid
        cover := by
          intro v
          by_cases hvi : v = i
          · subst hvi
            rw [hself]
            constructor
            · intro _; left; simp
            · intro _; omega
          · rw [hoth v hvi, hinv.scan.cover v, hq]
            simp [hvi] }
  · intro u hu v hv
    obtain ⟨p1, p2⟩ := hinv.proper u hu v hv
    have hune : read_at s.visited u ≠ 0 := (hinv.scan.cover u).2 (Or.inr hu)
    rw [hkeep v p1, hkeep u hune]
    exact ⟨p1, p2⟩

theorem bipart_iter_inv {g : graph_adj_list} (hwf : WellFormed g) (done : List Nat)
    (s t : bipart_state) (hinv : bipart_inv g done s) (hlt : s.no_processed < g.no_vertices)
    (ht : bipart_iter g s = some t) :
    ∃ curr, bipart_inv g (done ++ [curr]) t ∧
      ∀ v, read_at s.visited v ≠ 0 → read_at t.visited v = read_at s.visited v := by
  unfold bipart_iter at ht
  split at ht
  · rename_i hq
    obtain ⟨hr, h0⟩ := bipart_restart_spec done s hinv hq hlt
    generalize first_unvisited g.no_vertices s.visited g.no_vertices 1 = i at hr h0 ht
    obtain ⟨r1, r2, r3⟩ := bipart_restart_inv done s hinv hq i hr h0
    obtain ⟨j1, j2⟩ := bipart_visit_inv hwf done s t _ i [] r1 hinv.done_nodup
      hinv.processed r2 ht
    refine ⟨i, j1, fun v hv => ?_⟩
    rw [j2 v (by rw [r3 v hv]; exact hv), r3 v hv]
  · rename_i curr rest hq
    have hscan : bipart_scan_inv g.no_vertices done s.visited (curr :: rest) := by
      rw [← hq]; exact hinv.scan
    obtain ⟨j1, j2⟩ := bipart_visit_inv hwf done s t _ curr rest hscan hinv.done_nodup
      hinv.processed hinv.proper ht
    exact ⟨curr, j1, j2⟩

theorem bipart_iter_processed (g : graph_adj_list) (s t : bipart_state)
    (ht : bipart_iter g s = some t) : t.no_processed = s.no_processed + 1 := by
  unfold bipart_iter at ht
  split at ht <;>
  · simp only [bipart_visit] at ht
    split at ht
    · exact absurd ht (by simp)
    · simp only [Option.some.injEq] at ht
      rw [← ht]

theorem bipart_init_inv (g : graph_adj_list) (h1 : 1 ≤ g.no_vertices) :
    bipart_inv g [] (bipart_init g 1) := by
  have hlt : 1 < (List.replicate (g.no_vertices + 1) 0).length := by
    rw [List.length_replicate]; omega
  have hself : read_at ((List.replicate (g.no_vertices + 1) 0).set 1 1) 1 = 1 :=
    read_at_set_self _ _ _ hlt
  have hoth : ∀ v, v ≠ 1 → read_at ((List.replicate (g.no_vertices + 1) 0).set 1 1) v = 0 := by
    intro v hv
    rw [read_at_set_other _ _ _ _ (Ne.symm hv), read_at_replicate_zero]
  exact
    { scan :=
        { len := by simp [bipart_init]
          vals := by
            intro v
            have hvis : (bipart_init g 1).visited =
                (List.replicate (g.no_vertices + 1) 0).set 1 1 := rfl
            rw [hvis]
            by_cases hv : v = 1
            · subst hv; rw [hself]; omega
            · rw [hoth v hv]; omega
          vis_range := by
            intro v hv
            by_cases hv1 : v = 1
            · subst hv1; exact ⟨le_refl 1, h1⟩
            · exact absurd (hoth v hv1) hv
          queue_nodup := by simp [bipart_init]
          queue_disj := by simp [bipart_init]
          cover := by
            intro v
            show read_at ((List.replicate (g.no_vertices + 1) 0).set 1 1) v ≠ 0 ↔ v ∈ [1] ∨ v ∈ []
            by_cases hv : v = 1
            · subst hv; rw [hself]; simp
            · rw [hoth v hv]; simp [hv] }
      done_nodup := List.nodup_nil
      processed := rfl
      proper := by simp }

theorem bipart_loop_more_fuel (g : graph_adj_list) (fuel k : Nat) (s : bipart_state)
    (r : Option (List Nat)) (h : bipart_loop g fuel s = some r) :
    bipart_loop g (fuel + k) s = some r := by
  induction fuel generalizing s with
  | zero => simp [bipart_loop] at h
  | succ n ih =>
    rw [Nat.add_right_comm]
    simp only [bipart_loop] at h ⊢
    split
    · rename_i hc
      rw [if_pos hc] at h
      split
      · rename_i hi
        rw [hi] at h
        exact h
      · rename_i t hi
        rw [hi] at h
        exact ih _ h
    · rename_i hc
      rw [if_neg hc] at h
      exact h

theorem bipart_loop_terminates (g : graph_adj_list) :
    ∀ k (s : bipart_state), g.no_vertices - s.no_processed = k →
      ∃ fuel r, bipart_loop g fuel s = some r := by
  intro k
  induction k with
  | zero =>
    intro s hk
    exact ⟨1, some s.visited,
      by simp only [bipart_loop, if_neg (show ¬ s.no_processed < g.no_vertices by omega)]⟩
  | succ k ih =>
    intro s hk
    have hlt : s.no_processed < g.no_vertices := by omega
    cases hit : bipart_iter g s with
    | none => exact ⟨1, none, by simp only [bipart_loop, if_pos hlt, hit]⟩
    | some t =>
      obtain ⟨fuel, r, hr⟩ := ih t (by rw [bipart_iter_processed g s t hit]; omega)
      exact ⟨fuel + 1, r, by simp only [bipart_loop, if_pos hlt, hit, hr]⟩

theorem bipart_final_proper {g : graph_adj_list} (done : List Nat) (s : bipart_state)
    (hinv : bipart_inv g done s) (hdone : ¬ s.no_processed < g.no_vertices) :
    ∀ u, 1 ≤ u → u ≤ g.no_vertices →
      (read_at s.visited u = 1 ∨ read_at s.visited u = 2) ∧
      ∀ v ∈ g.get u, read_at s.visited v ≠ read_at s.visited u := by
  have hrange : ∀ v ∈ done, 1 ≤ v ∧ v ≤ g.no_vertices := fun v hv =>
    hinv.scan.vis_range v ((hinv.scan.cover v).2 (Or.inr hv))
  have hperm := perm_range_of_nodup done g.no_vertices hinv.done_nodup hrange
    (by rw [← hinv.processed]; omega)
  intro u hu1 hu2
  have hud : u ∈ done := by
    rw [hperm.mem_iff, List.mem_range'_1]; omega
  have hune : read_at s.visited u ≠ 0 := (hinv.scan.cover u).2 (Or.inr hud)
  refine ⟨?_, fun v hv => (hinv.proper u hud v hv).2⟩
  rcases hinv.scan.vals u with h | h | h
  · exact absurd h hune
  · exact Or.inl h
  · exact Or.inr h

theorem bipart_loop_spec {g : graph_adj_list} (hwf : WellFormed g) (fuel : Nat)
    (done : List Nat) (s : bipart_state) (col : List Nat)
    (h : bipart_loop g fuel s = some (some col)) (hinv : bipart_inv g done s) :
    ∀ u, 1 ≤ u → u ≤ g.no_vertices →
      (read_at col u = 1 ∨ read_at col u = 2) ∧
      ∀ v ∈ g.get u, read_at col v ≠ read_at col u := by
  induction fuel generalizing s done with
  | zero => simp [bipart_loop] at h
  | succ n ih =>
    simp only [bipart_loop] at h
    by_cases hlt : s.no_processed < g.no_vertices
    · rw [if_pos hlt] at h
      cases hit : bipart_iter g s with
      | none =>
        rw [hit] at h
        exact absurd h (by simp)
      | some t =>
        rw [hit] at h
        obtain ⟨curr, hinv2, -⟩ := bipart_iter_inv hwf done s t hinv hlt hit
        exact ih _ t h hinv2
    · rw [if_neg hlt] at h
      simp only [Option.some.injEq] at h
      subst h
      exact bipart_final_proper done s hinv hlt

/-! ## Bipartite check: walks of odd length -/

theorem alternating_walk (col : Nat → Nat) (a : Nat) (w : List Nat)
    (h : List.Chain (fun x y => col x ≠ col y ∧ (col x = 1 ∨ col x = 2) ∧
      (col y = 1 ∨ col y = 2)) a w) :
    (w.length % 2 = 0 → col ((a :: w).getLast (List.cons_ne_nil a w)) = col a) ∧
    (w.length % 2 = 1 → col ((a :: w).getLast (List.cons_ne_nil a w)) ≠ col a ∧
      (col ((a :: w).getLast (List.cons_ne_nil a w)) = 1 ∨
        col ((a :: w).getLast (List.cons_ne_nil a w)) = 2)) := by
  induction w generalizing a with
  | nil => simp
  | cons b t ih =>
    rw [List.chain_cons] at h
    obtain ⟨⟨hab, ha, hb⟩, ht⟩ := h
    obtain ⟨i1, i2⟩ := ih b ht
    have hlast : (a :: b :: t).getLast (List.cons_ne_nil a (b :: t)) =
        (b :: t).getLast (List.cons_ne_nil b t) := by
      rw [List.getLast_cons]
    rw [hlast]
    simp only [List.length_cons]
    constructor
    · intro hpar
      obtain ⟨j1, j2⟩ := i2 (by omega)
      omega
    · intro hpar
      have j := i1 (by omega)
      rw [j]
      exact ⟨fun e => hab e.symm, hb⟩

theorem no_proper_colouring_of_odd_cycle {g : graph_adj_list} (hwf : WellFormed g)
    (hodd : HasOddCycle g) (col : List Nat)
    (hcol : ∀ u, 1 ≤ u → u ≤ g.no_vertices →
      (read_at col u = 1 ∨ read_at col u = 2) ∧
      ∀ v ∈ g.get u, read_at col v ≠ read_at col u) : False := by
  obtain ⟨a, w, hchain, hlast, hpar⟩ := hodd
  have himp : ∀ x y, Adjacent g x y → (read_at col x ≠ read_at col y ∧
      (read_at col x = 1 ∨ read_at col x = 2) ∧ (read_at col y = 1 ∨ read_at col y = 2)) := by
    intro x y hxy
    rcases hxy with e | e
    · have hy := wf_adj_range hwf e.1 e.2.1 e.2.2
      exact ⟨fun h => (hcol x e.1 e.2.1).2 y e.2.2 h.symm, (hcol x e.1 e.2.1).1,
        (hcol y hy.1 hy.2).1⟩
    · have hx := wf_adj_range hwf e.1 e.2.1 e.2.2
      exact ⟨(hcol y e.1 e.2.1).2 x e.2.2, (hcol x hx.1 hx.2).1, (hcol y e.1 e.2.1).1⟩
  have hchain2 := List.Chain.imp himp hchain
  have := ((alternating_walk (read_at col) a w hchain2).2 hpar).1
  rw [hlast] at this
  exact this rfl

/-! ## Bipartite check: graphs with two classes -/

theorem bool_third (x y z : Bool) (h1 : x ≠ y) (h2 : ¬ x = z) : y = z := by
  cases x <;> cases y <;> cases z <;> simp_all

theorem adjacent_symm (g : graph_adj_list) : Symmetric (Adjacent g) :=
  fun _ _ h => Or.symm h

theorem edge_symm {g : graph_adj_list} (hwf : WellFormed g) (hund : Undirected g)
    (u v : Nat) (h : Edge g u v) : Edge g v u := by
  have hv := wf_adj_range hwf h.1 h.2.1 h.2.2
  exact ⟨hv.1, hv.2, hund u (by have := h.2.1; omega) h.1 v h.2.2⟩

theorem colouring_edge {g : graph_adj_list} (c : Nat → Bool) (hc : ProperColouring g c)
    (u v : Nat) (h : Edge g u v) : c u ≠ c v :=
  hc u (by have := h.2.1; omega) h.1 v h.2.2

theorem bipart_scan_comp {g : graph_adj_list} (c : Nat → Bool) (hc : ProperColouring g c)
    (curr cc : Nat) (hcc : cc = 1 ∨ cc = 2) (adj : List Nat)
    (hadj : ∀ e ∈ adj, Edge g curr e) (hrange : ∀ e ∈ adj, e < g.no_vertices + 1)
    (vis q : List Nat) (hlen : vis.length = g.no_vertices + 1)
    (hvals : ∀ v, read_at vis v = 0 ∨ read_at vis v = 1 ∨ read_at vis v = 2)
    (hcur : read_at vis curr = cc) (hK : bipart_comp_inv g c vis) :
    ∃ r, bipart_scan cc adj vis q = some r ∧ bipart_comp_inv g c r.1 := by
  induction adj generalizing vis q with
  | nil => exact ⟨(vis, q), rfl, hK⟩
  | cons a t ih =>
    have hea := hadj a (by simp)
    have ht : ∀ e ∈ t, Edge g curr e := fun e he => hadj e (by simp [he])
    have ht2 : ∀ e ∈ t, e < g.no_vertices + 1 := fun e he => hrange e (by simp [he])
    have hcne : read_at vis curr ≠ 0 := by omega
    have hconn : Relation.ReflTransGen (Adjacent g) curr a :=
      Relation.ReflTransGen.single (Or.inl hea)
    have hcol := colouring_edge c hc curr a hea
    simp only [bipart_scan]
    by_cases hac : read_at vis a = cc
    · exfalso
      have := (hK curr a hcne (by omega) hconn).1 (by rw [hcur, hac])
      exact hcol this
    · rw [if_neg hac]
      by_cases h0 : read_at vis a = 0
      · rw [if_pos h0]
        obtain ⟨k1, k2⟩ := color_complement_spec cc hcc
        have halt : a < vis.length := by rw [hlen]; exact hrange a (by simp)
        have hself : read_at (vis.set a (color_complement cc)) a = color_complement cc :=
          read_at_set_self _ _ _ halt
        have hoth : ∀ v, v ≠ a → read_at (vis.set a (color_complement cc)) v = read_at vis v :=
          fun v hv => read_at_set_other _ _ _ _ (Ne.symm hv)
        have hca : curr ≠ a := fun e => hcne (e ▸ h0)
        have hnew : ∀ v, v ≠ a → read_at vis v ≠ 0 →
            Relation.ReflTransGen (Adjacent g) a v →
            (color_complement cc = read_at vis v ↔ c a = c v) := by
          intro v hva hv hav
          have hcv := hK curr v hcne hv (Relation.ReflTransGen.trans hconn hav)
          rw [hcur] at hcv
          have hvv := hvals v
          constructor
          · intro e
            have hne : ¬ c curr = c v := fun h => by
              have := hcv.2 h
              omega
            exact bool_third (c curr) (c a) (c v) hcol hne
          · intro e
            have hne : ¬ cc = read_at vis v := fun h => by
              have := hcv.1 h
              rw [← e] at this
              exact hcol this
            omega
        apply ih ht ht2 _ _ (by simp [hlen]) _ (by rw [hoth curr hca]; exact hcur)
        · intro u v hu hv huv
          by_cases hua : u = a
          · by_cases hva : v = a
            · rw [hua, hva]; simp
            · rw [hua, hself, hoth v hva]
              rw [hoth v hva] at hv
              exact hnew v hva hv (hua ▸ huv)
          · by_cases hva : v = a
            · rw [hva, hself, hoth u hua]
              rw [hoth u hua] at hu
              have := hnew u hua hu
                ((Relation.ReflTransGen.symmetric (adjacent_symm g)) (hva ▸ huv))
              constructor
              · intro e; exact (this.1 e.symm).symm
              · intro e; exact (this.2 e.symm).symm
            · rw [hoth u hua, hoth v hva]
              rw [hoth u hua] at hu
              rw [hoth v hva] at hv
              exact hK u v hu hv huv
        · intro v
          by_cases hva : v = a
          · rw [hva, hself]; omega
          · rw [hoth v hva]; exact hvals v
      · rw [if_neg h0]
        exact ih ht ht2 vis q hlen hvals hcur hK

theorem bipart_closed_of_empty_queue {g : graph_adj_list} (hwf : WellFormed g)
    (hund : Undirected g) (done : List Nat) (s : bipart_state) (hinv : bipart_inv g done s)
    (hq : s.v_queue = []) (u x : Nat) (hu : read_at s.visited u ≠ 0)
    (h : Relation.ReflTransGen (Adjacent g) u x) : read_at s.visited x ≠ 0 := by
  induction h with
  | refl => exact hu
  | @tail b x _ hbx ih =>
    have hb : b ∈ done := by
      rcases (hinv.scan.cover b).1 ih with h | h
      · rw [hq] at h; simp at h
      · exact h
    have hedge : Edge g b x := by
      rcases hbx with e | e
      · exact e
      · exact edge_symm hwf hund x b e
    exact (hinv.proper b hb x hedge.2.2).1

theorem bipart_iter_comp {g : graph_adj_list} (hwf : WellFormed g) (hund : Undirected g)
    (c : Nat → Bool) (hc : ProperColouring g c) (done : List Nat) (s : bipart_state)
    (hinv : bipart_inv g done s) (hK : bipart_comp_inv g c s.visited)
    (hlt : s.no_processed < g.no_vertices) :
    ∃ t, bipart_iter g s = some t ∧ bipart_comp_inv g c t.visited := by
  have hvisit : ∀ (vis : List Nat) (curr : Nat) (rest : List Nat),
      bipart_scan_inv g.no_vertices done vis (curr :: rest) → bipart_comp_inv g c vis →
      ∃ t, bipart_visit g s vis curr rest = some t ∧ bipart_comp_inv g c t.visited := by
    intro vis curr rest hscan hKv
    have hcne : read_at vis curr ≠ 0 := (hscan.cover curr).2 (Or.inl (by simp))
    have hcr : 1 ≤ curr ∧ curr ≤ g.no_vertices := hscan.vis_range curr hcne
    have hcc : read_at vis curr = 1 ∨ read_at vis curr = 2 := by
      rcases hscan.vals curr with h | h | h
      · exact absurd h hcne
      · exact Or.inl h
      · exact Or.inr h
    obtain ⟨r, hr, hKr⟩ := bipart_scan_comp c hc curr _ hcc (g.get curr)
      (fun e he => ⟨hcr.1, hcr.2, he⟩)
      (fun e he => by have := wf_adj_range hwf hcr.1 hcr.2 he; omega)
      vis (curr :: rest) hscan.len hscan.vals rfl hKv
    refine ⟨{ visited := r.1, v_queue := r.2.tail, no_processed := s.no_processed + 1 },
      ?_, hKr⟩
    simp only [bipart_visit, hr]
  unfold bipart_iter
  split
  · rename_i hq
    obtain ⟨hr, h0⟩ := bipart_restart_spec done s hinv hq hlt
    generalize first_unvisited g.no_vertices s.visited g.no_vertices 1 = i at hr h0 ⊢
    obtain ⟨r1, -, r3⟩ := bipart_restart_inv done s hinv hq i hr h0
    apply hvisit _ i [] r1
    have hilt : i < s.visited.length := by rw [hinv.scan.len]; omega
    have hoth : ∀ v, v ≠ i → read_at (s.visited.set i 1) v = read_at s.visited v :=
      fun v hv => read_at_set_other _ _ _ _ (Ne.symm hv)
    intro u v hu hv huv
    by_cases hui : u = i
    · by_cases hvi : v = i
      · rw [hui, hvi]; simp
      · exfalso
        rw [hoth v hvi] at hv
        have hvu := (Relation.ReflTransGen.symmetric (adjacent_symm g)) huv
        rw [hui] at hvu
        exact bipart_closed_of_empty_queue hwf hund done s hinv hq v i hv hvu h0
    · by_cases hvi : v = i
      · exfalso
        rw [hoth u hui] at hu
        rw [hvi] at huv
        exact bipart_closed_of_empty_queue hwf hund done s hinv hq u i hu huv h0
      · rw [hoth u hui, hoth v hvi]
        rw [hoth u hui] at hu
        rw [hoth v hvi] at hv
        exact hK u v hu hv huv
  · rename_i curr rest hq
    exact hvisit s.visited curr rest (by rw [← hq]; exact hinv.scan) hK

theorem bipart_init_comp (g : graph_adj_list) (c : Nat → Bool) :
    bipart_comp_inv g c (bipart_init g 1).visited := by
  intro u v hu hv _
  have hvis : (bipart_init g 1).visited = (List.replicate (g.no_vertices + 1) 0).set 1 1 := rfl
  rw [hvis] at hu hv
  have h1 : ∀ x, read_at ((List.replicate (g.no_vertices + 1) 0).set 1 1) x ≠ 0 → x = 1 := by
    intro x hx
    by_contra hne
    rw [read_at_set_other _ _ _ _ (Ne.symm hne), read_at_replicate_zero] at hx
    exact hx rfl
  rw [h1 u hu, h1 v hv]
  simp

theorem bipart_loop_bipartite {g : graph_adj_list} (hwf : WellFormed g) (hund : Undirected g)
    (c : Nat → Bool) (hc : ProperColouring g c) :
    ∀ k (s : bipart_state) (done : List Nat), g.no_vertices - s.no_processed = k →
      bipart_inv g done s → bipart_comp_inv g c s.visited →
      ∃ fuel col, bipart_loop g fuel s = some (some col) := by
  intro k
  induction k with
  | zero =>
    intro s done hk _ _
    exact ⟨1, s.visited,
      by simp only [bipart_loop, if_neg (show ¬ s.no_processed < g.no_vertices by omega)]⟩
  | succ k ih =>
    intro s done hk hinv hK
    have hlt : s.no_processed < g.no_vertices := by omega
    obtain ⟨t, hit, hKt⟩ := bipart_iter_comp hwf hund c hc done s hinv hK hlt
    obtain ⟨curr, hinv2, -⟩ := bipart_iter_inv hwf done s t hinv hlt hit
    obtain ⟨fuel, col, hr⟩ := ih t _ (by rw [bipart_iter_processed g s t hit]; omega) hinv2 hKt
    exact ⟨fuel + 1, col, by simp only [bipart_loop, if_pos hlt, hit, hr]⟩

/-! ## Strongly connected components: the transposed graph -/

theorem getD_nil_or_mem (l : List (List Nat)) (v : Nat) :
    l.getD v [] = [] ∨ l.getD v [] ∈ l := by
  rw [List.getD_eq_getElem?_getD]
  cases h : l[v]? with
  | none => left; rfl
  | some a => right; exact List.getElem?_mem h

theorem transpose_push_range (N i : Nat) (hi : 1 ≤ i ∧ i ≤ N) (list : List (List Nat))
    (v : Nat) (hlen : list.length = N + 1)
    (h : ∀ l ∈ list, ∀ x ∈ l, 1 ≤ x ∧ x ≤ N) :
    (transpose_push i list v).length = N + 1 ∧
      ∀ l ∈ transpose_push i list v, ∀ x ∈ l, 1 ≤ x ∧ x ≤ N := by
  unfold transpose_push
  refine ⟨by rw [List.length_set, hlen], ?_⟩
  intro l hl x hx
  rcases List.mem_or_eq_of_mem_set hl with hl | hl
  · exact h l hl x hx
  · subst hl
    rcases List.mem_append.1 hx with hx | hx
    · rcases getD_nil_or_mem list v with e | e
      · rw [e] at hx; simp at hx
      · exact h _ e x hx
    · simp at hx; exact hx ▸ hi

theorem transpose_inner_range (N i : Nat) (hi : 1 ≤ i ∧ i ≤ N) (adj : List Nat)
    (list : List (List Nat)) (hlen : list.length = N + 1)
    (h : ∀ l ∈ list, ∀ x ∈ l, 1 ≤ x ∧ x ≤ N) :
    (adj.foldl (transpose_push i) list).length = N + 1 ∧
      ∀ l ∈ adj.foldl (transpose_push i) list, ∀ x ∈ l, 1 ≤ x ∧ x ≤ N := by
  induction adj generalizing list with
  | nil => exact ⟨hlen, h⟩
  | cons a t ih =>
    obtain ⟨h1, h2⟩ := transpose_push_range N i hi list a hlen h
    exact ih _ h1 h2

theorem transpose_outer_range (g : graph_adj_list) (N : Nat) (is : List Nat)
    (his : ∀ i ∈ is, 1 ≤ i ∧ i ≤ N) (list : List (List Nat)) (hlen : list.length = N + 1)
    (h : ∀ l ∈ list, ∀ x ∈ l, 1 ≤ x ∧ x ≤ N) :
    (is.foldl (fun list i => (g.get i).foldl (transpose_push i) list) list).length = N + 1 ∧
      ∀ l ∈ is.foldl (fun list i => (g.get i).foldl (transpose_push i) list) list,
        ∀ x ∈ l, 1 ≤ x ∧ x ≤ N := by
  induction is generalizing list with
  | nil => exact ⟨hlen, h⟩
  | cons a t ih =>
    obtain ⟨h1, h2⟩ := transpose_inner_range N a (his a (by simp)) (g.get a) list hlen h
    exact ih (fun i hi => his i (by simp [hi])) _ h1 h2

theorem transpose_list_range (g : graph_adj_list) :
    (transpose_list g).length = g.no_vertices + 1 ∧
      ∀ l ∈ transpose_list g, ∀ x ∈ l, 1 ≤ x ∧ x ≤ g.no_vertices := by
  unfold transpose_list
  apply transpose_outer_range g g.no_vertices
  · intro i hi
    rw [List.mem_range'_1] at hi
    omega
  · simp
  · intro l hl x hx
    rw [List.mem_replicate] at hl
    rw [hl.2] at hx
    simp at hx

theorem no_vertices_of_length (g : graph_adj_list) (n : Nat) (h : g.list_.length = n + 1) :
    g.no_vertices = n := by
  unfold graph_adj_list.no_vertices
  rw [h]
  rfl

theorem r_graph_list (g : graph_adj_list) : (r_graph g).list_ = transpose_list g := by
  simp only [r_graph]

theorem r_graph_get (g : graph_adj_list) (u : Nat) :
    (r_graph g).get u = (transpose_list g).getD u [] := by
  simp only [graph_adj_list.get, r_graph]

theorem r_graph_no_vertices (g : graph_adj_list) :
    (r_graph g).no_vertices = g.no_vertices := by
  apply no_vertices_of_length
  rw [r_graph_list]
  exact (transpose_list_range g).1

theorem r_graph_well_formed (g : graph_adj_list) (hwf : WellFormed g) :
    WellFormed (r_graph g) := by
  have hnv := r_graph_no_vertices g
  obtain ⟨hlen, hrange⟩ := transpose_list_range g
  unfold WellFormed
  rw [hnv, r_graph_list]
  refine ⟨hlen, hwf.2.1, ?_⟩
  intro u _ _ v hv
  rw [r_graph_get] at hv
  rcases getD_nil_or_mem (transpose_list g) u with e | e
  · rw [e] at hv
    simp at hv
  · exact hrange _ e v hv

/-! ## Strongly connected components: the loop -/

theorem scc_collect_spec (vis : List Nat) (pr comp : List Nat) :
    (scc_collect vis pr comp).2 ++ (scc_collect vis pr comp).1 = comp ++ pr ∧
    (∀ x ∈ (scc_collect vis pr comp).1, x ∈ pr) ∧
    (∀ p rest, (scc_collect vis pr comp).1 = p :: rest → read_at vis p = 0) := by
  induction pr generalizing comp with
  | nil => simp [scc_collect]
  | cons p ps ih =>
    simp only [scc_collect]
    by_cases h : read_at vis p ≠ 0
    · rw [if_pos h]
      obtain ⟨i1, i2, i3⟩ := ih (comp ++ [p])
      refine ⟨by rw [i1]; simp, fun x hx => List.mem_cons_of_mem _ (i2 x hx), i3⟩
    · rw [if_neg h]
      refine ⟨rfl, fun x hx => hx, ?_⟩
      intro q rest e
      simp only [List.cons.injEq] at e
      rw [← e.1]
      simpa using h

theorem scc_push_foldl (visited : List Nat) (adj stk : List Nat) :
    adj.foldl (scc_push visited) stk =
      (adj.filter (fun e => decide (read_at visited e = 0))).reverse ++ stk := by
  induction adj generalizing stk with
  | nil => simp
  | cons a t ih =>
    simp only [List.foldl_cons]
    by_cases h : read_at visited a = 0
    · simp [scc_push, h, ih, List.filter_cons]
    · simp [scc_push, h, ih, List.filter_cons]

theorem scc_visit_fields (g : graph_adj_list) (s : scc_state) (curr : Nat) (rest : List Nat) :
    (scc_visit g s curr rest).priority_stack = s.priority_stack ∧
      (scc_visit g s curr rest).components_list = s.components_list := by
  unfold scc_visit
  split <;> exact ⟨rfl, rfl⟩

theorem scc_visit_step {g : graph_adj_list} (hwf : WellFormed g) (s : scc_state)
    (curr : Nat) (rest : List Nat) (hlen : s.visited.length = g.no_vertices + 1)
    (hc : 1 ≤ curr ∧ curr ≤ g.no_vertices) (hrest : ∀ x ∈ rest, 1 ≤ x ∧ x ≤ g.no_vertices) :
    (scc_visit g s curr rest).visited.length = g.no_vertices + 1 ∧
    (∀ x ∈ (scc_visit g s curr rest).v_stack, 1 ≤ x ∧ x ≤ g.no_vertices) ∧
    (read_at s.visited curr = 0 →
        (scc_visit g s curr rest).visited.count 0 < s.visited.count 0) ∧
    (read_at s.visited curr ≠ 0 →
      (scc_visit g s curr rest).visited.count 0 = s.visited.count 0 ∧
        (scc_visit g s curr rest).v_stack = rest) := by
  have hclt : curr < s.visited.length := by rw [hlen]; omega
  unfold scc_visit
  by_cases h0 : read_at s.visited curr = 0
  · rw [if_pos h0, scc_push_foldl]
    refine ⟨by simp [hlen], ?_, fun _ => ?_, fun h => absurd h0 h⟩
    · intro x hx
      simp only [List.mem_append, List.mem_reverse, List.mem_filter, List.mem_cons] at hx
      rcases hx with ⟨hx, _⟩ | hx | hx
      · exact wf_adj_range hwf hc.1 hc.2 hx
      · exact hx ▸ hc
      · exact hrest x hx
    · have := count_zero_set_of_zero s.visited curr 1 hclt h0 (by omega)
      show (s.visited.set curr 1).count 0 < s.visited.count 0
      omega
  · rw [if_neg h0]
    exact ⟨by simp [hlen], hrest, fun h => absurd h h0,
      fun _ => ⟨count_zero_set_of_ne_zero s.visited curr 2 h0 (by omega), rfl⟩⟩

theorem scc_loop_more_fuel (g : graph_adj_list) (fuel k : Nat) (s : scc_state)
    (r : scc_outcome) (h : scc_loop g fuel s = some r) :
    scc_loop g (fuel + k) s = some r := by
  induction fuel generalizing s with
  | zero => simp [scc_loop] at h
  | succ n ih =>
    rw [Nat.add_right_comm]
    simp only [scc_loop] at h ⊢
    split
    · rename_i hc
      rw [if_pos hc] at h
      cases hit : scc_iter g s with
      | empty_back cl =>
        rw [hit] at h
        exact h
      | next t =>
        rw [hit] at h
        exact ih _ h
    · rename_i hc
      rw [if_neg hc] at h
      exact h

theorem scc_loop_terminates_aux {g : graph_adj_list} (hwf : WellFormed g)
    (start : List Nat) :
    ∀ n m (s : scc_state), s.visited.count 0 = n → s.v_stack.length = m → scc_inv g start s →
      s.priority_stack ≠ [] →
      ∃ fuel comps, scc_loop g fuel s = some (scc_outcome.empty_back comps) ∧
        comps.flatten = start := by
  intro n
  induction n using Nat.strong_induction_on with
  | _ n ihn =>
    intro m
    induction m using Nat.strong_induction_on with
    | _ m ihm =>
      intro s hn hm hinv hp
      cases hstk : s.v_stack with
      | nil =>
        obtain ⟨c1, c2, c3⟩ := scc_collect_spec s.visited s.priority_stack []
        cases hr1 : (scc_collect s.visited s.priority_stack []).1 with
        | nil =>
          have hiter : scc_iter g s = scc_pass.empty_back
              (s.components_list ++ [(scc_collect s.visited s.priority_stack []).2]) := by
            simp only [scc_iter, hstk, hr1, back_of]
          refine ⟨1, s.components_list ++ [(scc_collect s.visited s.priority_stack []).2],
            by simp only [scc_loop, if_pos hp, hiter], ?_⟩
          rw [List.flatten_append]
          simp only [List.flatten_cons, List.flatten_nil, List.append_nil]
          rw [hr1, List.append_nil, List.nil_append] at c1
          rw [c1]
          exact hinv.parts
        | cons p rest2 =>
          have hiter : scc_iter g s = scc_pass.next (scc_visit g { s with
                components_list :=
                  s.components_list ++ [(scc_collect s.visited s.priority_stack []).2]
                priority_stack := (scc_collect s.visited s.priority_stack []).1 } p []) := by
            simp only [scc_iter, hstk, hr1, back_of]
          obtain ⟨f1, f2⟩ := scc_visit_fields g { s with
                components_list :=
                  s.components_list ++ [(scc_collect s.visited s.priority_stack []).2]
                priority_stack := (scc_collect s.visited s.priority_stack []).1 } p []
          have hp0 : read_at s.visited p = 0 := c3 p rest2 hr1
          have hpr : 1 ≤ p ∧ p ≤ g.no_vertices :=
            hinv.priority_range p (c2 p (by rw [hr1]; simp))
          obtain ⟨v1, v2, v3, -⟩ := scc_visit_step hwf { s with
                components_list :=
                  s.components_list ++ [(scc_collect s.visited s.priority_stack []).2]
                priority_stack := (scc_collect s.visited s.priority_stack []).1 }
              p [] hinv.len hpr (by simp)
          have hinv2 : scc_inv g start (scc_visit g { s with
                components_list :=
                  s.components_list ++ [(scc_collect s.visited s.priority_stack []).2]
                priority_stack := (scc_collect s.visited s.priority_stack []).1 } p []) :=
            { len := v1
              stack_range := v2
              priority_range := by
                rw [f1]
                intro x hx
                exact hinv.priority_range x (c2 x hx)
              parts := by
                rw [f1, f2]
                show (s.components_list ++
                  [(scc_collect s.visited s.priority_stack []).2]).flatten ++
                  (scc_collect s.visited s.priority_stack []).1 = start
                rw [List.flatten_append, List.append_assoc]
                simp only [List.flatten_cons, List.flatten_nil, List.append_nil]
                rw [c1, List.nil_append]
                exact hinv.parts }
          have hne2 : (scc_visit g { s with
                components_list :=
                  s.components_list ++ [(scc_collect s.visited s.priority_stack []).2]
                priority_stack := (scc_collect s.visited s.priority_stack []).1 }
              p []).priority_stack ≠ [] := by
            rw [f1]
            show (scc_collect s.visited s.priority_stack []).1 ≠ []
            rw [hr1]
            exact List.cons_ne_nil _ _
          have hdec : (scc_visit g { s with
                components_list :=
                  s.components_list ++ [(scc_collect s.visited s.priority_stack []).2]
                priority_stack := (scc_collect s.visited s.priority_stack []).1 }
              p []).visited.count 0 < s.visited.count 0 := v3 hp0
          obtain ⟨fuel, comps, hr, hc⟩ := ihn _ (by omega) _ _ rfl rfl hinv2 hne2
          exact ⟨fuel + 1, comps, by simp only [scc_loop, if_pos hp, hiter]; exact hr, hc⟩
      | cons curr rest =>
        have hiter : scc_iter g s = scc_pass.next (scc_visit g s curr rest) := by
          simp only [scc_iter, hstk]
        have hc := hinv.stack_range curr (by rw [hstk]; simp)
        obtain ⟨v1, v2, v3, v4⟩ := scc_visit_step hwf s curr rest hinv.len hc
          (fun x hx => hinv.stack_range x (by rw [hstk]; simp [hx]))
        obtain ⟨f1, f2⟩ := scc_visit_fields g s curr rest
        have hinv2 : scc_inv g start (scc_visit g s curr rest) :=
          { len := v1
            stack_range := v2
            priority_range := by rw [f1]; exact hinv.priority_range
            parts := by rw [f1, f2]; exact hinv.parts }
        have hne2 : (scc_visit g s curr rest).priority_stack ≠ [] := by
          rw [f1]; exact hp
        have hex : ∃ fuel comps,
            scc_loop g fuel (scc_visit g s curr rest) = some (scc_outcome.empty_back comps) ∧
              comps.flatten = start := by
          by_cases h0 : read_at s.visited curr = 0
          · exact ihn _ (by have := v3 h0; omega) _ _ rfl rfl hinv2 hne2
          · obtain ⟨e1, e2⟩ := v4 h0
            exact ihm _ (by rw [e2, ← hm, hstk]; simp) _ (by omega) rfl hinv2 hne2
        obtain ⟨fuel, comps, hr, hc⟩ := hex
        exact ⟨fuel + 1, comps, by simp only [scc_loop, if_pos hp, hiter]; exact hr, hc⟩

theorem scc_init_inv {g : graph_adj_list} (post : List Nat) (b : Nat)
    (hpost : post.Perm (List.range' 1 g.no_vertices))
    (hb : back_of post.reverse = some b) :
    scc_inv g post.reverse (scc_init g post b) ∧ (scc_init g post b).priority_stack ≠ [] := by
  have hrange : ∀ x ∈ post.reverse, 1 ≤ x ∧ x ≤ g.no_vertices := by
    intro x hx
    rw [List.mem_reverse, hpost.mem_iff, List.mem_range'_1] at hx
    omega
  have hne : post.reverse ≠ [] := by
    intro h
    rw [h] at hb
    simp [back_of] at hb
  have hbm : b ∈ post.reverse := by
    cases hrev : post.reverse with
    | nil => exact absurd hrev hne
    | cons p rest =>
      rw [hrev] at hb
      simp only [back_of, Option.some.injEq] at hb
      rw [← hb]
      simp
  refine ⟨
    { len := by simp [scc_init]
      stack_range := ?_
      priority_range := hrange
      parts := by simp [scc_init] }, hne⟩
  intro x hx
  have hx2 : x = b := by simpa [scc_init] using hx
  rw [hx2]
  exact hrange b hbm

theorem graph_dfs_more_fuel (g : graph_adj_list) (v fuel k : Nat) (r : dfs_result)
    (h : graph_dfs g v fuel = some r) : graph_dfs g v (fuel + k) = some r := by
  unfold graph_dfs at h ⊢
  split
  · rename_i hc
    rw [if_pos hc] at h
    exact h
  · rename_i hc
    rw [if_neg hc, Option.map_eq_some'] at h
    obtain ⟨st, h1, h2⟩ := h
    rw [dfs_loop_more_fuel g fuel k _ st h1]
    simp [h2]

theorem scc_run {g : graph_adj_list} (hwf : WellFormed g) :
    ∃ fuel comps,
      (∀ k, graph_strongly_connected g 1 (fuel + k) = some (scc_outcome.empty_back comps)) ∧
      comps.flatten.Perm (List.range' 1 g.no_vertices) := by
  have hwr := r_graph_well_formed g hwf
  have hnv := r_graph_no_vertices g
  obtain ⟨f1, st, hrun, hinv, hdone⟩ := dfs_run hwr 1 (le_refl 1) hwr.2.1
  have hperm := (dfs_final_perm st hinv hdone).2
  rw [hnv] at hperm
  have hex : ∃ b, back_of st.post.reverse = some b := by
    cases hrev : st.post.reverse with
    | nil =>
      have hl := hperm.length_eq
      rw [List.length_range', ← List.length_reverse, hrev] at hl
      have := hwf.2.1
      simp at hl
      omega
    | cons p rest => exact ⟨p, rfl⟩
  obtain ⟨b, hb⟩ := hex
  obtain ⟨hi, hne⟩ := scc_init_inv (g := g) st.post b hperm hb
  obtain ⟨f2, comps, hloop, hflat⟩ := scc_loop_terminates_aux hwf st.post.reverse _ _
    (scc_init g st.post b) rfl rfl hi hne
  refine ⟨f1 + f2, comps, fun k => ?_, ?_⟩
  · have hg : ¬ ((1 : Nat) < 1 ∨ 1 > (r_graph g).no_vertices) := by
      have := hwr.2.1
      omega
    have hd : graph_dfs (r_graph g) 1 (f1 + f2 + k) =
        some { ret := 0, prev := st.prev, post := st.post, build := st.build } := by
      have e : f1 + f2 + k = f1 + (f2 + k) := by omega
      simp only [graph_dfs, if_neg hg, e, hrun, Option.map_some']
    have hl : scc_loop g (f1 + f2 + k) (scc_init g st.post b) =
        some (scc_outcome.empty_back comps) := by
      have e : f1 + f2 + k = f2 + (f1 + k) := by omega
      rw [e]
      exact scc_loop_more_fuel g f2 _ _ _ hloop
    simp only [graph_strongly_connected, hd, hb, hl]
  · rw [hflat]
    exact (List.reverse_perm _).trans hperm

theorem scc_more_fuel (g : graph_adj_list) (start_v fuel k : Nat) (r : scc_outcome)
    (h : graph_strongly_connected g start_v fuel = some r) :
    graph_strongly_connected g start_v (fuel + k) = some r := by
  unfold graph_strongly_connected at h ⊢
  cases hd : graph_dfs (r_graph g) start_v fuel with
  | none => rw [hd] at h; exact absurd h (by simp)
  | some d =>
    rw [hd] at h
    rw [graph_dfs_more_fuel _ _ fuel k d hd]
    dsimp only at h ⊢
    cases hb : back_of d.post.reverse with
    | none =>
      rw [hb] at h
      exact h
    | some b =>
      rw [hb] at h
      exact scc_loop_more_fuel g fuel k _ r h

theorem scc_never_returns {g : graph_adj_list} (hwf : WellFormed g) (fuel : Nat)
    (cl : List (List Nat)) :
    graph_strongly_connected g 1 fuel ≠ some (scc_outcome.returned cl) := by
  intro h
  obtain ⟨f0, comps, hrun, -⟩ := scc_run hwf
  have h1 := scc_more_fuel g 1 fuel f0 _ h
  have h2 := hrun fuel
  rw [Nat.add_comm] at h2
  rw [h1] at h2
  simp at h2

/-! ## Claims on the traversals -/

/-- C1: on a well-formed graph, connected or not, and a start vertex in `[1, N]`,
`graph_dfs` returns `0` (for every amount of fuel beyond some bound), and both the
sequence of pre-visit calls and the sequence of post-visit calls are permutations of
`1..N`: each hook fires exactly once for each vertex. -/
theorem graph_dfs_visits_each_vertex_once (g : graph_adj_list) (s : Nat)
    (hwf : WellFormed g) (hs1 : 1 ≤ s) (hs2 : s ≤ g.no_vertices) :
    ∃ fuel r, (∀ k, graph_dfs g s (fuel + k) = some r) ∧ r.ret = 0 ∧
      r.prev.Perm (List.range' 1 g.no_vertices) ∧
      r.post.Perm (List.range' 1 g.no_vertices) := by
  obtain ⟨fuel, st, hrun, hinv, hdone⟩ := dfs_run hwf s hs1 hs2
  obtain ⟨hp1, hp2⟩ := dfs_final_perm st hinv hdone
  refine ⟨fuel, { ret := 0, prev := st.prev, post := st.post, build := st.build },
    fun k => ?_, rfl, hp1, hp2⟩
  have hg : ¬ (s < 1 ∨ s > g.no_vertices) := by omega
  simp only [graph_dfs, if_neg hg, hrun k, Option.map_some']

/-- Witness for C1 on a graph in two pieces, started at vertex `2`. -/
theorem graph_dfs_visits_each_vertex_once_witness :
    ∃ fuel r, (∀ k, graph_dfs sample_two_pieces 2 (fuel + k) = some r) ∧ r.ret = 0 ∧
      r.prev.Perm (List.range' 1 sample_two_pieces.no_vertices) ∧
      r.post.Perm (List.range' 1 sample_two_pieces.no_vertices) :=
  graph_dfs_visits_each_vertex_once sample_two_pieces 2 (by decide) (by decide) (by decide)

/-- C2: on a well-formed graph, connected or not, and a start vertex in `[1, N]`,
`graph_bfs` returns `0` (for every amount of fuel beyond some bound), and the sequence
of post-visit calls is a permutation of `1..N`, vertices unreachable from the start
included. -/
theorem graph_bfs_finishes_each_vertex_once (g : graph_adj_list) (s : Nat)
    (hwf : WellFormed g) (hs1 : 1 ≤ s) (hs2 : s ≤ g.no_vertices) :
    ∃ fuel r, (∀ k, graph_bfs g s (fuel + k) = some r) ∧ r.ret = 0 ∧
      r.post.Perm (List.range' 1 g.no_vertices) := by
  obtain ⟨fuel, st, hrun, hinv, hdone⟩ := bfs_run hwf s hs1 hs2
  refine ⟨fuel, { ret := 0, proc := st.proc, post := st.post }, fun k => ?_, rfl, ?_⟩
  · have hg : ¬ (s < 1 ∨ s > g.no_vertices) := by omega
    simp only [graph_bfs, if_neg hg, hrun k, Option.map_some']
  · exact perm_range_of_nodup _ _ hinv.post_nodup hinv.post_range
      (by rw [← hinv.processed]; omega)

/-- Witness for C2 on a graph in two pieces, started at vertex `2`. -/
theorem graph_bfs_finishes_each_vertex_once_witness :
    ∃ fuel r, (∀ k, graph_bfs sample_two_pieces 2 (fuel + k) = some r) ∧ r.ret = 0 ∧
      r.post.Perm (List.range' 1 sample_two_pieces.no_vertices) :=
  graph_bfs_finishes_each_vertex_once sample_two_pieces 2 (by decide) (by decide) (by decide)

/-- C9: for every graph and start vertex `s`, a result of `graph_dfs` or of `graph_bfs`
carries the code `1` exactly when `s < 1` or `s > N`; in that case the call returns `1`
at once (whatever the fuel) with no call made to any hook; and when the graph is well
formed and `s` is in `[1, N]` both functions return `0`. -/
theorem invalid_start_vertex_code (g : graph_adj_list) (s : Nat) :
    (∀ fuel r, graph_dfs g s fuel = some r → (r.ret = 1 ↔ (s < 1 ∨ s > g.no_vertices))) ∧
    (∀ fuel r, graph_bfs g s fuel = some r → (r.ret = 1 ↔ (s < 1 ∨ s > g.no_vertices))) ∧
    ((s < 1 ∨ s > g.no_vertices) → ∀ fuel,
      graph_dfs g s fuel = some { ret := 1, prev := [], post := [], build := [] } ∧
      graph_bfs g s fuel = some { ret := 1, proc := [], post := [] }) ∧
    (WellFormed g → 1 ≤ s → s ≤ g.no_vertices →
      ∃ fuel rd rb, (∀ k, graph_dfs g s (fuel + k) = some rd) ∧ rd.ret = 0 ∧
        (∀ k, graph_bfs g s (fuel + k) = some rb) ∧ rb.ret = 0) := by
  refine ⟨?_, ?_, ?_, ?_⟩
  · intro fuel r hr
    by_cases hg : s < 1 ∨ s > g.no_vertices
    · simp only [graph_dfs, if_pos hg, Option.some.injEq] at hr
      subst hr
      simp only [true_iff]
      exact hg
    · simp only [graph_dfs, if_neg hg, Option.map_eq_some'] at hr
      obtain ⟨st, -, hst⟩ := hr
      subst hst
      simp only [Nat.zero_ne_one, false_iff]
      exact hg
  · intro fuel r hr
    by_cases hg : s < 1 ∨ s > g.no_vertices
    · simp only [graph_bfs, if_pos hg, Option.some.injEq] at hr
      subst hr
      simp only [true_iff]
      exact hg
    · simp only [graph_bfs, if_neg hg, Option.map_eq_some'] at hr
      obtain ⟨st, -, hst⟩ := hr
      subst hst
      simp only [Nat.zero_ne_one, false_iff]
      exact hg
  · intro hg fuel
    simp only [graph_dfs, graph_bfs, if_pos hg, and_self]
  · intro hwf hs1 hs2
    have hg : ¬ (s < 1 ∨ s > g.no_vertices) := by omega
    obtain ⟨f1, st1, hrun1, -, -⟩ := dfs_run hwf s hs1 hs2
    obtain ⟨f2, st2, hrun2, -, -⟩ := bfs_run hwf s hs1 hs2
    refine ⟨f1 + f2, { ret := 0, prev := st1.prev, post := st1.post, build := st1.build },
      { ret := 0, proc := st2.proc, post := st2.post }, fun k => ?_, rfl, fun k => ?_, rfl⟩
    · simp only [graph_dfs, if_neg hg, Nat.add_assoc, hrun1, Option.map_some']
    · have : f1 + f2 + k = f2 + (f1 + k) := by omega
      simp only [graph_bfs, if_neg hg, this, hrun2, Option.map_some']

/-- Witness for C9: start vertex `5` on a graph of four vertices, and start vertex `2`
on the same graph. -/
theorem invalid_start_vertex_code_witness :
    (∀ fuel,
      graph_dfs sample_two_pieces 5 fuel =
        some { ret := 1, prev := [], post := [], build := [] } ∧
      graph_bfs sample_two_pieces 5 fuel = some { ret := 1, proc := [], post := [] }) ∧
    (∃ fuel rd rb, (∀ k, graph_dfs sample_two_pieces 2 (fuel + k) = some rd) ∧ rd.ret = 0 ∧
        (∀ k, graph_bfs sample_two_pieces 2 (fuel + k) = some rb) ∧ rb.ret = 0) :=
  ⟨(invalid_start_vertex_code sample_two_pieces 5).2.2.1 (by decide),
    (invalid_start_vertex_code sample_two_pieces 2).2.2.2 (by decide) (by decide) (by decide)⟩

/-- C10, as stated, fails: on the well-formed graph `1 → 2`, `1 → 3`, `3 → 2` (and an
isolated vertex `4`) started at `1`, `graph_dfs` calls the tree-edge hook twice with
vertex `2` as child, first with parent `1` and then with parent `3`. -/
theorem tree_edge_hook_repeats_child :
    WellFormed sample_two_pieces ∧
    graph_dfs sample_two_pieces 1 12 =
      some { ret := 0, prev := [1, 3, 2, 4], post := [2, 3, 1, 4],
             build := [(2, 1), (3, 1), (2, 3)] } ∧
    (List.map Prod.fst [(2, 1), (3, 1), (2, 3)]).count 2 = 2 := by
  refine ⟨by decide, by decide, by decide⟩

/-- C10, amended: on a well-formed graph and a start vertex `s` in `[1, N]`, `graph_dfs`
terminates in a state `st` whose calls of the tree-edge hook all have the form
`(child, parent)` with `child` in the adjacency list of `parent`, `child` different from
the start vertex and `child` not a restart root; and every vertex `1..N` that is neither
the start vertex nor a restart root is the child of at least one call (it may be the
child of several). -/
theorem graph_dfs_tree_edge_calls (g : graph_adj_list) (s : Nat)
    (hwf : WellFormed g) (hs1 : 1 ≤ s) (hs2 : s ≤ g.no_vertices) :
    ∃ fuel st, (∀ k, dfs_loop g (fuel + k) (dfs_init g s) = some st) ∧
      (∀ k, graph_dfs g s (fuel + k) =
        some { ret := 0, prev := st.prev, post := st.post, build := st.build }) ∧
      (∀ c p, (c, p) ∈ st.build → c ∈ g.get p ∧ c ≠ s ∧ c ∉ st.restarts) ∧
      (∀ v, 1 ≤ v → v ≤ g.no_vertices → v ≠ s → v ∉ st.restarts →
        ∃ p, (v, p) ∈ st.build) := by
  obtain ⟨fuel, st, hrun, hinv, ht, hdone⟩ := dfs_run_tree hwf s hs1 hs2
  refine ⟨fuel, st, hrun, fun k => ?_, ht.edge, fun v hv1 hv2 hvs hvr => ?_⟩
  · have hg : ¬ (s < 1 ∨ s > g.no_vertices) := by omega
    simp only [graph_dfs, if_neg hg, hrun k, Option.map_some']
  · have h2 := dfs_final_visited st hinv hdone v hv1 hv2
    rcases ht.origin v (Or.inr (by omega)) with h | h | h
    · exact absurd h hvs
    · exact absurd h hvr
    · exact h

/-- Witness for the amended C10 on a graph in two pieces, started at vertex `1`. -/
theorem graph_dfs_tree_edge_calls_witness :
    ∃ fuel st, (∀ k, dfs_loop sample_two_pieces (fuel + k) (dfs_init sample_two_pieces 1) =
        some st) ∧
      (∀ k, graph_dfs sample_two_pieces 1 (fuel + k) =
        some { ret := 0, prev := st.prev, post := st.post, build := st.build }) ∧
      (∀ c p, (c, p) ∈ st.build →
        c ∈ sample_two_pieces.get p ∧ c ≠ 1 ∧ c ∉ st.restarts) ∧
      (∀ v, 1 ≤ v → v ≤ sample_two_pieces.no_vertices → v ≠ 1 → v ∉ st.restarts →
        ∃ p, (v, p) ∈ st.build) :=
  graph_dfs_tree_edge_calls sample_two_pieces 1 (by decide) (by decide) (by decide)

/-! ## Claims on the topological sort -/

/-- C3: on a well-formed graph without a directed cycle, `graph_topological_sort` with
start vertex `1` returns a list (for every amount of fuel beyond some bound), the list is
a permutation of `1..N`, and for every edge `(u, v)` the list splits as
`l1 ++ u :: l2` with `v` in `l2`: `u` stands strictly before `v`. -/
theorem topological_sort_orders_acyclic_graph (g : graph_adj_list) (hwf : WellFormed g)
    (hac : Acyclic g) :
    ∃ fuel l, (∀ k, graph_topological_sort g 1 (fuel + k) = some (some l)) ∧
      l.Perm (List.range' 1 g.no_vertices) ∧
      ∀ u v, Edge g u v → ∃ l1 l2, l = l1 ++ u :: l2 ∧ v ∈ l2 := by
  obtain ⟨fuel, r, hrun, hnone, hsome⟩ := topo_run hwf
  cases r with
  | none =>
    obtain ⟨v, hv⟩ := hnone rfl
    exact absurd hv (hac v)
  | some l =>
    obtain ⟨hp, ho⟩ := hsome l rfl
    exact ⟨fuel, l, hrun, hp, ho⟩

/-- Witness for C3 on the graph with edges `(1,2)`, `(1,3)`, `(2,4)`, `(3,4)`. -/
theorem topological_sort_orders_acyclic_graph_witness :
    ∃ fuel l, (∀ k, graph_topological_sort sample_diamond 1 (fuel + k) = some (some l)) ∧
      l.Perm (List.range' 1 sample_diamond.no_vertices) ∧
      ∀ u v, Edge sample_diamond u v → ∃ l1 l2, l = l1 ++ u :: l2 ∧ v ∈ l2 :=
  topological_sort_orders_acyclic_graph sample_diamond (by decide)
    (acyclic_of_increasing sample_diamond (by decide))

/-- The order computed on the graph with edges `(1,2)`, `(1,3)`, `(2,4)`, `(3,4)`. -/
theorem topological_sort_diamond_value :
    graph_topological_sort sample_diamond 1 9 = some (some [1, 2, 3, 4]) := by
  decide

/-- C4: on a well-formed graph with a directed cycle (a self-loop included), wherever
the cycle lies, `graph_topological_sort` with start vertex `1` returns no result (for
every amount of fuel beyond some bound). -/
theorem topological_sort_rejects_cycle (g : graph_adj_list) (hwf : WellFormed g)
    (hcyc : HasCycle g) :
    ∃ fuel, ∀ k, graph_topological_sort g 1 (fuel + k) = some none := by
  obtain ⟨fuel, r, hrun, -, hsome⟩ := topo_run hwf
  cases r with
  | none => exact ⟨fuel, hrun⟩
  | some l =>
    obtain ⟨hp, ho⟩ := hsome l rfl
    have hnd : l.Nodup := hp.nodup_iff.2 (List.nodup_range' 1 g.no_vertices)
    obtain ⟨v, hv⟩ := hcyc
    exact absurd hv (no_cycle_of_order g l hnd ho v)

/-- Witness for C4 on the graph with edges `(1,2)`, `(2,3)`, `(3,1)`. -/
theorem topological_sort_rejects_cycle_witness :
    ∃ fuel, ∀ k, graph_topological_sort sample_directed_triangle 1 (fuel + k) = some none :=
  topological_sort_rejects_cycle sample_directed_triangle (by decide)
    ⟨1, Relation.TransGen.tail
      (Relation.TransGen.tail (Relation.TransGen.single (by decide : Edge _ 1 2))
        (by decide : Edge _ 2 3))
      (by decide : Edge _ 3 1)⟩

/-! ## Claims on the bipartite check -/

/-- C7: on a well-formed graph with symmetric adjacency lists whose vertices split into
two classes with no edge inside a class, `graph_bipart` with start vertex `1` returns a
colouring (for every amount of fuel beyond some bound) in which every vertex `1..N` has
colour `1` or `2` and the two ends of every edge have different colours. -/
theorem graph_bipart_colours_bipartite_graph (g : graph_adj_list) (hwf : WellFormed g)
    (hund : Undirected g) (hbip : Bipartite g) :
    ∃ fuel col, (∀ k, graph_bipart g 1 (fuel + k) = some (some col)) ∧
      ∀ u, 1 ≤ u → u ≤ g.no_vertices →
        (read_at col u = 1 ∨ read_at col u = 2) ∧
        ∀ v ∈ g.get u, read_at col v ≠ read_at col u := by
  obtain ⟨c, hc⟩ := hbip
  have hinv := bipart_init_inv g hwf.2.1
  obtain ⟨fuel, col, hr⟩ := bipart_loop_bipartite hwf hund c hc _ (bipart_init g 1) [] rfl
    hinv (bipart_init_comp g c)
  exact ⟨fuel, col, fun k => bipart_loop_more_fuel g fuel k _ _ hr,
    bipart_loop_spec hwf fuel [] _ col hr hinv⟩

/-- Witness for C7 on the undirected path `1 - 2 - 3 - 4`. -/
theorem graph_bipart_colours_bipartite_graph_witness :
    ∃ fuel col, (∀ k, graph_bipart sample_path 1 (fuel + k) = some (some col)) ∧
      ∀ u, 1 ≤ u → u ≤ sample_path.no_vertices →
        (read_at col u = 1 ∨ read_at col u = 2) ∧
        ∀ v ∈ sample_path.get u, read_at col v ≠ read_at col u :=
  graph_bipart_colours_bipartite_graph sample_path (by decide) (by decide)
    ⟨fun v => v % 2 == 0, by decide⟩

/-- C8: on a well-formed graph with a closed walk of odd length, edge directions
ignored (so with a cycle of odd length, or a self-loop), in whatever component,
`graph_bipart` with start vertex `1` returns no result (for every amount of fuel beyond
some bound). -/
theorem graph_bipart_rejects_odd_cycle (g : graph_adj_list) (hwf : WellFormed g)
    (hodd : HasOddCycle g) :
    ∃ fuel, ∀ k, graph_bipart g 1 (fuel + k) = some none := by
  obtain ⟨fuel, r, hr⟩ := bipart_loop_terminates g _ (bipart_init g 1) rfl
  cases r with
  | none => exact ⟨fuel, fun k => bipart_loop_more_fuel g fuel k _ _ hr⟩
  | some col =>
    exact absurd (bipart_loop_spec hwf fuel [] _ col hr (bipart_init_inv g hwf.2.1))
      (fun h => no_proper_colouring_of_odd_cycle hwf hodd col h)

/-- Witness for C8 on the undirected triangle. -/
theorem graph_bipart_rejects_odd_cycle_witness :
    ∃ fuel, ∀ k, graph_bipart sample_triangle 1 (fuel + k) = some none :=
  graph_bipart_rejects_odd_cycle sample_triangle (by decide)
    ⟨1, [2, 3, 1],
      List.Chain.cons (by decide)
        (List.Chain.cons (by decide) (List.Chain.cons (by decide) List.Chain.nil)),
      rfl, rfl⟩

/-! ## Claims on the strongly connected components -/

theorem scc_partition_before_empty_back (g : graph_adj_list) (hwf : WellFormed g) :
    ∃ fuel comps,
      (∀ k, graph_strongly_connected g 1 (fuel + k) = some (scc_outcome.empty_back comps)) ∧
      comps.flatten.Perm (List.range' 1 g.no_vertices) ∧
      (∀ c ∈ comps, ∀ v ∈ c, 1 ≤ v ∧ v ≤ g.no_vertices) ∧
      (∀ v, 1 ≤ v → v ≤ g.no_vertices → (comps.map (List.count v)).sum = 1) := by
  obtain ⟨fuel, comps, hrun, hperm⟩ := scc_run hwf
  refine ⟨fuel, comps, hrun, hperm, ?_, ?_⟩
  · intro c hc v hv
    have hm : v ∈ comps.flatten := List.mem_flatten_of_mem hc hv
    rw [hperm.mem_iff, List.mem_range'_1] at hm
    omega
  · intro v hv1 hv2
    rw [← List.count_flatten, hperm.count_eq]
    exact List.count_eq_one_of_mem (List.nodup_range' 1 g.no_vertices)
      (by rw [List.mem_range'_1]; omega)

/-- C5 fails on the code: on the well-formed directed graph with edges `(1,3)`, `(2,1)`,
`(3,1)`, the components that `graph_strongly_connected` with start vertex `1` collects
are `{1}` and `{2, 3}`, and the list is complete when the call goes on to evaluate
`priority_stack.back()` on the emptied priority list (for every amount of fuel from `12`
on), although `1` and `3` reach each other and `2` cannot be reached from `3`. -/
theorem strongly_connected_splits_cycle :
    WellFormed sample_scc_split ∧
    (∀ k, graph_strongly_connected sample_scc_split 1 (12 + k) =
      some (scc_outcome.empty_back [[1], [2, 3]])) ∧
    Relation.TransGen (Edge sample_scc_split) 1 3 ∧
    Relation.TransGen (Edge sample_scc_split) 3 1 ∧
    ¬ Relation.TransGen (Edge sample_scc_split) 3 2 := by
  refine ⟨by decide, ?_, Relation.TransGen.single (by decide),
    Relation.TransGen.single (by decide), ?_⟩
  · intro k
    exact scc_more_fuel sample_scc_split 1 12 k _ (by decide)
  · have hno : ∀ u, ¬ Edge sample_scc_split u 2 := by
      intro u hu
      obtain ⟨h1, h2, h3⟩ := hu
      have h2' : u ≤ 3 := h2
      interval_cases u <;> revert h3 <;> decide
    intro h
    cases h with
    | single e => exact hno _ e
    | tail _ e => exact hno _ e

/-! ## Properties settled by evaluating the model -/

/-- C13 fails on the code: the directed graph read from `D 4 3  1 2  2 3  4 3` is well
formed and splits into the classes `{1, 3}` and `{2, 4}` with no edge inside a class,
yet `graph_bipart` with start vertex `1` returns no result (for every amount of fuel
from `4` on). -/
theorem graph_bipart_rejects_directed_two_classes :
    graph_read (some 'D') [some 4, some 3, some 1, some 2, some 2, some 3, some 4, some 3] =
      read_outcome.graph sample_directed_two_classes ∧
    WellFormed sample_directed_two_classes ∧
    ProperColouring sample_directed_two_classes (fun v => v % 2 == 0) ∧
    ∀ k, graph_bipart sample_directed_two_classes 1 (4 + k) = some none := by
  refine ⟨by decide, by decide, by decide, fun k => ?_⟩
  exact bipart_loop_more_fuel sample_directed_two_classes 4 k _ none (by decide)

/-- C14 fails on the code: the directed graph read from `D 4 3  1 2  2 1  3 4` has the
adjacency lists `1:[2]`, `2:[1]`, `3:[4]`, `4:[]`, and on it `graph_strongly_connected`
with start vertex `1` collects the three components `[4]`, `[3]`, `[1, 2]` and then,
instead of returning them, evaluates `priority_stack.back()` on the emptied priority
list, which has no defined behaviour (for every amount of fuel from `14` on); no
amount of fuel makes the call return a list. -/
theorem strongly_connected_two_cycle_no_return :
    graph_read (some 'D') [some 4, some 3, some 1, some 2, some 2, some 1, some 3, some 4] =
      read_outcome.graph sample_two_cycle ∧
    (∀ k, graph_strongly_connected sample_two_cycle 1 (14 + k) =
      some (scc_outcome.empty_back [[4], [3], [1, 2]])) ∧
    ∀ fuel cl, graph_strongly_connected sample_two_cycle 1 fuel ≠
      some (scc_outcome.returned cl) := by
  refine ⟨by decide, fun k => ?_, fun fuel cl => ?_⟩
  · exact scc_more_fuel sample_two_cycle 1 14 k _ (by decide)
  · exact scc_never_returns (by decide) fuel cl

/-- C16 fails on the code: `graph_read` checks no endpoint.  On the input `D 2 1  0 1`
it returns a graph whose slot `0` holds the entry `1`, and on the input `D 2 1  1 0` it
returns a graph in which the adjacency list of vertex `1` holds the entry `0`, a graph
that is not well formed; on `D 2 1  3 1` it writes outside the vector.  None of the
three calls throws `file_format_exception`. -/
theorem graph_read_accepts_endpoint_out_of_range :
    graph_read (some 'D') [some 2, some 1, some 0, some 1] =
      read_outcome.graph { type_ := graph_type.directed, list_ := [[1], [], []] } ∧
    graph_read (some 'D') [some 2, some 1, some 1, some 0] =
      read_outcome.graph { type_ := graph_type.directed, list_ := [[], [0], []] } ∧
    ¬ WellFormed { type_ := graph_type.directed, list_ := [[], [0], []] } ∧
    graph_read (some 'D') [some 2, some 1, some 3, some 1] = read_outcome.undefined := by
  refine ⟨by decide, by decide, by decide, by decide⟩

/-- C19 fails on the code: on the graph with one vertex and no edge (read from the
stream `D 1 0`), the call of `graph_dfs` on the transposed graph yields the list `[1]`
and the work stack is seeded with `1`; after two passes of the `while` loop of
`graph_strongly_connected` the priority list still holds `1` and the work stack is
empty, so the third pass runs the inner loop, which empties the priority list, and then
evaluates `priority_stack.back()` on the empty list.  The call ends there, for every
amount of fuel from `3` on. -/
theorem strongly_connected_reads_back_of_empty_list :
    graph_read (some 'D') [some 1, some 0] = read_outcome.graph sample_single ∧
    WellFormed sample_single ∧
    graph_dfs (r_graph sample_single) 1 3 =
      some { ret := 0, prev := [1], post := [1], build := [] } ∧
    back_of [1] = some 1 ∧
    scc_iter sample_single (scc_init sample_single [1] 1) =
      scc_pass.next
        { priority_stack := [1], v_stack := [1], components_list := [], visited := [0, 1] } ∧
    scc_iter sample_single
        { priority_stack := [1], v_stack := [1], components_list := [], visited := [0, 1] } =
      scc_pass.next
        { priority_stack := [1], v_stack := [], components_list := [], visited := [0, 2] } ∧
    scc_collect [0, 2] [1] [] = ([], [1]) ∧
    back_of [] = none ∧
    scc_iter sample_single
        { priority_stack := [1], v_stack := [], components_list := [], visited := [0, 2] } =
      scc_pass.empty_back [[1]] ∧
    ∀ k, graph_strongly_connected sample_single 1 (3 + k) =
      some (scc_outcome.empty_back [[1]]) := by
  refine ⟨by decide, by decide, by decide, rfl, by decide, by decide, by decide, rfl,
    by decide, fun k => ?_⟩
  exact scc_more_fuel sample_single 1 3 k _ (by decide)

/-! ## Topological sort against depth-first traversal -/

theorem topo_sim_visit {g : graph_adj_list} (d : dfs_state) (t t2 : topo_state)
    (curr : Nat) (rest : List Nat) (hv : d.visited = t.visited)
    (hn : d.no_processed = t.no_processed)
    (hp : t.list.drop (g.no_vertices - t.no_processed) = d.post.reverse)
    (hinv : topo_inv g t) (hlt : t.no_processed < g.no_vertices)
    (ht : topo_visit g t curr rest = some t2) :
    topo_sim g (dfs_visit g d curr rest) t2 := by
  by_cases h0 : read_at t.visited curr = 0
  · obtain ⟨-, hteq⟩ := topo_visit_open g t t2 curr rest h0 ht
    subst hteq
    rw [dfs_visit_open g d curr rest (by rw [hv]; exact h0)]
    exact
      { visited := by simp only [hv]
        stack := by simp only [hv]
        processed := hn
        post := hp }
  · by_cases h1 : read_at t.visited curr = 1
    · rw [topo_visit_close g t curr rest h1] at ht
      simp only [Option.some.injEq] at ht
      subst ht
      rw [dfs_visit_close g d curr rest (by rw [hv]; exact h1)]
      have hhead := hinv.head_eq hlt
      have hdrop : (t.list.set t.head curr).drop (g.no_vertices - (t.no_processed + 1)) =
          curr :: t.list.drop (g.no_vertices - t.no_processed) := by
        have e1 : g.no_vertices - (t.no_processed + 1) = t.head := by omega
        have e2 : g.no_vertices - t.no_processed = t.head + 1 := by omega
        rw [e1, e2]
        exact drop_set_self _ _ _ (by rw [hinv.list_len]; omega)
      exact
        { visited := by simp only [hv]
          stack := rfl
          processed := by simp only [hn]
          post := by
            show (t.list.set t.head curr).drop (g.no_vertices - (t.no_processed + 1)) =
              (d.post ++ [curr]).reverse
            rw [hdrop, hp, List.reverse_append]
            rfl }
    · rw [topo_visit_drop g t curr rest h0 h1] at ht
      simp only [Option.some.injEq] at ht
      subst ht
      rw [dfs_visit_drop g d curr rest (by rw [hv]; exact h0) (by rw [hv]; exact h1)]
      exact
        { visited := hv
          stack := rfl
          processed := hn
          post := hp }

theorem topo_sim_iter {g : graph_adj_list} (d : dfs_state) (t t2 : topo_state)
    (hsim : topo_sim g d t) (hinv : topo_inv g t) (hlt : t.no_processed < g.no_vertices)
    (ht : topo_iter g t = some t2) : topo_sim g (dfs_iter g d) t2 := by
  unfold topo_iter at ht
  unfold dfs_iter
  cases hstk : t.v_stack with
  | nil =>
    rw [hstk] at ht
    rw [hsim.stack, hstk, hsim.visited]
    exact topo_sim_visit _ t t2 _ [] rfl hsim.processed hsim.post hinv hlt ht
  | cons curr rest =>
    rw [hstk] at ht
    rw [hsim.stack, hstk]
    exact topo_sim_visit d t t2 curr rest hsim.visited hsim.processed hsim.post hinv hlt ht

theorem topo_sim_loop {g : graph_adj_list} (hwf : WellFormed g) (fuel : Nat)
    (d : dfs_state) (t : topo_state) (l : List Nat) (hsim : topo_sim g d t)
    (hinv : topo_inv g t) (h : topo_loop g fuel t = some (some l)) :
    ∃ d2, dfs_loop g fuel d = some d2 ∧ l = d2.post.reverse := by
  induction fuel generalizing d t with
  | zero => simp [topo_loop] at h
  | succ n ih =>
    simp only [topo_loop] at h
    simp only [dfs_loop]
    by_cases hlt : t.no_processed < g.no_vertices
    · rw [if_pos hlt] at h
      rw [if_pos (by rw [hsim.processed]; exact hlt)]
      cases hit : topo_iter g t with
      | none =>
        rw [hit] at h
        exact absurd h (by simp)
      | some t2 =>
        rw [hit] at h
        exact ih _ t2 (topo_sim_iter d t t2 hsim hinv hlt hit)
          (topo_iter_inv hwf t t2 hinv hlt hit) h
    · rw [if_neg hlt] at h
      rw [if_neg (by rw [hsim.processed]; exact hlt)]
      simp only [Option.some.injEq] at h
      refine ⟨d, rfl, ?_⟩
      have hnp : g.no_vertices - t.no_processed = 0 := by omega
      have hp := hsim.post
      rw [hnp, List.drop_zero] at hp
      rw [← h, hp]

theorem topo_sim_init (g : graph_adj_list) (v : Nat) :
    topo_sim g (dfs_init g v) (topo_init g v) where
  visited := rfl
  stack := rfl
  processed := rfl
  post := by
    simp only [topo_init, dfs_init]
    rw [Nat.sub_zero, List.drop_eq_nil_of_le (by rw [List.length_replicate])]
    rfl

/-- C17: on a well-formed graph without a directed cycle, the list returned by
`graph_topological_sort` with start vertex `1` is the reversed sequence of the
post-visit calls of `graph_dfs` from start vertex `1`, that is the order the
specification describes (for every amount of fuel beyond some bound). -/
theorem topological_sort_is_reversed_postorder (g : graph_adj_list) (hwf : WellFormed g)
    (hac : Acyclic g) :
    ∃ fuel l r, (∀ k, graph_topological_sort g 1 (fuel + k) = some (some l)) ∧
      (∀ k, graph_dfs g 1 (fuel + k) = some r) ∧ r.ret = 0 ∧ l = r.post.reverse ∧
      (∀ k, spec_topological_order g (fuel + k) = some l) := by
  have hinv := topo_init_inv g 1 (le_refl 1) hwf.2.1
  obtain ⟨fuel, res, hr⟩ := topo_loop_terminates_aux hwf _ _ (topo_init g 1) rfl rfl hinv
  obtain ⟨s1, -⟩ := topo_loop_spec hwf fuel _ res hr hinv
  cases res with
  | none =>
    obtain ⟨v, hv⟩ := s1 rfl
    exact absurd hv (hac v)
  | some l =>
    obtain ⟨d2, hd, hl⟩ := topo_sim_loop hwf fuel (dfs_init g 1) _ l (topo_sim_init g 1) hinv hr
    have hg : ¬ ((1 : Nat) < 1 ∨ 1 > g.no_vertices) := by
      have := hwf.2.1
      omega
    have hdfs : ∀ k, graph_dfs g 1 (fuel + k) =
        some { ret := 0, prev := d2.prev, post := d2.post, build := d2.build } := by
      intro k
      simp only [graph_dfs, if_neg hg, dfs_loop_more_fuel g fuel k _ d2 hd, Option.map_some']
    refine ⟨fuel, l, { ret := 0, prev := d2.prev, post := d2.post, build := d2.build },
      fun k => topo_loop_more_fuel g fuel k _ _ hr, hdfs, rfl, hl, fun k => ?_⟩
    simp only [spec_topological_order, hdfs k, Option.map_some', hl]

/-- Witness for C17 on the graph with edges `(1,2)`, `(1,3)`, `(2,4)`, `(3,4)`. -/
theorem topological_sort_is_reversed_postorder_witness :
    ∃ fuel l r, (∀ k, graph_topological_sort sample_diamond 1 (fuel + k) = some (some l)) ∧
      (∀ k, graph_dfs sample_diamond 1 (fuel + k) = some r) ∧ r.ret = 0 ∧
      l = r.post.reverse ∧
      (∀ k, spec_topological_order sample_diamond (fuel + k) = some l) :=
  topological_sort_is_reversed_postorder sample_diamond (by decide)
    (acyclic_of_increasing sample_diamond (by decide))

/-! ## Depth-first traversal: indices stay in range -/

theorem scan_reads_range (N : Nat) (visited : List Nat) (k i : Nat) :
    ∀ x ∈ scan_reads N visited k i, i ≤ x ∧ x ≤ N := by
  induction k generalizing i with
  | zero => simp [scan_reads]
  | succ k ih =>
    intro x hx
    simp only [scan_reads] at hx
    split at hx
    · rename_i hi
      rcases List.mem_cons.1 hx with hx | hx
      · omega
      · split at hx
        · have := ih (i + 1) x hx
          omega
        · simp at hx
    · simp at hx

theorem dfs_reach_inv {g : graph_adj_list} (hwf : WellFormed g) (v : Nat) (h1 : 1 ≤ v)
    (h2 : v ≤ g.no_vertices) (s : dfs_state) (h : dfs_reach g v s) : dfs_inv g s := by
  induction h with
  | init => exact dfs_init_inv g v h1 h2
  | step s _ hlt ih => exact dfs_iter_inv hwf s ih hlt

theorem dfs_reach_loop {g : graph_adj_list} (v : Nat) (fuel : Nat) (s r : dfs_state)
    (hs : dfs_reach g v s) (h : dfs_loop g fuel s = some r) : dfs_reach g v r :=
  (dfs_loop_preserves g (dfs_reach g v) (fun t ht hlt => dfs_reach.step t ht hlt)
    fuel s r h hs).1

theorem dfs_iter_indices_range {g : graph_adj_list} (hwf : WellFormed g) (s : dfs_state)
    (hinv : dfs_inv g s) (hlt : s.no_processed < g.no_vertices) :
    ∀ x ∈ dfs_iter_indices g s, 1 ≤ x ∧ x ≤ g.no_vertices := by
  intro x hx
  unfold dfs_iter_indices at hx
  split at hx
  · rename_i hstk
    obtain ⟨hr, -⟩ := dfs_restart_spec s hinv hstk hlt
    generalize first_unvisited g.no_vertices s.visited g.no_vertices 1 = i at hr hx
    rcases List.mem_append.1 hx with hx | hx
    · exact scan_reads_range _ _ _ _ x hx
    · rcases List.mem_cons.1 hx with hx | hx
      · omega
      · split at hx
        · exact wf_adj_range hwf hr.1 hr.2 hx
        · simp at hx
  · rename_i curr rest hstk
    have hc := hinv.stack_range curr (by rw [hstk]; simp)
    rcases List.mem_cons.1 hx with hx | hx
    · omega
    · split at hx
      · exact wf_adj_range hwf hc.1 hc.2 hx
      · simp at hx

/-- C18: on a well-formed graph with a start vertex in `1..N`, `graph_dfs` returns, and
in every state in which it evaluates its loop condition with fewer than `N` vertices
finished: if the stack is empty, the restart scan stops at an index `i` with
`1 ≤ i ≤ N` that is unvisited while every lower vertex is visited; and every index
used on `visited` and on the graph in the pass that follows lies in `1..N`. -/
theorem graph_dfs_indices_in_range (g : graph_adj_list) (s : Nat) (hwf : WellFormed g)
    (h1 : 1 ≤ s) (h2 : s ≤ g.no_vertices) :
    (∃ fuel r, (∀ k, graph_dfs g s (fuel + k) = some r) ∧ r.ret = 0) ∧
    ∀ t, dfs_reach g s t → t.no_processed < g.no_vertices →
      (t.v_stack = [] →
        1 ≤ first_unvisited g.no_vertices t.visited g.no_vertices 1 ∧
        first_unvisited g.no_vertices t.visited g.no_vertices 1 ≤ g.no_vertices ∧
        read_at t.visited (first_unvisited g.no_vertices t.visited g.no_vertices 1) = 0 ∧
        ∀ j, 1 ≤ j → j < first_unvisited g.no_vertices t.visited g.no_vertices 1 →
          read_at t.visited j ≠ 0) ∧
      ∀ x ∈ dfs_iter_indices g t, 1 ≤ x ∧ x ≤ g.no_vertices := by
  refine ⟨?_, fun t ht hlt => ⟨fun hstk => ?_, ?_⟩⟩
  · obtain ⟨fuel, r, hr, -, -⟩ := dfs_run hwf s h1 h2
    have hg : ¬ (s < 1 ∨ s > g.no_vertices) := by omega
    refine ⟨fuel, { ret := 0, prev := r.prev, post := r.post, build := r.build },
      fun k => ?_, rfl⟩
    simp only [graph_dfs, if_neg hg, hr k, Option.map_some']
  · have hinv := dfs_reach_inv hwf s h1 h2 t ht
    obtain ⟨hr, h0⟩ := dfs_restart_spec t hinv hstk hlt
    obtain ⟨-, hb, -⟩ :=
      first_unvisited_spec g.no_vertices t.visited g.no_vertices 1 (by omega)
    exact ⟨hr.1, hr.2, h0, fun j hj1 hj2 => (hb j hj1 hj2).2⟩
  · exact dfs_iter_indices_range hwf t (dfs_reach_inv hwf s h1 h2 t ht) hlt

/-- Witness for C18 on a graph with two pieces, where a restart takes place. -/
theorem graph_dfs_indices_in_range_witness :
    (∃ fuel r, (∀ k, graph_dfs sample_two_pieces 1 (fuel + k) = some r) ∧ r.ret = 0) ∧
    ∀ t, dfs_reach sample_two_pieces 1 t → t.no_processed < sample_two_pieces.no_vertices →
      (t.v_stack = [] →
        1 ≤ first_unvisited sample_two_pieces.no_vertices t.visited
          sample_two_pieces.no_vertices 1 ∧
        first_unvisited sample_two_pieces.no_vertices t.visited
          sample_two_pieces.no_vertices 1 ≤ sample_two_pieces.no_vertices ∧
        read_at t.visited (first_unvisited sample_two_pieces.no_vertices t.visited
          sample_two_pieces.no_vertices 1) = 0 ∧
        ∀ j, 1 ≤ j → j < first_unvisited sample_two_pieces.no_vertices t.visited
          sample_two_pieces.no_vertices 1 → read_at t.visited j ≠ 0) ∧
      ∀ x ∈ dfs_iter_indices sample_two_pieces t,
        1 ≤ x ∧ x ≤ sample_two_pieces.no_vertices :=
  graph_dfs_indices_in_range sample_two_pieces 1 (by decide) (by decide) (by decide)

/-! ## The parent array: reading it back -/

theorem tree_build_append (N : Nat) (ev : List (Nat × Nat)) (e : Nat × Nat) :
    tree_build N (ev ++ [e]) = (tree_build N ev).set e.1 e.2 := by
  simp [tree_build, List.foldl_append]

theorem tree_build_length (N : Nat) (ev : List (Nat × Nat)) :
    (tree_build N ev).length = N + 1 := by
  induction ev using List.reverseRecOn with
  | nil => simp [tree_build]
  | append_singleton l a ih => rw [tree_build_append, List.length_set, ih]

theorem read_at_set_cases (l : List Nat) (i j v : Nat) :
    read_at (l.set i v) j = read_at l j ∨ (i = j ∧ read_at (l.set i v) j = v) := by
  by_cases hij : i = j
  · subst hij
    by_cases hi : i < l.length
    · exact Or.inr ⟨rfl, read_at_set_self l i v hi⟩
    · left
      rw [List.set_eq_of_length_le (by omega)]
  · exact Or.inl (read_at_set_other l i j v hij)

theorem tree_build_read (N : Nat) (ev : List (Nat × Nat)) (c : Nat) :
    read_at (tree_build N ev) c = 0 ∨ (c, read_at (tree_build N ev) c) ∈ ev := by
  induction ev using List.reverseRecOn with
  | nil => left; simp [tree_build, read_at_replicate_zero]
  | append_singleton l a ih =>
    rw [tree_build_append]
    rcases read_at_set_cases (tree_build N l) a.1 c a.2 with h | ⟨h1, h2⟩
    · rw [h]
      rcases ih with ih | ih
      · exact Or.inl ih
      · exact Or.inr (List.mem_append_left _ ih)
    · right
      rw [h2, ← h1]
      simp

theorem tree_build_child (N : Nat) (ev : List (Nat × Nat)) (c : Nat) (hc : c < N + 1)
    (hp : ∀ e ∈ ev, e.2 ≠ 0) (hev : ∃ p, (c, p) ∈ ev) : read_at (tree_build N ev) c ≠ 0 := by
  induction ev using List.reverseRecOn with
  | nil => simp at hev
  | append_singleton l a ih =>
    rw [tree_build_append]
    by_cases hac : a.1 = c
    · rw [← hac, read_at_set_self _ _ _ (by rw [tree_build_length, hac]; exact hc)]
      exact hp a (by simp)
    · rw [read_at_set_other _ _ _ _ hac]
      apply ih (fun e he => hp e (List.mem_append_left _ he))
      obtain ⟨p, hp2⟩ := hev
      rcases List.mem_append.1 hp2 with h | h
      · exact ⟨p, h⟩
      · simp only [List.mem_singleton] at h
        exact absurd (by rw [← h]) hac

theorem parent_chain_ends (tree ord : List Nat)
    (hpar : ∀ v ∈ ord, read_at tree v = 0 ∨
      ord.indexOf (read_at tree v) < ord.indexOf v) :
    ∀ n v, v ∈ ord → ord.indexOf v = n → ∃ k, k ≤ n + 1 ∧ (read_at tree)^[k] v = 0 := by
  intro n
  induction n using Nat.strong_induction_on with
  | _ n ih =>
    intro v hv hn
    rcases hpar v hv with h | h
    · exact ⟨1, by omega, by simpa using h⟩
    · have hlt : ord.indexOf v < ord.length := List.indexOf_lt_length.2 hv
      have hp : read_at tree v ∈ ord := List.indexOf_lt_length.1 (by omega)
      obtain ⟨k, hk, hz⟩ := ih _ (by omega) (read_at tree v) hp rfl
      exact ⟨k + 1, by omega, by rw [Function.iterate_succ_apply]; exact hz⟩

/-! ## Depth-first traversal: parents come first -/

theorem dfs_inv_restarts {g : graph_adj_list} (s : dfs_state) (hinv : dfs_inv g s)
    (r : List Nat) : dfs_inv g { s with restarts := r } :=
  { len := hinv.len
    stack_range := hinv.stack_range
    open_on_stack := hinv.open_on_stack
    vals := hinv.vals
    prev_nodup := hinv.prev_nodup
    prev_range := hinv.prev_range
    prev_mem := hinv.prev_mem
    post_nodup := hinv.post_nodup
    post_mem := hinv.post_mem
    processed := hinv.processed }

theorem dfs_visit_order {g : graph_adj_list} (s : dfs_state) (curr : Nat) (rest : List Nat)
    (hinv : dfs_inv g s) (ho : dfs_order_inv s) (hc : curr < s.visited.length) :
    dfs_order_inv (dfs_visit g s curr rest) := by
  by_cases h0 : read_at s.visited curr = 0
  · rw [dfs_visit_open g s curr rest h0]
    have hcp : curr ∉ s.prev := by
      rw [hinv.prev_mem]
      omega
    have hnew : ∀ e, read_at (s.visited.set curr 1) e = 0 → e ∉ s.prev ++ [curr] := by
      intro e he hm
      rcases List.mem_append.1 hm with hm | hm
      · rw [hinv.prev_mem] at hm
        by_cases hec : e = curr
        · subst hec
          rw [read_at_set_self _ _ _ hc] at he
          omega
        · rw [read_at_set_other _ _ _ _ (Ne.symm hec)] at he
          exact hm he
      · simp only [List.mem_singleton] at hm
        subst hm
        rw [read_at_set_self _ _ _ hc] at he
        omega
    refine { parent_seen := ?_, parent_first := ?_ }
    · intro c p hcp2
      simp only [List.mem_append, List.mem_map, List.mem_filter, decide_eq_true_eq,
        Prod.mk.injEq] at hcp2
      rcases hcp2 with h | ⟨e, -, -, rfl⟩
      · exact List.mem_append_left _ (ho.parent_seen c p h)
      · simp
    · intro c p hcp2 hcm
      simp only [List.mem_append, List.mem_map, List.mem_filter, decide_eq_true_eq,
        Prod.mk.injEq] at hcp2
      rcases hcp2 with h | ⟨e, ⟨-, he⟩, rfl, rfl⟩
      · have hp := ho.parent_seen c p h
        show List.indexOf p (s.prev ++ [curr]) < List.indexOf c (s.prev ++ [curr])
        rw [List.indexOf_append_of_mem hp]
        by_cases hcm2 : c ∈ s.prev
        · rw [List.indexOf_append_of_mem hcm2]
          exact ho.parent_first c p h hcm2
        · rw [List.indexOf_append_of_not_mem hcm2]
          have := List.indexOf_lt_length.2 hp
          omega
      · exact absurd hcm (hnew e he)
  · by_cases h1 : read_at s.visited curr = 1
    · rw [dfs_visit_close g s curr rest h1]
      exact { parent_seen := ho.parent_seen, parent_first := ho.parent_first }
    · rw [dfs_visit_drop g s curr rest h0 h1]
      exact { parent_seen := ho.parent_seen, parent_first := ho.parent_first }

theorem dfs_iter_order {g : graph_adj_list} (s : dfs_state) (hinv : dfs_inv g s)
    (ho : dfs_order_inv s) (hlt : s.no_processed < g.no_vertices) :
    dfs_order_inv (dfs_iter g s) := by
  unfold dfs_iter
  split
  · rename_i hstk
    obtain ⟨hr, -⟩ := dfs_restart_spec s hinv hstk hlt
    exact dfs_visit_order _ _ [] (dfs_inv_restarts s hinv _)
      { parent_seen := ho.parent_seen, parent_first := ho.parent_first }
      (by show _ < s.visited.length; rw [hinv.len]; omega)
  · rename_i curr rest hstk
    have hc := hinv.stack_range curr (by rw [hstk]; simp)
    exact dfs_visit_order s curr rest hinv ho (by rw [hinv.len]; omega)

theorem dfs_run_order {g : graph_adj_list} (hwf : WellFormed g) (v : Nat) (h1 : 1 ≤ v)
    (h2 : v ≤ g.no_vertices) :
    ∃ fuel r, (∀ k, dfs_loop g (fuel + k) (dfs_init g v) = some r) ∧ dfs_inv g r ∧
      dfs_tree_inv g v r ∧ dfs_order_inv r ∧ ¬ r.no_processed < g.no_vertices := by
  obtain ⟨fuel, r, hr⟩ := dfs_loop_terminates hwf (dfs_init g v) (dfs_init_inv g v h1 h2)
  obtain ⟨⟨hi, ht, ho⟩, hd⟩ := dfs_loop_preserves g
    (fun t => dfs_inv g t ∧ dfs_tree_inv g v t ∧ dfs_order_inv t)
    (fun t ht hlt => ⟨dfs_iter_inv hwf t ht.1 hlt, dfs_iter_tree v t ht.1 ht.2.1 hlt,
      dfs_iter_order t ht.1 ht.2.2 hlt⟩)
    fuel _ r hr ⟨dfs_init_inv g v h1 h2, dfs_tree_init g v,
      { parent_seen := by simp [dfs_init], parent_first := by simp [dfs_init] }⟩
  exact ⟨fuel, r, fun k => dfs_loop_more_fuel g fuel k _ r hr, hi, ht, ho, hd⟩

theorem dfs_tree_chain {g : graph_adj_list} (r : dfs_state) (hinv : dfs_inv g r)
    (ho : dfs_order_inv r) (hdone : ¬ r.no_processed < g.no_vertices) (v : Nat)
    (hv1 : 1 ≤ v) (hv2 : v ≤ g.no_vertices) :
    ∃ k, k ≤ g.no_vertices ∧ (read_at (tree_build g.no_vertices r.build))^[k] v = 0 := by
  have hperm := (dfs_final_perm r hinv hdone).1
  have hv : v ∈ r.prev := by
    rw [hperm.mem_iff, List.mem_range'_1]
    omega
  have hlen : r.prev.length = g.no_vertices := by
    rw [hperm.length_eq, List.length_range']
  obtain ⟨k, hk, hz⟩ := parent_chain_ends (tree_build g.no_vertices r.build) r.prev
    (fun w hw => by
      rcases tree_build_read g.no_vertices r.build w with h | h
      · exact Or.inl h
      · exact Or.inr (ho.parent_first w _ h hw)) _ v hv rfl
  have := List.indexOf_lt_length.2 hv
  exact ⟨k, by omega, hz⟩

/-! ## Breadth-first traversal: what one pass does -/

theorem bfs_fold_struct (curr : Nat) (adj : List Nat) (visited queue : List Nat)
    (pl : List (Nat × Nat)) (hlen : ∀ e ∈ adj, e < visited.length) :
    ∃ new : List Nat,
      (adj.foldl (bfs_push curr) (visited, queue, pl)).2.1 = queue ++ new ∧
      (adj.foldl (bfs_push curr) (visited, queue, pl)).2.2 =
        pl ++ new.map (fun e => (e, curr)) ∧
      new.Nodup ∧ (∀ e, e ∈ new ↔ e ∈ adj ∧ read_at visited e = 0) ∧
      (∀ x, read_at (adj.foldl (bfs_push curr) (visited, queue, pl)).1 x =
        if x ∈ new then 1 else read_at visited x) ∧
      (adj.foldl (bfs_push curr) (visited, queue, pl)).1.length = visited.length := by
  induction adj generalizing visited queue pl with
  | nil => exact ⟨[], by simp⟩
  | cons a t ih =>
    have halt : a < visited.length := hlen a (by simp)
    simp only [List.foldl_cons]
    by_cases h0 : read_at visited a = 0
    · have hstep : bfs_push curr (visited, queue, pl) a =
          (visited.set a 1, queue ++ [a], pl ++ [(a, curr)]) := by
        simp [bfs_push, h0]
      rw [hstep]
      obtain ⟨new, i1, i2, i3, i4, i5, i6⟩ := ih (visited.set a 1) (queue ++ [a])
        (pl ++ [(a, curr)]) (fun e he => by
          rw [List.length_set]
          exact hlen e (by simp [he]))
      have hanew : a ∉ new := by
        intro hm
        have := ((i4 a).1 hm).2
        rw [read_at_set_self _ _ _ halt] at this
        omega
      refine ⟨a :: new, by rw [i1]; simp, by rw [i2]; simp, List.nodup_cons.2 ⟨hanew, i3⟩,
        fun e => ?_, fun x => ?_, by rw [i6, List.length_set]⟩
      · rw [List.mem_cons, i4 e]
        by_cases hea : e = a
        · subst hea
          simp [h0]
        · rw [read_at_set_other _ _ _ _ (Ne.symm hea)]
          simp [hea]
      · rw [i5 x]
        by_cases hxa : x = a
        · subst hxa
          simp [hanew, read_at_set_self _ _ _ halt]
        · rw [read_at_set_other _ _ _ _ (Ne.symm hxa)]
          simp [hxa]
    · have hstep : bfs_push curr (visited, queue, pl) a = (visited, queue, pl) := by
        simp [bfs_push, h0]
      rw [hstep]
      obtain ⟨new, i1, i2, i3, i4, i5, i6⟩ := ih visited queue pl
        (fun e he => hlen e (by simp [he]))
      refine ⟨new, i1, i2, i3, fun e => ?_, i5, i6⟩
      rw [i4 e, List.mem_cons]
      constructor
      · rintro ⟨h1, h2⟩
        exact ⟨Or.inr h1, h2⟩
      · rintro ⟨h1 | h1, h2⟩
        · subst h1
          exact absurd h2 h0
        · exact ⟨h1, h2⟩

theorem bfs_visit_struct (g : graph_adj_list) (s : bfs_state) (visited : List Nat)
    (curr : Nat) (rest : List Nat) (hlen : ∀ e ∈ g.get curr, e < visited.length)
    (hc : curr < visited.length) :
    ∃ new : List Nat,
      (bfs_visit g s visited curr rest).v_queue = rest ++ new ∧
      (bfs_visit g s visited curr rest).proc = s.proc ++ new.map (fun e => (e, curr)) ∧
      (bfs_visit g s visited curr rest).post = s.post ++ [curr] ∧
      new.Nodup ∧ (∀ e, e ∈ new ↔ e ∈ g.get curr ∧ read_at visited e = 0) ∧
      (∀ x, read_at (bfs_visit g s visited curr rest).visited x =
        if x = curr then 2 else if x ∈ new then 1 else read_at visited x) := by
  obtain ⟨new, i1, i2, i3, i4, i5, i6⟩ :=
    bfs_fold_struct curr (g.get curr) visited (curr :: rest) s.proc hlen
  refine ⟨new, ?_, ?_, rfl, i3, i4, fun x => ?_⟩
  · show ((g.get curr).foldl (bfs_push curr) (visited, curr :: rest, s.proc)).2.1.tail = _
    rw [i1]
    rfl
  · exact i2
  · show read_at (((g.get curr).foldl (bfs_push curr)
      (visited, curr :: rest, s.proc)).1.set curr 2) x = _
    by_cases hxc : x = curr
    · subst hxc
      rw [read_at_set_self _ _ _ (by rw [i6]; exact hc)]
      simp
    · rw [read_at_set_other _ _ _ _ (Ne.symm hxc), i5 x]
      simp [hxc]

theorem bfs_ord_mem {g : graph_adj_list} (s : bfs_state) (hinv : bfs_inv g s) (x : Nat) :
    x ∈ s.post ++ s.v_queue ↔ read_at s.visited x ≠ 0 := by
  rw [List.mem_append, hinv.post_mem, hinv.queue_mem]
  have := hinv.vals x
  omega

/-- One pass of the loop of `graph_bfs`, described: `curr` is the vertex handled (the
front of the queue, or the lowest unvisited vertex when the queue is empty), `v0` is
`visited` when the inner loop starts and `new` holds the vertices discovered. -/
theorem bfs_iter_struct {g : graph_adj_list} (hwf : WellFormed g) (s : bfs_state)
    (hinv : bfs_inv g s) (hlt : s.no_processed < g.no_vertices) :
    ∃ (curr : Nat) (rest new v0 : List Nat),
      ((s.v_queue = curr :: rest ∧ v0 = s.visited) ∨
        (s.v_queue = [] ∧ rest = [] ∧ read_at s.visited curr = 0 ∧
          curr = first_unvisited g.no_vertices s.visited g.no_vertices 1 ∧
          v0 = s.visited.set curr 1)) ∧
      1 ≤ curr ∧ curr ≤ g.no_vertices ∧ read_at v0 curr = 1 ∧
      (∀ x, x ≠ curr → read_at v0 x = read_at s.visited x) ∧
      (bfs_iter g s).v_queue = rest ++ new ∧
      (bfs_iter g s).proc = s.proc ++ new.map (fun e => (e, curr)) ∧
      (bfs_iter g s).post = s.post ++ [curr] ∧
      new.Nodup ∧ (∀ e, e ∈ new ↔ e ∈ g.get curr ∧ read_at v0 e = 0) ∧
      (∀ x, read_at (bfs_iter g s).visited x =
        if x = curr then 2 else if x ∈ new then 1 else read_at v0 x) := by
  unfold bfs_iter
  split
  · rename_i hq
    obtain ⟨hr, h0⟩ := bfs_restart_spec s hinv hq hlt
    generalize hi : first_unvisited g.no_vertices s.visited g.no_vertices 1 = i at hr h0 ⊢
    have hilt : i < s.visited.length := by
      rw [hinv.len]; omega
    obtain ⟨new, j1, j2, j3, j4, j5, j6⟩ := bfs_visit_struct g s (s.visited.set i 1) i []
      (fun e he => by
        rw [List.length_set, hinv.len]
        have := wf_adj_range hwf hr.1 hr.2 he
        omega)
      (by rw [List.length_set]; exact hilt)
    exact ⟨i, [], new, s.visited.set i 1, Or.inr ⟨hq, rfl, h0, rfl, rfl⟩, hr.1, hr.2,
      read_at_set_self _ _ _ hilt, fun x hx => read_at_set_other _ _ _ _ (Ne.symm hx),
      j1, j2, j3, j4, j5, j6⟩
  · rename_i curr rest hq
    have hc := hinv.queue_range curr (by rw [hq]; simp)
    obtain ⟨new, j1, j2, j3, j4, j5, j6⟩ := bfs_visit_struct g s s.visited curr rest
      (fun e he => by
        rw [hinv.len]
        have := wf_adj_range hwf hc.1 hc.2 he
        omega)
      (by rw [hinv.len]; omega)
    exact ⟨curr, rest, new, s.visited, Or.inl ⟨hq, rfl⟩, hc.1, hc.2,
      (hinv.queue_mem curr).1 (by rw [hq]; simp), fun x _ => rfl,
      j1, j2, j3, j4, j5, j6⟩

/-! ## Breadth-first traversal: parents come first -/

theorem bfs_iter_order {g : graph_adj_list} (hwf : WellFormed g) (s : bfs_state)
    (hinv : bfs_inv g s) (ho : bfs_order_inv s) (hlt : s.no_processed < g.no_vertices) :
    bfs_order_inv (bfs_iter g s) := by
  obtain ⟨curr, rest, new, v0, hcase, hc1, hc2, hv0c, hv0, hq, hproc, hpost, hnd, hnew, -⟩ :=
    bfs_iter_struct hwf s hinv hlt
  -- the order of discovery before the inner loop, and what it extends
  have hord : ∃ ext, s.post ++ curr :: rest = (s.post ++ s.v_queue) ++ ext ∧
      curr ∈ s.post ++ curr :: rest ∧
      ∀ x ∈ s.post ++ curr :: rest, x ∈ s.post ++ s.v_queue ∨ x = curr := by
    rcases hcase with ⟨h, -⟩ | ⟨h, hr, -, -, -⟩
    · exact ⟨[], by rw [h]; simp, by simp, fun x hx => Or.inl (by rw [h]; exact hx)⟩
    · refine ⟨[curr], by rw [h, hr]; simp, by simp, fun x hx => ?_⟩
      rw [hr, h] at *
      simpa using hx
  obtain ⟨ext, hext, hcm, hsub⟩ := hord
  have hnew0 : ∀ e ∈ new, e ∉ s.post ++ curr :: rest := by
    intro e he hm
    have h0 := ((hnew e).1 he).2
    have hec : e ≠ curr := by
      intro h
      rw [h] at h0
      omega
    rw [hv0 e hec] at h0
    rcases hsub e hm with hm | hm
    · exact (bfs_ord_mem s hinv e).1 hm h0
    · exact hec hm
  have hneword : (bfs_iter g s).post ++ (bfs_iter g s).v_queue =
      (s.post ++ curr :: rest) ++ new := by
    rw [hpost, hq]
    simp
  refine { seen := ?_, parent_first := ?_ }
  · intro c p hcp
    rw [hneword]
    rw [hproc, List.mem_append] at hcp
    rcases hcp with h | h
    · obtain ⟨h1, h2⟩ := ho.seen c p h
      rw [hext]
      exact ⟨List.mem_append_left _ (List.mem_append_left _ h1),
        List.mem_append_left _ (List.mem_append_left _ h2)⟩
    · simp only [List.mem_map, Prod.mk.injEq] at h
      obtain ⟨e, he, rfl, rfl⟩ := h
      exact ⟨List.mem_append_left _ hcm, List.mem_append_right _ he⟩
  · intro c p hcp
    rw [hneword]
    rw [hproc, List.mem_append] at hcp
    rcases hcp with h | h
    · obtain ⟨h1, h2⟩ := ho.seen c p h
      have := ho.parent_first c p h
      rw [hext, List.indexOf_append_of_mem (List.mem_append_left _ h1),
        List.indexOf_append_of_mem (List.mem_append_left _ h2),
        List.indexOf_append_of_mem h1, List.indexOf_append_of_mem h2]
      exact this
    · simp only [List.mem_map, Prod.mk.injEq] at h
      obtain ⟨e, he, rfl, rfl⟩ := h
      rw [List.indexOf_append_of_mem hcm, List.indexOf_append_of_not_mem (hnew0 e he)]
      have := List.indexOf_lt_length.2 hcm
      omega

theorem bfs_final_perm {g : graph_adj_list} (r : bfs_state) (hinv : bfs_inv g r)
    (hdone : ¬ r.no_processed < g.no_vertices) :
    r.post.Perm (List.range' 1 g.no_vertices) :=
  perm_range_of_nodup _ _ hinv.post_nodup hinv.post_range (by rw [← hinv.processed]; omega)

theorem bfs_final_queue {g : graph_adj_list} (r : bfs_state) (hinv : bfs_inv g r)
    (hdone : ¬ r.no_processed < g.no_vertices) : r.v_queue = [] := by
  apply List.eq_nil_iff_forall_not_mem.2
  intro x hx
  have hr := hinv.queue_range x hx
  have h1 := (hinv.queue_mem x).1 hx
  have h2 : x ∈ r.post := by
    rw [(bfs_final_perm r hinv hdone).mem_iff, List.mem_range'_1]
    omega
  rw [hinv.post_mem] at h2
  omega

theorem bfs_init_order (g : graph_adj_list) (v : Nat) : bfs_order_inv (bfs_init g v) where
  seen := by simp [bfs_init]
  parent_first := by simp [bfs_init]

theorem bfs_run_order {g : graph_adj_list} (hwf : WellFormed g) (v : Nat) (h1 : 1 ≤ v)
    (h2 : v ≤ g.no_vertices) :
    ∃ fuel r, (∀ k, bfs_loop g (fuel + k) (bfs_init g v) = some r) ∧ bfs_inv g r ∧
      bfs_order_inv r ∧ ¬ r.no_processed < g.no_vertices := by
  obtain ⟨fuel, r, hr⟩ := bfs_loop_terminates g _ (bfs_init g v) rfl
  obtain ⟨⟨hi, ho⟩, hd⟩ := bfs_loop_preserves g (fun t => bfs_inv g t ∧ bfs_order_inv t)
    (fun t ht hlt => ⟨bfs_iter_inv hwf t ht.1 hlt, bfs_iter_order hwf t ht.1 ht.2 hlt⟩)
    fuel _ r hr ⟨bfs_init_inv g v h1 h2, bfs_init_order g v⟩
  exact ⟨fuel, r, fun k => bfs_loop_more_fuel g fuel k _ r hr, hi, ho, hd⟩

theorem bfs_tree_chain {g : graph_adj_list} (r : bfs_state) (hinv : bfs_inv g r)
    (ho : bfs_order_inv r) (hdone : ¬ r.no_processed < g.no_vertices) (v : Nat)
    (hv1 : 1 ≤ v) (hv2 : v ≤ g.no_vertices) :
    ∃ k, k ≤ g.no_vertices ∧ (read_at (tree_build g.no_vertices r.proc))^[k] v = 0 := by
  have hperm := bfs_final_perm r hinv hdone
  have hq := bfs_final_queue r hinv hdone
  have hv : v ∈ r.post := by
    rw [hperm.mem_iff, List.mem_range'_1]
    omega
  have hlen : r.post.length = g.no_vertices := by
    rw [hperm.length_eq, List.length_range']
  obtain ⟨k, hk, hz⟩ := parent_chain_ends (tree_build g.no_vertices r.proc) r.post
    (fun w _ => by
      rcases tree_build_read g.no_vertices r.proc w with h | h
      · exact Or.inl h
      · have := ho.parent_first w _ h
        rw [hq, List.append_nil] at this
        exact Or.inr this) _ v hv rfl
  have := List.indexOf_lt_length.2 hv
  exact ⟨k, by omega, hz⟩

/-- C11: on a well-formed graph with a start vertex in `1..N`, `graph_dfs` and
`graph_bfs` return (for every amount of fuel beyond some bound), and in the parent
array that `tree_build` accumulates from the tree-edge calls of either traversal,
following the parent entries from any vertex `1..N` reaches `0` after at most `N`
steps. -/
theorem spanning_forest_parent_chain_ends (g : graph_adj_list) (s : Nat)
    (hwf : WellFormed g) (h1 : 1 ≤ s) (h2 : s ≤ g.no_vertices) :
    ∃ fuel rd rb, (∀ k, graph_dfs g s (fuel + k) = some rd) ∧
      (∀ k, graph_bfs g s (fuel + k) = some rb) ∧
      ∀ v, 1 ≤ v → v ≤ g.no_vertices →
        (∃ k, k ≤ g.no_vertices ∧ (read_at (tree_build g.no_vertices rd.build))^[k] v = 0) ∧
        (∃ k, k ≤ g.no_vertices ∧ (read_at (tree_build g.no_vertices rb.proc))^[k] v = 0) := by
  obtain ⟨f1, rd, hd, hdi, -, hdo, hdd⟩ := dfs_run_order hwf s h1 h2
  obtain ⟨f2, rb, hb, hbi, hbo, hbd⟩ := bfs_run_order hwf s h1 h2
  have hg : ¬ (s < 1 ∨ s > g.no_vertices) := by omega
  refine ⟨f1 + f2, { ret := 0, prev := rd.prev, post := rd.post, build := rd.build },
    { ret := 0, proc := rb.proc, post := rb.post }, fun k => ?_, fun k => ?_,
    fun v hv1 hv2 => ⟨dfs_tree_chain rd hdi hdo hdd v hv1 hv2,
      bfs_tree_chain rb hbi hbo hbd v hv1 hv2⟩⟩
  · simp only [graph_dfs, if_neg hg, Nat.add_assoc, hd (f2 + k), Option.map_some']
  · have : f1 + f2 + k = f2 + (f1 + k) := by omega
    simp only [graph_bfs, if_neg hg, this, hb (f1 + k), Option.map_some']

/-- Witness for C11 on a graph with two pieces, started at vertex `2`. -/
theorem spanning_forest_parent_chain_ends_witness :
    ∃ fuel rd rb, (∀ k, graph_dfs sample_two_pieces 2 (fuel + k) = some rd) ∧
      (∀ k, graph_bfs sample_two_pieces 2 (fuel + k) = some rb) ∧
      ∀ v, 1 ≤ v → v ≤ sample_two_pieces.no_vertices →
        (∃ k, k ≤ sample_two_pieces.no_vertices ∧
          (read_at (tree_build sample_two_pieces.no_vertices rd.build))^[k] v = 0) ∧
        (∃ k, k ≤ sample_two_pieces.no_vertices ∧
          (read_at (tree_build sample_two_pieces.no_vertices rb.proc))^[k] v = 0) :=
  spanning_forest_parent_chain_ends sample_two_pieces 2 (by decide) (by decide) (by decide)

/-! ## Spanning forest: one root in each connected piece -/

theorem closed_set_conn {g : graph_adj_list} (hund : Undirected g) (P : Nat → Prop)
    (hP : ∀ u v, P u → Edge g u v → P v) (hrange : ∀ u, P u → 1 ≤ u ∧ u ≤ g.no_vertices)
    (a b : Nat) (h : Relation.ReflTransGen (Adjacent g) a b) : P a ↔ P b := by
  have hadj : ∀ x y, Adjacent g x y → P x → P y := by
    intro x y hxy hx
    rcases hxy with h | h
    · exact hP x y hx h
    · have hxr := hrange x hx
      exact hP x y hx ⟨hxr.1, hxr.2, hund y (by have := h.2.1; omega) h.1 x h.2.2⟩
  induction h with
  | refl => exact Iff.rfl
  | @tail b c _ hbc ih =>
    exact ih.trans ⟨hadj b c hbc, hadj c b (adjacent_symm g hbc)⟩

theorem read_at_set_mono (l : List Nat) (i k x : Nat) (hi : i < l.length) (hk : k ≠ 0)
    (hx : read_at l x ≠ 0) : read_at (l.set i k) x ≠ 0 := by
  by_cases hxi : x = i
  · subst hxi
    rw [read_at_set_self _ _ _ hi]
    exact hk
  · rw [read_at_set_other _ _ _ _ (Ne.symm hxi)]
    exact hx

theorem dfs_visit_closure {g : graph_adj_list} (s0 : Nat) (s : dfs_state) (curr : Nat)
    (rest : List Nat) (hinv : dfs_inv g s) (hstk : s.v_stack = curr :: rest)
    (hcl : dfs_closure_inv g s0 s) : dfs_closure_inv g s0 (dfs_visit g s curr rest) := by
  have hc : 1 ≤ curr ∧ curr ≤ g.no_vertices := hinv.stack_range curr (by simp [hstk])
  have hclt : curr < s.visited.length := by rw [hinv.len]; omega
  by_cases h0 : read_at s.visited curr = 0
  · rw [dfs_visit_open g s curr rest h0]
    refine { open_nbrs := ?_, closed := ?_, roots_apart := hcl.roots_apart }
    · intro u hu pre post hsplit hpre v hv
      have hu2 : read_at (s.visited.set curr 1) u = 1 := hu
      have hunp : u ∉ ((g.get curr).filter
          (fun e => decide (read_at (s.visited.set curr 1) e = 0))).reverse := by
        intro hm
        simp only [List.mem_reverse, List.mem_filter, decide_eq_true_eq] at hm
        omega
      rcases split_after_push _ curr rest u pre post hunp hsplit hpre with
        ⟨huc, hp⟩ | ⟨huc, pre0, e0, hp0, hp⟩
      · subst huc
        by_cases hv0 : read_at (s.visited.set u 1) v = 0
        · right
          rw [hp]
          simp only [List.mem_reverse, List.mem_filter, decide_eq_true_eq]
          exact ⟨hv, hv0⟩
        · exact Or.inl hv0
      · rw [read_at_set_other _ _ _ _ (Ne.symm huc)] at hu2
        rcases hcl.open_nbrs u hu2 pre0 post (by rw [hstk, e0]) hp0 v hv with h | h
        · exact Or.inl (read_at_set_mono _ _ _ _ hclt (by omega) h)
        · right; rw [hp]; exact List.mem_append_right _ h
    · intro u hu v hv
      have hu2 : read_at (s.visited.set curr 1) u = 2 := hu
      have huc : u ≠ curr := by
        intro h
        rw [h, read_at_set_self _ _ _ hclt] at hu2
        omega
      rw [read_at_set_other _ _ _ _ (Ne.symm huc)] at hu2
      exact read_at_set_mono _ _ _ _ hclt (by omega) (hcl.closed u hu2 v hv)
  · have hpop : ∀ (vis2 : List Nat), (∀ x, read_at s.visited x ≠ 0 → read_at vis2 x ≠ 0) →
        read_at vis2 curr ≠ 0 → (∀ u, read_at vis2 u = 1 → read_at s.visited u = 1 ∧ u ≠ curr) →
        ∀ u, read_at vis2 u = 1 → ∀ pre post, rest = pre ++ u :: post →
          u ∉ pre → ∀ v ∈ g.get u, read_at vis2 v ≠ 0 ∨ v ∈ pre := by
      intro vis2 hmono hcur h1 u hu pre post hsplit hpre v hv
      obtain ⟨hu1, huc⟩ := h1 u hu
      rcases hcl.open_nbrs u hu1 (curr :: pre) post (by rw [hstk, hsplit]; rfl)
        (by simp only [List.mem_cons, not_or]; exact ⟨huc, hpre⟩) v hv with h | h
      · exact Or.inl (hmono v h)
      · rcases List.mem_cons.1 h with h | h
        · left; rw [h]; exact hcur
        · exact Or.inr h
    by_cases h1 : read_at s.visited curr = 1
    · rw [dfs_visit_close g s curr rest h1]
      have hcur : read_at (s.visited.set curr 2) curr = 2 := read_at_set_self _ _ _ hclt
      refine { open_nbrs := ?_, closed := ?_, roots_apart := hcl.roots_apart }
      · apply hpop (s.visited.set curr 2)
          (fun x hx => read_at_set_mono _ _ _ _ hclt (by omega) hx) (by rw [hcur]; omega)
        intro u hu
        have huc : u ≠ curr := by
          intro h
          rw [h, hcur] at hu
          omega
        rw [read_at_set_other _ _ _ _ (Ne.symm huc)] at hu
        exact ⟨hu, huc⟩
      · intro u hu v hv
        have hu2 : read_at (s.visited.set curr 2) u = 2 := hu
        apply read_at_set_mono _ _ _ _ hclt (by omega)
        by_cases huc : u = curr
        · subst huc
          rcases hcl.open_nbrs u h1 [] rest (by rw [hstk]; rfl) (by simp) v hv with h | h
          · exact h
          · simp at h
        · rw [read_at_set_other _ _ _ _ (Ne.symm huc)] at hu2
          exact hcl.closed u hu2 v hv
    · rw [dfs_visit_drop g s curr rest h0 h1]
      refine { open_nbrs := ?_, closed := hcl.closed, roots_apart := hcl.roots_apart }
      apply hpop s.visited (fun x hx => hx) h0
      intro u hu
      refine ⟨hu, fun h => ?_⟩
      rw [h] at hu
      exact h1 hu

theorem dfs_iter_closure {g : graph_adj_list} (hund : Undirected g) (s0 : Nat)
    (s : dfs_state) (hinv : dfs_inv g s) (ht : dfs_tree_inv g s0 s)
    (hcl : dfs_closure_inv g s0 s) (hlt : s.no_processed < g.no_vertices) :
    dfs_closure_inv g s0 (dfs_iter g s) := by
  unfold dfs_iter
  split
  · rename_i hstk
    obtain ⟨hr, h0⟩ := dfs_restart_spec s hinv hstk hlt
    generalize first_unvisited g.no_vertices s.visited g.no_vertices 1 = i at hr h0 ⊢
    have hno1 : ∀ v, read_at s.visited v ≠ 1 := by
      intro v hv
      have := hinv.open_on_stack v hv
      rw [hstk] at this
      simp at this
    have hinv1 : dfs_inv g { s with restarts := s.restarts ++ [i], v_stack := [i] } :=
      { len := hinv.len
        stack_range := by
          intro x hx
          simp at hx
          exact hx ▸ hr
        open_on_stack := fun v hv => absurd hv (hno1 v)
        vals := hinv.vals
        prev_nodup := hinv.prev_nodup
        prev_range := hinv.prev_range
        prev_mem := hinv.prev_mem
        post_nodup := hinv.post_nodup
        post_mem := hinv.post_mem
        processed := hinv.processed }
    have hconn : ∀ a b, Relation.ReflTransGen (Adjacent g) a b →
        (read_at s.visited a ≠ 0 ↔ read_at s.visited b ≠ 0) := by
      apply closed_set_conn hund (fun u => read_at s.visited u ≠ 0)
      · intro u v hu huv
        have hu2 : read_at s.visited u = 2 := by
          have := hinv.vals u
          have := hno1 u
          omega
        exact hcl.closed u hu2 v huv.2.2
      · intro u hu
        exact hinv.prev_range u ((hinv.prev_mem u).2 hu)
    have hold : ∀ r, r ∈ s0 :: s.restarts → read_at s.visited r ≠ 0 := by
      intro r hr'
      rcases List.mem_cons.1 hr' with h | h
      · rcases ht.start with h' | ⟨-, h'⟩
        · rw [h]; exact h'
        · rw [hstk] at h'; simp at h'
      · rcases ht.roots r h with h' | h'
        · exact h'
        · rw [hstk] at h'; simp at h'
    have hcl1 : dfs_closure_inv g s0
        { s with restarts := s.restarts ++ [i], v_stack := [i] } :=
      { open_nbrs := fun u hu => absurd hu (hno1 u)
        closed := hcl.closed
        roots_apart := by
          intro r1 r2 hr1 hr2 hne hc
          have hsplit : ∀ r, r ∈ s0 :: (s.restarts ++ [i]) → r ∈ s0 :: s.restarts ∨ r = i := by
            intro r hr'
            simp only [List.mem_cons, List.mem_append, List.mem_singleton,
              List.not_mem_nil, or_false] at hr' ⊢
            tauto
          rcases hsplit r1 hr1 with a1 | a1 <;> rcases hsplit r2 hr2 with a2 | a2
          · exact hcl.roots_apart r1 r2 a1 a2 hne hc
          · have := (hconn r1 r2 hc).1 (hold r1 a1)
            rw [a2] at this
            exact this h0
          · have := (hconn r1 r2 hc).2 (hold r2 a2)
            rw [a1] at this
            exact this h0
          · exact hne (by rw [a1, a2]) }
    have h := dfs_visit_closure s0 _ i [] hinv1 rfl hcl1
    exact h
  · rename_i curr rest hstk
    exact dfs_visit_closure s0 s curr rest hinv hstk hcl

theorem dfs_init_closure (g : graph_adj_list) (s0 : Nat) :
    dfs_closure_inv g s0 (dfs_init g s0) where
  open_nbrs := by
    intro u hu
    simp [dfs_init, read_at_replicate_zero] at hu
  closed := by
    intro u hu
    simp [dfs_init, read_at_replicate_zero] at hu
  roots_apart := by
    intro r1 r2 h1 h2 hne
    simp only [dfs_init, List.mem_singleton] at h1 h2
    exact absurd (by rw [h1, h2]) hne

theorem dfs_run_closure {g : graph_adj_list} (hwf : WellFormed g) (hund : Undirected g)
    (v : Nat) (h1 : 1 ≤ v) (h2 : v ≤ g.no_vertices) :
    ∃ fuel r, (∀ k, dfs_loop g (fuel + k) (dfs_init g v) = some r) ∧ dfs_inv g r ∧
      dfs_tree_inv g v r ∧ dfs_order_inv r ∧ dfs_closure_inv g v r ∧
      ¬ r.no_processed < g.no_vertices := by
  obtain ⟨fuel, r, hr⟩ := dfs_loop_terminates hwf (dfs_init g v) (dfs_init_inv g v h1 h2)
  obtain ⟨⟨hi, ht, ho, hc⟩, hd⟩ := dfs_loop_preserves g
    (fun t => dfs_inv g t ∧ dfs_tree_inv g v t ∧ dfs_order_inv t ∧ dfs_closure_inv g v t)
    (fun t ht hlt => ⟨dfs_iter_inv hwf t ht.1 hlt, dfs_iter_tree v t ht.1 ht.2.1 hlt,
      dfs_iter_order t ht.1 ht.2.2.1 hlt,
      dfs_iter_closure hund v t ht.1 ht.2.1 ht.2.2.2 hlt⟩)
    fuel _ r hr ⟨dfs_init_inv g v h1 h2, dfs_tree_init g v,
      { parent_seen := by simp [dfs_init], parent_first := by simp [dfs_init] },
      dfs_init_closure g v⟩
  exact ⟨fuel, r, fun k => dfs_loop_more_fuel g fuel k _ r hr, hi, ht, ho, hc, hd⟩

theorem dfs_roots_apart {g : graph_adj_list} (s0 : Nat) (r : dfs_state)
    (hinv : dfs_inv g r) (ht : dfs_tree_inv g s0 r) (ho : dfs_order_inv r)
    (hcl : dfs_closure_inv g s0 r) (hdone : ¬ r.no_processed < g.no_vertices)
    (u v : Nat) (hu1 : 1 ≤ u) (hu2 : u ≤ g.no_vertices) (hv1 : 1 ≤ v)
    (hv2 : v ≤ g.no_vertices) (hne : u ≠ v)
    (hu : read_at (tree_build g.no_vertices r.build) u = 0)
    (hv : read_at (tree_build g.no_vertices r.build) v = 0) :
    ¬ Relation.ReflTransGen (Adjacent g) u v := by
  have hpar : ∀ e ∈ r.build, e.2 ≠ 0 := by
    intro e he
    have := hinv.prev_range e.2 (ho.parent_seen e.1 e.2 he)
    omega
  have hroot : ∀ x, 1 ≤ x → x ≤ g.no_vertices →
      read_at (tree_build g.no_vertices r.build) x = 0 → x ∈ s0 :: r.restarts := by
    intro x hx1 hx2 hx
    have hvis : read_at r.visited x ≠ 0 := by
      rw [dfs_final_visited r hinv hdone x hx1 hx2]
      omega
    rcases ht.origin x (Or.inr hvis) with h | h | h
    · rw [h]; simp
    · exact List.mem_cons_of_mem _ h
    · exact absurd hx (tree_build_child g.no_vertices r.build x (by omega) hpar h)
  exact hcl.roots_apart u v (hroot u hu1 hu2 hu) (hroot v hv1 hv2 hv) hne

theorem bfs_iter_closure {g : graph_adj_list} (hwf : WellFormed g) (hund : Undirected g)
    (s : bfs_state) (hinv : bfs_inv g s) (hcl : bfs_closure_inv g s)
    (hlt : s.no_processed < g.no_vertices) : bfs_closure_inv g (bfs_iter g s) := by
  obtain ⟨curr, rest, new, v0, hcase, hc1, hc2, hv0c, hv0, -, hproc, -, -, hnew, hvis⟩ :=
    bfs_iter_struct hwf s hinv hlt
  have hmono0 : ∀ x, read_at v0 x ≠ 0 → read_at (bfs_iter g s).visited x ≠ 0 := by
    intro x hx
    rw [hvis x]
    split
    · omega
    · split
      · omega
      · exact hx
  have hmono : ∀ x, read_at s.visited x ≠ 0 → read_at (bfs_iter g s).visited x ≠ 0 := by
    intro x hx
    apply hmono0
    by_cases hxc : x = curr
    · rw [hxc, hv0c]; omega
    · rw [hv0 x hxc]; exact hx
  have hnewvis : ∀ x ∈ new, read_at (bfs_iter g s).visited x ≠ 0 := by
    intro x hx
    rw [hvis x]
    by_cases hxc : x = curr
    · rw [if_pos hxc]; omega
    · rw [if_neg hxc, if_pos hx]; omega
  have hback : ∀ x, read_at (bfs_iter g s).visited x ≠ 0 → x ∉ new →
      x = curr ∨ read_at s.visited x ≠ 0 := by
    intro x hx hxn
    by_cases hxc : x = curr
    · exact Or.inl hxc
    · right
      rw [hvis x, if_neg hxc, if_neg hxn, hv0 x hxc] at hx
      exact hx
  refine { closed := ?_, child := ?_, roots_apart := ?_ }
  · intro u hu v hv
    rw [hvis u] at hu
    by_cases huc : u = curr
    · subst huc
      by_cases hvn : v ∈ new
      · exact hnewvis v hvn
      · apply hmono0
        intro h0
        exact hvn ((hnew v).2 ⟨hv, h0⟩)
    · rw [if_neg huc] at hu
      split at hu
      · omega
      · rw [hv0 u huc] at hu
        exact hmono v (hcl.closed u hu v hv)
  · intro c p hcp
    rw [hproc, List.mem_append] at hcp
    rcases hcp with h | h
    · exact ⟨hmono c (hcl.child c p h).1, (hcl.child c p h).2⟩
    · simp only [List.mem_map, Prod.mk.injEq] at h
      obtain ⟨e, he, rfl, rfl⟩ := h
      exact ⟨hnewvis e he, by omega⟩
  · intro r1 r2 hr1 hr2 hn1 hn2 hne hconn
    have hnot : ∀ r, (∀ p, (r, p) ∉ (bfs_iter g s).proc) →
        r ∉ new ∧ ∀ p, (r, p) ∉ s.proc := by
      intro r hn
      refine ⟨fun hm => hn curr ?_, fun p hp => hn p ?_⟩
      · rw [hproc]
        exact List.mem_append_right _ (List.mem_map.2 ⟨r, hm, rfl⟩)
      · rw [hproc]
        exact List.mem_append_left _ hp
    obtain ⟨a1, b1⟩ := hnot r1 hn1
    obtain ⟨a2, b2⟩ := hnot r2 hn2
    rcases hcase with ⟨hq, -⟩ | ⟨hq, -, h0, -, -⟩
    · have hcv : read_at s.visited curr ≠ 0 := by
        have := (hinv.queue_mem curr).1 (by rw [hq]; simp)
        omega
      have c1 : read_at s.visited r1 ≠ 0 := by
        rcases hback r1 hr1 a1 with h | h
        · rw [h]; exact hcv
        · exact h
      have c2 : read_at s.visited r2 ≠ 0 := by
        rcases hback r2 hr2 a2 with h | h
        · rw [h]; exact hcv
        · exact h
      exact hcl.roots_apart r1 r2 c1 c2 b1 b2 hne hconn
    · have hno1 : ∀ v, read_at s.visited v ≠ 1 := by
        intro v hv
        have := (hinv.queue_mem v).2 hv
        rw [hq] at this
        simp at this
      have hiff : read_at s.visited r1 ≠ 0 ↔ read_at s.visited r2 ≠ 0 := by
        apply closed_set_conn hund (fun u => read_at s.visited u ≠ 0) _ _ r1 r2 hconn
        · intro u v hu huv
          have hu2 : read_at s.visited u = 2 := by
            have := hinv.vals u
            have := hno1 u
            omega
          exact hcl.closed u hu2 v huv.2.2
        · intro u hu
          have hu2 : read_at s.visited u = 2 := by
            have := hinv.vals u
            have := hno1 u
            omega
          exact hinv.post_range u ((hinv.post_mem u).2 hu2)
      rcases hback r1 hr1 a1 with c1 | c1 <;> rcases hback r2 hr2 a2 with c2 | c2
      · exact hne (by rw [c1, c2])
      · rw [c1] at hiff
        exact hiff.2 c2 h0
      · rw [c2] at hiff
        exact hiff.1 c1 h0
      · exact hcl.roots_apart r1 r2 c1 c2 b1 b2 hne hconn

theorem bfs_init_closure (g : graph_adj_list) (v : Nat) :
    bfs_closure_inv g (bfs_init g v) where
  closed := by
    intro u hu
    exfalso
    simp only [bfs_init] at hu
    rcases read_at_set_cases (List.replicate (g.no_vertices + 1) 0) v u 1 with h | ⟨-, h⟩
    · rw [h, read_at_replicate_zero] at hu
      omega
    · omega
  child := by simp [bfs_init]
  roots_apart := by
    intro r1 r2 h1 h2 _ _ hne
    exfalso
    simp only [bfs_init] at h1 h2
    have e1 : v = r1 := by
      rcases read_at_set_cases (List.replicate (g.no_vertices + 1) 0) v r1 1 with h | ⟨h, -⟩
      · rw [h, read_at_replicate_zero] at h1
        exact absurd rfl h1
      · exact h
    have e2 : v = r2 := by
      rcases read_at_set_cases (List.replicate (g.no_vertices + 1) 0) v r2 1 with h | ⟨h, -⟩
      · rw [h, read_at_replicate_zero] at h2
        exact absurd rfl h2
      · exact h
    exact hne (by rw [← e1, ← e2])

theorem bfs_run_closure {g : graph_adj_list} (hwf : WellFormed g) (hund : Undirected g)
    (v : Nat) (h1 : 1 ≤ v) (h2 : v ≤ g.no_vertices) :
    ∃ fuel r, (∀ k, bfs_loop g (fuel + k) (bfs_init g v) = some r) ∧ bfs_inv g r ∧
      bfs_closure_inv g r ∧ ¬ r.no_processed < g.no_vertices := by
  obtain ⟨fuel, r, hr⟩ := bfs_loop_terminates g _ (bfs_init g v) rfl
  obtain ⟨⟨hi, ho⟩, hd⟩ := bfs_loop_preserves g (fun t => bfs_inv g t ∧ bfs_closure_inv g t)
    (fun t ht hlt => ⟨bfs_iter_inv hwf t ht.1 hlt, bfs_iter_closure hwf hund t ht.1 ht.2 hlt⟩)
    fuel _ r hr ⟨bfs_init_inv g v h1 h2, bfs_init_closure g v⟩
  exact ⟨fuel, r, fun k => bfs_loop_more_fuel g fuel k _ r hr, hi, ho, hd⟩

theorem bfs_roots_apart {g : graph_adj_list} (r : bfs_state)
    (hinv : bfs_inv g r) (hcl : bfs_closure_inv g r)
    (hdone : ¬ r.no_processed < g.no_vertices)
    (u v : Nat) (hu1 : 1 ≤ u) (hu2 : u ≤ g.no_vertices) (hv1 : 1 ≤ v)
    (hv2 : v ≤ g.no_vertices) (hne : u ≠ v)
    (hu : read_at (tree_build g.no_vertices r.proc) u = 0)
    (hv : read_at (tree_build g.no_vertices r.proc) v = 0) :
    ¬ Relation.ReflTransGen (Adjacent g) u v := by
  have hpar : ∀ e ∈ r.proc, e.2 ≠ 0 := fun e he => (hcl.child e.1 e.2 he).2
  have hroot : ∀ x, 1 ≤ x → x ≤ g.no_vertices →
      read_at (tree_build g.no_vertices r.proc) x = 0 →
      read_at r.visited x ≠ 0 ∧ ∀ p, (x, p) ∉ r.proc := by
    intro x hx1 hx2 hx
    constructor
    · have hm : x ∈ r.post := by
        rw [(bfs_final_perm r hinv hdone).mem_iff, List.mem_range'_1]
        omega
      rw [hinv.post_mem] at hm
      omega
    · intro p hp
      exact tree_build_child g.no_vertices r.proc x (by omega) hpar ⟨p, hp⟩ hx
  obtain ⟨a1, b1⟩ := hroot u hu1 hu2 hu
  obtain ⟨a2, b2⟩ := hroot v hv1 hv2 hv
  exact hcl.roots_apart u v a1 a2 b1 b2 hne

/-- C12: on a well-formed graph with symmetric adjacency lists and a start vertex in
`1..N`, `graph_dfs` and `graph_bfs` return (for every amount of fuel beyond some
bound), and in the parent array that `tree_build` accumulates from the tree-edge calls
of either traversal no two distinct vertices whose entry is `0` are joined by a path
of the graph. -/
theorem spanning_forest_one_root_per_component (g : graph_adj_list) (s : Nat)
    (hwf : WellFormed g) (hund : Undirected g) (h1 : 1 ≤ s) (h2 : s ≤ g.no_vertices) :
    ∃ fuel rd rb, (∀ k, graph_dfs g s (fuel + k) = some rd) ∧
      (∀ k, graph_bfs g s (fuel + k) = some rb) ∧
      ∀ u v, 1 ≤ u → u ≤ g.no_vertices → 1 ≤ v → v ≤ g.no_vertices → u ≠ v →
        (read_at (tree_build g.no_vertices rd.build) u = 0 →
          read_at (tree_build g.no_vertices rd.build) v = 0 →
          ¬ Relation.ReflTransGen (Adjacent g) u v) ∧
        (read_at (tree_build g.no_vertices rb.proc) u = 0 →
          read_at (tree_build g.no_vertices rb.proc) v = 0 →
          ¬ Relation.ReflTransGen (Adjacent g) u v) := by
  obtain ⟨f1, rd, hd, hdi, hdt, hdo, hdc, hdd⟩ := dfs_run_closure hwf hund s h1 h2
  obtain ⟨f2, rb, hb, hbi, hbc, hbd⟩ := bfs_run_closure hwf hund s h1 h2
  have hg : ¬ (s < 1 ∨ s > g.no_vertices) := by omega
  refine ⟨f1 + f2, { ret := 0, prev := rd.prev, post := rd.post, build := rd.build },
    { ret := 0, proc := rb.proc, post := rb.post }, fun k => ?_, fun k => ?_,
    fun u v hu1 hu2 hv1 hv2 hne =>
      ⟨dfs_roots_apart s rd hdi hdt hdo hdc hdd u v hu1 hu2 hv1 hv2 hne,
        bfs_roots_apart rb hbi hbc hbd u v hu1 hu2 hv1 hv2 hne⟩⟩
  · simp only [graph_dfs, if_neg hg, Nat.add_assoc, hd (f2 + k), Option.map_some']
  · have : f1 + f2 + k = f2 + (f1 + k) := by omega
    simp only [graph_bfs, if_neg hg, this, hb (f1 + k), Option.map_some']

/-- Witness for C12 on an undirected graph with two pieces, started at vertex `3`. -/
theorem spanning_forest_one_root_per_component_witness :
    ∃ fuel rd rb, (∀ k, graph_dfs sample_two_pairs 3 (fuel + k) = some rd) ∧
      (∀ k, graph_bfs sample_two_pairs 3 (fuel + k) = some rb) ∧
      ∀ u v, 1 ≤ u → u ≤ sample_two_pairs.no_vertices → 1 ≤ v →
        v ≤ sample_two_pairs.no_vertices → u ≠ v →
        (read_at (tree_build sample_two_pairs.no_vertices rd.build) u = 0 →
          read_at (tree_build sample_two_pairs.no_vertices rd.build) v = 0 →
          ¬ Relation.ReflTransGen (Adjacent sample_two_pairs) u v) ∧
        (read_at (tree_build sample_two_pairs.no_vertices rb.proc) u = 0 →
          read_at (tree_build sample_two_pairs.no_vertices rb.proc) v = 0 →
          ¬ Relation.ReflTransGen (Adjacent sample_two_pairs) u v) :=
  spanning_forest_one_root_per_component sample_two_pairs 3 (by decide) (by decide)
    (by decide) (by decide)

/-! ## Depth-first traversal of a path -/

theorem path_list_getD (n m i : Nat) :
    ((List.range (n + 1)).map (path_adj m)).getD i [] =
      if i < n + 1 then path_adj m i else [] := by
  by_cases hi : i < n + 1
  · simp [List.getD, hi]
  · rw [if_neg hi, List.getD_eq_getElem?_getD, List.getElem?_eq_none (by simp; omega)]
    rfl

theorem path_graph_get (n u : Nat) : (path_graph n).get u = path_adj n u := by
  unfold graph_adj_list.get path_graph
  simp only
  rw [path_list_getD]
  split
  · rfl
  · rename_i h
    simp only [path_adj]
    rw [if_neg (by omega), if_neg (by omega)]
    rfl

theorem path_graph_no_vertices (n : Nat) : (path_graph n).no_vertices = n := by
  simp [graph_adj_list.no_vertices, path_graph, size_pred]

theorem path_adj_mem (n u e : Nat) (h : e ∈ path_adj n u) :
    (e + 1 = u ∧ 2 ≤ u ∧ u ≤ n) ∨ (e = u + 1 ∧ 1 ≤ u ∧ u < n) := by
  unfold path_adj at h
  rcases List.mem_append.1 h with h | h
  · split at h
    · simp only [List.mem_singleton] at h
      left; omega
    · simp at h
  · split at h
    · simp only [List.mem_singleton] at h
      right; omega
    · simp at h

theorem path_graph_well_formed (n : Nat) (hn : 1 ≤ n) : WellFormed (path_graph n) := by
  refine ⟨?_, ?_, ?_⟩
  · rw [path_graph_no_vertices]
    simp [path_graph]
  · rw [path_graph_no_vertices]
    exact hn
  · rw [path_graph_no_vertices]
    intro u _ _ v hv
    rw [path_graph_get] at hv
    have := path_adj_mem n u v hv
    omega

theorem add_edge_path (n j : Nat) (hj : j + 2 ≤ n) :
    add_edge graph_type.undirected ((List.range (n + 1)).map (path_adj (j + 1)))
      (j + 1) (j + 2) = some ((List.range (n + 1)).map (path_adj (j + 2))) := by
  have h1 : j + 1 < ((List.range (n + 1)).map (path_adj (j + 1))).length := by
    simp; omega
  have h2 : j + 2 < ((List.range (n + 1)).map (path_adj (j + 1))).length := by
    simp; omega
  unfold add_edge
  rw [if_pos h1]
  simp only
  rw [if_pos h2]
  congr 1
  apply List.ext_getElem
  · simp
  · intro i hi1 hi2
    simp only [List.length_map, List.length_range] at hi2
    rw [List.getElem_set, List.getElem_set]
    simp only [List.getElem_map, List.getElem_range]
    by_cases hi : j + 2 = i
    · rw [if_pos hi]
      have hg : ((List.range (n + 1)).map (path_adj (j + 1))).set (j + 1)
          (((List.range (n + 1)).map (path_adj (j + 1))).getD (j + 1) [] ++ [j + 2]) =
          ((List.range (n + 1)).map (path_adj (j + 1))).set (j + 1)
          (path_adj (j + 1) (j + 1) ++ [j + 2]) := by
        rw [path_list_getD, if_pos (by omega)]
      have hd : (((List.range (n + 1)).map (path_adj (j + 1))).set (j + 1)
          (((List.range (n + 1)).map (path_adj (j + 1))).getD (j + 1) [] ++ [j + 2])).getD
            (j + 2) [] = path_adj (j + 1) (j + 2) := by
        rw [List.getD_eq_getElem?_getD, List.getElem?_set_ne (by omega),
          ← List.getD_eq_getElem?_getD, path_list_getD, if_pos (by omega)]
      rw [hd, ← hi]
      simp only [path_adj]
      rw [if_neg (by omega), if_neg (by omega), if_pos (by omega), if_neg (by omega)]
      simp
    · rw [if_neg hi]
      by_cases hi' : j + 1 = i
      · rw [if_pos hi', path_list_getD, if_pos (by omega), ← hi']
        simp only [path_adj]
        by_cases hj0 : j = 0
        · subst hj0
          simp
        · rw [if_pos (by omega), if_neg (by omega), if_pos (by omega), if_pos (by omega)]
          simp
      · rw [if_neg hi']
        have e1 : (2 ≤ i ∧ i ≤ j + 1) ↔ (2 ≤ i ∧ i ≤ j + 2) := by
          constructor <;> intro h <;> omega
        have e2 : (1 ≤ i ∧ i < j + 1) ↔ (1 ≤ i ∧ i < j + 2) := by
          constructor <;> intro h <;> omega
        simp only [path_adj, e1, e2]

theorem read_edges_path (n : Nat) :
    ∀ k j, j + k + 1 = n →
      read_edges graph_type.undirected k
        ((List.range' (j + 1) k).map (fun i => [some i, some (i + 1)])).flatten
        ((List.range (n + 1)).map (path_adj (j + 1))) = read_outcome.graph (path_graph n) := by
  intro k
  induction k with
  | zero =>
    intro j hj
    have : j + 1 = n := by omega
    rw [this]
    rfl
  | succ k ih =>
    intro j hj
    have hstep : ((List.range' (j + 1) (k + 1)).map
        (fun i => [some i, some (i + 1)])).flatten =
        some (j + 1) :: some (j + 2) ::
          ((List.range' (j + 1 + 1) k).map (fun i => [some i, some (i + 1)])).flatten := by
      rw [List.range'_succ]
      simp
    rw [hstep]
    simp only [read_edges]
    rw [add_edge_path n j (by omega)]
    exact ih (j + 1) (by omega)

theorem graph_read_path (n : Nat) (hn : 1 ≤ n) (hmax : n < 2 ^ 64 - 1) :
    graph_read (some 'U') (path_input n) = read_outcome.graph (path_graph n) := by
  have hs : size_succ n = n + 1 := by
    unfold size_succ
    rw [if_neg (by omega)]
  have hrep : List.replicate (n + 1) ([] : List Nat) = (List.range (n + 1)).map (path_adj 1) := by
    apply List.ext_getElem
    · simp
    · intro i h1 h2
      simp only [List.getElem_replicate, List.getElem_map, List.getElem_range, path_adj]
      rw [if_neg (by omega), if_neg (by omega)]
      rfl
  unfold graph_read path_input
  simp only [if_true]
  rw [hs, hrep]
  exact read_edges_path n (n - 1) 0 (by omega)

theorem path_dfs_visit (n : Nat) (s : dfs_state) (curr : Nat) (rest : List Nat)
    (hinv : dfs_inv (path_graph n) s) (hstk : s.v_stack = curr :: rest)
    (hp : s.prev = List.range' 1 s.prev.length)
    (hs : ∀ y ∈ s.v_stack, read_at s.visited y = 0 → y = s.prev.length + 1) :
    (dfs_visit (path_graph n) s curr rest).prev =
        List.range' 1 (dfs_visit (path_graph n) s curr rest).prev.length ∧
      ∀ y ∈ (dfs_visit (path_graph n) s curr rest).v_stack,
        read_at (dfs_visit (path_graph n) s curr rest).visited y = 0 →
          y = (dfs_visit (path_graph n) s curr rest).prev.length + 1 := by
  have hc : 1 ≤ curr ∧ curr ≤ (path_graph n).no_vertices :=
    hinv.stack_range curr (by simp [hstk])
  have hclt : curr < s.visited.length := by rw [hinv.len]; omega
  by_cases h0 : read_at s.visited curr = 0
  · rw [dfs_visit_open (path_graph n) s curr rest h0]
    have hcm : curr = s.prev.length + 1 := hs curr (by rw [hstk]; simp) h0
    have hcur : read_at (s.visited.set curr 1) curr = 1 := read_at_set_self _ _ _ hclt
    refine ⟨?_, ?_⟩
    · show s.prev ++ [curr] = List.range' 1 (s.prev ++ [curr]).length
      rw [List.length_append, List.length_singleton, List.range'_concat, ← hp, hcm]
      simp [Nat.add_comm]
    · intro y hy h0y
      have h0y2 : read_at (s.visited.set curr 1) y = 0 := h0y
      have hyc : y ≠ curr := by
        intro h
        rw [h, hcur] at h0y2
        omega
      rw [read_at_set_other _ _ _ _ (Ne.symm hyc)] at h0y2
      show y = (s.prev ++ [curr]).length + 1
      rw [List.length_append, List.length_singleton]
      have hy2 : y ∈ ((path_graph n).get curr).filter
          (fun e => decide (read_at (s.visited.set curr 1) e = 0)) ∨ y ∈ curr :: rest := by
        have hy3 : y ∈ (((path_graph n).get curr).filter
          (fun e => decide (read_at (s.visited.set curr 1) e = 0))).reverse ++ curr :: rest := hy
        rw [List.mem_append, List.mem_reverse] at hy3
        exact hy3
      rcases hy2 with hy2 | hy2
      · rw [List.mem_filter, path_graph_get] at hy2
        rcases path_adj_mem n curr y hy2.1 with ⟨e1, e2, -⟩ | ⟨e1, -, -⟩
        · exfalso
          have hm : y ∈ s.prev := by
            rw [hp, List.mem_range'_1]
            omega
          rw [hinv.prev_mem] at hm
          exact hm h0y2
        · omega
      · have := hs y (by rw [hstk]; exact hy2) h0y2
        omega
  · by_cases h1 : read_at s.visited curr = 1
    · rw [dfs_visit_close (path_graph n) s curr rest h1]
      refine ⟨hp, ?_⟩
      intro y hy h0y
      have h0y2 : read_at (s.visited.set curr 2) y = 0 := h0y
      have hyc : y ≠ curr := by
        intro h
        rw [h, read_at_set_self _ _ _ hclt] at h0y2
        omega
      rw [read_at_set_other _ _ _ _ (Ne.symm hyc)] at h0y2
      exact hs y (by rw [hstk]; exact List.mem_cons_of_mem _ hy) h0y2
    · rw [dfs_visit_drop (path_graph n) s curr rest h0 h1]
      exact ⟨hp, fun y hy h0y => hs y (by rw [hstk]; exact List.mem_cons_of_mem _ hy) h0y⟩

theorem path_dfs_iter (n : Nat) (s : dfs_state) (hinv : dfs_inv (path_graph n) s)
    (hlt : s.no_processed < (path_graph n).no_vertices)
    (hp : s.prev = List.range' 1 s.prev.length)
    (hs : ∀ y ∈ s.v_stack, read_at s.visited y = 0 → y = s.prev.length + 1) :
    (dfs_iter (path_graph n) s).prev =
        List.range' 1 (dfs_iter (path_graph n) s).prev.length ∧
      ∀ y ∈ (dfs_iter (path_graph n) s).v_stack,
        read_at (dfs_iter (path_graph n) s).visited y = 0 →
          y = (dfs_iter (path_graph n) s).prev.length + 1 := by
  unfold dfs_iter
  split
  · rename_i hstk
    obtain ⟨hr, h0⟩ := dfs_restart_spec s hinv hstk hlt
    obtain ⟨-, hb, -⟩ := first_unvisited_spec (path_graph n).no_vertices s.visited
      (path_graph n).no_vertices 1 (by omega)
    generalize first_unvisited (path_graph n).no_vertices s.visited
      (path_graph n).no_vertices 1 = i at hr h0 hb ⊢
    have hinv1 : dfs_inv (path_graph n)
        { s with restarts := s.restarts ++ [i], v_stack := [i] } :=
      { len := hinv.len
        stack_range := by
          intro x hx
          simp at hx
          exact hx ▸ hr
        open_on_stack := by
          intro v hv
          have := hinv.open_on_stack v hv
          rw [hstk] at this
          simp at this
        vals := hinv.vals
        prev_nodup := hinv.prev_nodup
        prev_range := hinv.prev_range
        prev_mem := hinv.prev_mem
        post_nodup := hinv.post_nodup
        post_mem := hinv.post_mem
        processed := hinv.processed }
    have hi : i = s.prev.length + 1 := by
      have hni : i ∉ s.prev := by
        rw [hinv.prev_mem]
        omega
      rw [hp, List.mem_range'_1] at hni
      by_contra hne
      have hm : s.prev.length + 1 ∈ s.prev := by
        rw [hinv.prev_mem]
        exact (hb (s.prev.length + 1) (by omega) (by omega)).2
      have hm2 : s.prev.length + 1 ∈ List.range' 1 s.prev.length := by
        rw [← hp]
        exact hm
      rw [List.mem_range'_1] at hm2
      omega
    have h := path_dfs_visit n _ i [] hinv1 rfl hp (by
      intro y hy _
      simp only [List.mem_singleton] at hy
      rw [hy]
      exact hi)
    exact h
  · rename_i curr rest hstk
    exact path_dfs_visit n s curr rest hinv hstk hp hs

/-- C15: for every `n ≥ 1`, reading the stream `U n n-1  1 2  2 3  …  n-1 n` yields the
path graph with both directions stored (for `n` below the largest `size_t`), and on that
graph `graph_dfs` from start vertex `1` returns `0` (for every amount of fuel beyond
some bound) with the pre-visit calls `1, 2, …, n` in that order. -/
theorem graph_dfs_path_previsit_order (n : Nat) (hn : 1 ≤ n) :
    (n < 2 ^ 64 - 1 →
      graph_read (some 'U') (path_input n) = read_outcome.graph (path_graph n)) ∧
    ∃ fuel r, (∀ k, graph_dfs (path_graph n) 1 (fuel + k) = some r) ∧ r.ret = 0 ∧
      r.prev = List.range' 1 n := by
  refine ⟨graph_read_path n hn, ?_⟩
  have hwf := path_graph_well_formed n hn
  have hN := path_graph_no_vertices n
  have h2 : 1 ≤ (path_graph n).no_vertices := by rw [hN]; exact hn
  obtain ⟨fuel, r, hr⟩ := dfs_loop_terminates hwf (dfs_init (path_graph n) 1)
    (dfs_init_inv _ 1 (le_refl 1) h2)
  obtain ⟨⟨hi, hp, -⟩, hd⟩ := dfs_loop_preserves (path_graph n)
    (fun t => dfs_inv (path_graph n) t ∧ t.prev = List.range' 1 t.prev.length ∧
      ∀ y ∈ t.v_stack, read_at t.visited y = 0 → y = t.prev.length + 1)
    (fun t ht hlt => ⟨dfs_iter_inv hwf t ht.1 hlt, path_dfs_iter n t ht.1 hlt ht.2.1 ht.2.2⟩)
    fuel _ r hr ⟨dfs_init_inv _ 1 (le_refl 1) h2, rfl, by
      intro y hy _
      simp only [dfs_init, List.mem_singleton] at hy
      rw [hy]
      rfl⟩
  have hg : ¬ ((1 : Nat) < 1 ∨ 1 > (path_graph n).no_vertices) := by omega
  refine ⟨fuel, { ret := 0, prev := r.prev, post := r.post, build := r.build },
    fun k => ?_, rfl, ?_⟩
  · simp only [graph_dfs, if_neg hg, dfs_loop_more_fuel _ fuel k _ r hr, Option.map_some']
  · have hlen : r.prev.length = n := by
      rw [(dfs_final_perm r hi hd).1.length_eq, List.length_range', hN]
    show r.prev = List.range' 1 n
    rw [hp, hlen]

/-- Witness for C15 at `n = 4`: the stream is `U 4 3  1 2  2 3  3 4`, the graph has the
adjacency lists `1:[2]`, `2:[1,3]`, `3:[2,4]`, `4:[3]` and the order is `1, 2, 3, 4`. -/
theorem graph_dfs_path_previsit_order_witness :
    (path_input 4 = [some 4, some 3, some 1, some 2, some 2, some 3, some 3, some 4] ∧
      (path_graph 4).list_ = [[], [2], [1, 3], [2, 4], [3]] ∧
      List.range' 1 4 = [1, 2, 3, 4]) ∧
    (4 < 2 ^ 64 - 1 →
      graph_read (some 'U') (path_input 4) = read_outcome.graph (path_graph 4)) ∧
    ∃ fuel r, (∀ k, graph_dfs (path_graph 4) 1 (fuel + k) = some r) ∧ r.ret = 0 ∧
      r.prev = List.range' 1 4 :=
  ⟨by decide, graph_dfs_path_previsit_order 4 (by decide)⟩

/-! ## Breadth-first traversal: order of distance -/

theorem bfs_level_final {g : graph_adj_list} (s0 : Nat) (s : bfs_state) (lvl : Nat → Nat)
    (h : bfs_level_inv g s0 s lvl) (hq : s.v_queue = []) : bfs_dist_prefix g s0 s.post := by
  have hord : s.post ++ s.v_queue = s.post := by rw [hq, List.append_nil]
  have hmin : ∀ v d, WalkLen g s0 v d → v ∈ s.post ∧ lvl v ≤ d := by
    intro v d hw
    induction hw with
    | zero =>
      have := h.start
      rw [hord] at this
      exact ⟨this.1, by omega⟩
    | @step u v d _ he ih =>
      have := h.closed u ih.1 v he.2.2
      rw [hord] at this
      exact ⟨this.1, by omega⟩
  refine ⟨s.post, [], lvl, by simp, fun v => ⟨fun hv => ?_, fun hv => ?_⟩, fun v hv => ?_, ?_⟩
  · exact ⟨lvl v, h.walk v (by rw [hord]; exact hv)⟩
  · obtain ⟨d, hd⟩ := hv
    exact (hmin v d hd).1
  · exact ⟨h.walk v (by rw [hord]; exact hv), fun d2 hd2 => (hmin v d2 hd2).2⟩
  · have := h.sorted
    rw [hord] at this
    exact this

theorem bfs_iter_level {g : graph_adj_list} (hwf : WellFormed g) (s0 : Nat) (s : bfs_state)
    (lvl : Nat → Nat) (hinv : bfs_inv g s) (h : bfs_level_inv g s0 s lvl)
    (hne : s.v_queue ≠ []) (hlt : s.no_processed < g.no_vertices) :
    ∃ lvl2, bfs_level_inv g s0 (bfs_iter g s) lvl2 := by
  obtain ⟨curr, rest, new, v0, hcase, hc1, hc2, -, -, hq, -, hpost, -, hnew, -⟩ :=
    bfs_iter_struct hwf s hinv hlt
  rcases hcase with ⟨hqs, hv0⟩ | ⟨hqs, -⟩
  swap
  · exact absurd hqs hne
  subst hv0
  have hord2 : (bfs_iter g s).post ++ (bfs_iter g s).v_queue =
      (s.post ++ s.v_queue) ++ new := by
    rw [hpost, hq, hqs]
    simp
  have hcq : curr ∈ s.v_queue := by rw [hqs]; simp
  have hcm : curr ∈ s.post ++ s.v_queue := List.mem_append_right _ hcq
  have hnew0 : ∀ e ∈ new, e ∉ s.post ++ s.v_queue := by
    intro e he hm
    exact (bfs_ord_mem s hinv e).1 hm ((hnew e).1 he).2
  have hl1 : ∀ x ∈ s.post ++ s.v_queue,
      (if x ∈ new then lvl curr + 1 else lvl x) = lvl x := by
    intro x hx
    rw [if_neg (fun hm => hnew0 x hm hx)]
  have hl2 : ∀ x ∈ new, (if x ∈ new then lvl curr + 1 else lvl x) = lvl curr + 1 := by
    intro x hx
    rw [if_pos hx]
  have hrest : ∀ q ∈ rest, lvl curr ≤ lvl q := by
    intro q hqm
    have hs := h.sorted
    rw [hqs, List.pairwise_append] at hs
    exact (List.pairwise_cons.1 hs.2.1).1 q hqm
  refine ⟨fun x => if x ∈ new then lvl curr + 1 else lvl x, ?_⟩
  refine { start := ?_, sorted := ?_, walk := ?_, closed := ?_, near := ?_ }
  · rw [hord2]
    refine ⟨List.mem_append_left _ h.start.1, ?_⟩
    show (if s0 ∈ new then lvl curr + 1 else lvl s0) = 0
    rw [hl1 s0 h.start.1]
    exact h.start.2
  · rw [hord2, List.pairwise_append]
    refine ⟨?_, ?_, ?_⟩
    · refine List.Pairwise.imp_of_mem ?_ h.sorted
      intro a b ha hb hab
      show (if a ∈ new then lvl curr + 1 else lvl a) ≤ (if b ∈ new then lvl curr + 1 else lvl b)
      rw [hl1 a ha, hl1 b hb]
      exact hab
    · apply List.pairwise_of_forall_mem_list
      intro a ha b hb
      show (if a ∈ new then lvl curr + 1 else lvl a) ≤ (if b ∈ new then lvl curr + 1 else lvl b)
      rw [hl2 a ha, hl2 b hb]
    · intro a ha b hb
      show (if a ∈ new then lvl curr + 1 else lvl a) ≤ (if b ∈ new then lvl curr + 1 else lvl b)
      rw [hl1 a ha, hl2 b hb]
      exact h.near a ha curr hcq
  · intro v hv
    rw [hord2, List.mem_append] at hv
    show WalkLen g s0 v (if v ∈ new then lvl curr + 1 else lvl v)
    rcases hv with hv | hv
    · rw [hl1 v hv]
      exact h.walk v hv
    · rw [hl2 v hv]
      exact WalkLen.step (h.walk curr hcm) ⟨hc1, hc2, ((hnew v).1 hv).1⟩
  · intro u hu e he
    rw [hpost, List.mem_append, List.mem_singleton] at hu
    rw [hord2]
    show _ ∧ (if e ∈ new then lvl curr + 1 else lvl e) ≤
      (if u ∈ new then lvl curr + 1 else lvl u) + 1
    rcases hu with hu | hu
    · obtain ⟨a, b⟩ := h.closed u hu e he
      rw [hl1 e a, hl1 u (List.mem_append_left _ hu)]
      exact ⟨List.mem_append_left _ a, b⟩
    · subst hu
      rw [hl1 u hcm]
      by_cases hen : e ∈ new
      · rw [hl2 e hen]
        exact ⟨List.mem_append_right _ hen, le_refl _⟩
      · have hev : read_at s.visited e ≠ 0 := fun h0 => hen ((hnew e).2 ⟨he, h0⟩)
        have hem := (bfs_ord_mem s hinv e).2 hev
        rw [hl1 e hem]
        exact ⟨List.mem_append_left _ hem, h.near e hem u hcq⟩
  · intro x hx q hqm
    rw [hord2, List.mem_append] at hx
    rw [hq, List.mem_append] at hqm
    show (if x ∈ new then lvl curr + 1 else lvl x) ≤
      (if q ∈ new then lvl curr + 1 else lvl q) + 1
    have hx2 : (if x ∈ new then lvl curr + 1 else lvl x) ≤ lvl curr + 1 := by
      rcases hx with hx | hx
      · rw [hl1 x hx]
        exact h.near x hx curr hcq
      · rw [hl2 x hx]
    have hq2 : lvl curr ≤ (if q ∈ new then lvl curr + 1 else lvl q) := by
      rcases hqm with hqm | hqm
      · rw [hl1 q (by rw [hqs]; exact List.mem_append_right _ (List.mem_cons_of_mem _ hqm))]
        exact hrest q hqm
      · rw [hl2 q hqm]
        omega
    omega

theorem bfs_iter_post (g : graph_adj_list) (s : bfs_state) :
    ∃ c, (bfs_iter g s).post = s.post ++ [c] := by
  unfold bfs_iter
  split
  · exact ⟨_, rfl⟩
  · exact ⟨_, rfl⟩

theorem bfs_iter_dist {g : graph_adj_list} (hwf : WellFormed g) (s0 : Nat) (s : bfs_state)
    (hinv : bfs_inv g s)
    (h : (s.v_queue ≠ [] ∧ ∃ lvl, bfs_level_inv g s0 s lvl) ∨ bfs_dist_prefix g s0 s.post)
    (hlt : s.no_processed < g.no_vertices) :
    ((bfs_iter g s).v_queue ≠ [] ∧ ∃ lvl, bfs_level_inv g s0 (bfs_iter g s) lvl) ∨
      bfs_dist_prefix g s0 (bfs_iter g s).post := by
  rcases h with ⟨hne, lvl, hl⟩ | ⟨l1, l2, d, hp, h1, h2, h3⟩
  · obtain ⟨lvl2, hl2⟩ := bfs_iter_level hwf s0 s lvl hinv hl hne hlt
    by_cases hq : (bfs_iter g s).v_queue = []
    · exact Or.inr (bfs_level_final s0 _ lvl2 hl2 hq)
    · exact Or.inl ⟨hq, lvl2, hl2⟩
  · right
    obtain ⟨c, hc⟩ := bfs_iter_post g s
    exact ⟨l1, l2 ++ [c], d, by rw [hc, hp, List.append_assoc], h1, h2, h3⟩

theorem bfs_init_level (g : graph_adj_list) (s0 : Nat) :
    bfs_level_inv g s0 (bfs_init g s0) (fun _ => 0) where
  start := by simp [bfs_init]
  sorted := by simp [bfs_init]
  walk := by
    intro v hv
    simp only [bfs_init, List.nil_append, List.mem_singleton] at hv
    rw [hv]
    exact WalkLen.zero
  closed := by simp [bfs_init]
  near := by simp

/-- C20: on a well-formed graph with a start vertex `s` in `1..N`, `graph_bfs` returns
(for every amount of fuel beyond some bound) and its sequence of post-visit calls
splits into a first part that holds exactly the vertices reachable from `s`, in
non-decreasing order of their distance from `s` (the number of edges of a shortest
walk), and a second part that holds no vertex reachable from `s`. -/
theorem graph_bfs_post_order_by_distance (g : graph_adj_list) (s : Nat)
    (hwf : WellFormed g) (h1 : 1 ≤ s) (h2 : s ≤ g.no_vertices) :
    ∃ fuel r, (∀ k, graph_bfs g s (fuel + k) = some r) ∧ r.ret = 0 ∧
      ∃ (l1 l2 : List Nat) (d : Nat → Nat), r.post = l1 ++ l2 ∧
        (∀ v, v ∈ l1 ↔ Reachable g s v) ∧ (∀ v ∈ l2, ¬ Reachable g s v) ∧
        (∀ v ∈ l1, IsDist g s v (d v)) ∧ l1.Pairwise (fun a b => d a ≤ d b) := by
  obtain ⟨fuel, r, hr⟩ := bfs_loop_terminates g _ (bfs_init g s) rfl
  obtain ⟨⟨hi, hd⟩, hdone⟩ := bfs_loop_preserves g
    (fun t => bfs_inv g t ∧ ((t.v_queue ≠ [] ∧ ∃ lvl, bfs_level_inv g s t lvl) ∨
      bfs_dist_prefix g s t.post))
    (fun t ht hlt => ⟨bfs_iter_inv hwf t ht.1 hlt, bfs_iter_dist hwf s t ht.1 ht.2 hlt⟩)
    fuel _ r hr ⟨bfs_init_inv g s h1 h2,
      Or.inl ⟨by simp [bfs_init], fun _ => 0, bfs_init_level g s⟩⟩
  have hg : ¬ (s < 1 ∨ s > g.no_vertices) := by omega
  refine ⟨fuel, { ret := 0, proc := r.proc, post := r.post }, fun k => ?_, rfl, ?_⟩
  · simp only [graph_bfs, if_neg hg, bfs_loop_more_fuel g fuel k _ r hr, Option.map_some']
  · have hq := bfs_final_queue r hi hdone
    rcases hd with ⟨hne, -⟩ | ⟨l1, l2, d, hp, a1, a2, a3⟩
    · exact absurd hq hne
    · refine ⟨l1, l2, d, hp, a1, fun v hv hreach => ?_, a2, a3⟩
      have hnd := hi.post_nodup
      rw [hp, List.nodup_append] at hnd
      exact hnd.2.2 ((a1 v).2 hreach) hv

/-- Witness for C20 on a graph with two pieces, started at vertex `2`. -/
theorem graph_bfs_post_order_by_distance_witness :
    ∃ fuel r, (∀ k, graph_bfs sample_two_pieces 2 (fuel + k) = some r) ∧ r.ret = 0 ∧
      ∃ (l1 l2 : List Nat) (d : Nat → Nat), r.post = l1 ++ l2 ∧
        (∀ v, v ∈ l1 ↔ Reachable sample_two_pieces 2 v) ∧
        (∀ v ∈ l2, ¬ Reachable sample_two_pieces 2 v) ∧
        (∀ v ∈ l1, IsDist sample_two_pieces 2 v (d v)) ∧
        l1.Pairwise (fun a b => d a ≤ d b) :=
  graph_bfs_post_order_by_distance sample_two_pieces 2 (by decide) (by decide) (by decide)

/-! ## Strongly connected components: the read after the last component -/

/-- On every well-formed graph the call of `graph_strongly_connected` with start vertex
`1` ends in the evaluation of `priority_stack.back()` on an empty vector (for every
amount of fuel beyond some bound) and returns no list, whatever the fuel. -/
theorem strongly_connected_always_reads_empty (g : graph_adj_list) (hwf : WellFormed g) :
    (∃ fuel comps, ∀ k,
      graph_strongly_connected g 1 (fuel + k) = some (scc_outcome.empty_back comps)) ∧
    ∀ fuel cl, graph_strongly_connected g 1 fuel ≠ some (scc_outcome.returned cl) := by
  obtain ⟨fuel, comps, hrun, -⟩ := scc_run hwf
  exact ⟨⟨fuel, comps, hrun⟩, fun f cl => scc_never_returns hwf f cl⟩

/-- C6 fails on the code: on the well-formed graph with edges `(1,2)`, `(1,3)`, `(2,4)`,
`(3,4)` (read from the stream `D 4 4  1 2  1 3  2 4  3 4`) the call of
`graph_strongly_connected` with start vertex `1` returns no list, whatever the fuel:
with fuel from `9` on it ends in the evaluation of `priority_stack.back()` on an empty
vector, which has no defined behaviour.  The components collected up to that point
are `[4]`, `[3]`, `[2]`, `[1]`. -/
theorem strongly_connected_returns_no_list :
    graph_read (some 'D')
        [some 4, some 4, some 1, some 2, some 1, some 3, some 2, some 4, some 3, some 4] =
      read_outcome.graph sample_diamond ∧
    WellFormed sample_diamond ∧
    (∀ k, graph_strongly_connected sample_diamond 1 (9 + k) =
      some (scc_outcome.empty_back [[4], [3], [2], [1]])) ∧
    ∀ fuel cl, graph_strongly_connected sample_diamond 1 fuel ≠
      some (scc_outcome.returned cl) := by
  refine ⟨by decide, by decide, fun k => ?_, fun fuel cl => ?_⟩
  · exact scc_more_fuel sample_diamond 1 9 k _ (by decide)
  · exact scc_never_returns (by decide) fuel cl

end GraphTraversal
